import Mathlib

/-!
Verification of the bogn (rdms) key-value index library against its
specification.  The Rust sources under src/ are shallowly embedded:

* machine integers (u64/usize) become Nat, with wrap-around written out
  explicitly at the places where the Rust code can overflow;
* Vec<u8> buffers become List Nat (each element a byte value);
* fallible Rust code returns Except; a Rust panic (byteSlice out of range,
  arithmetic underflow, explicit panic!) is modelled by Option.none
  wrapped around the result type;
* Option<Box<Node>> tree links become an explicit leaf constructor.
-/

/-! ## Byte-level helpers (u64 big-endian encoding, as in to_be_bytes) -/

/-- Big-endian byte encoding of a natural number into w bytes,
mirroring Rust u64::to_be_bytes (w = 8). -/
def toBE : Nat → Nat → List Nat
  | 0, _ => []
  | w + 1, n => toBE w (n / 256) ++ [n % 256]

/-- Big-endian byte decoding, mirroring u64::from_be_bytes. -/
def fromBE (l : List Nat) : Nat := l.foldl (fun a b => a * 256 + b) 0

theorem toBE_length (w n : Nat) : (toBE w n).length = w := by
  induction w generalizing n with
  | zero => rfl
  | succ w ih => simp [toBE, ih]

theorem fromBE_append_one (l : List Nat) (b : Nat) :
    fromBE (l ++ [b]) = fromBE l * 256 + b := by
  simp [fromBE, List.foldl_append]

theorem fromBE_toBE (w n : Nat) (h : n < 256 ^ w) : fromBE (toBE w n) = n := by
  induction w generalizing n with
  | zero => simp [toBE, fromBE]; omega
  | succ w ih =>
    have hdiv : n / 256 < 256 ^ w := by
      rw [Nat.div_lt_iff_lt_mul (by norm_num)]
      calc n < 256 ^ (w + 1) := h
        _ = 256 ^ w * 256 := by ring
    rw [toBE, fromBE_append_one, ih _ hdiv]
    omega

/-- Rust range slicing buf[x..y] on a byte vector: panics (none) when the
range is invalid, otherwise yields the sub-list. -/
def byteSlice (l : List Nat) (x y : Nat) : Option (List Nat) :=
  if x ≤ y ∧ y ≤ l.length then some ((l.drop x).take (y - x)) else none

theorem byteSlice_eq_of_le {l : List Nat} {x y : Nat} (h1 : x ≤ y) (h2 : y ≤ l.length) :
    byteSlice l x y = some ((l.drop x).take (y - x)) := by
  simp [byteSlice, h1, h2]

namespace Robt

/-! ## ROBT meta items (src/robt.rs: write_meta_items / read_meta_items) -/

/-- Errors surfaced by the meta-item reader (src/error.rs variants used by
src/robt.rs).  PartialRead models util::read_buffer failing on a short
read, InvalidSnapshot a marker / root mismatch. -/
inductive Error where
  | PartialRead
  | InvalidSnapshot
  deriving DecidableEq, Repr

/-- Meta items stored at the tip of a robt index file (src/robt.rs MetaItem).
The Stats variant is a JSON string in the source; it is represented here by
its UTF-8 bytes. -/
inductive MetaItem where
  | Root (fpos : Nat)
  | AppMetadata (md : List Nat)
  | Stats (st : List Nat)
  | Marker (mk : List Nat)
  deriving DecidableEq, Repr

/-- Config::MARKER_BLOCK_SIZE (src/robt.rs line 372). -/
def MARKER_BLOCK_SIZE : Nat := 1024 * 4

/-- Config::compute_root_block (src/robt.rs lines 443-449). -/
def computeRootBlock (n : Nat) : Nat :=
  if n % MARKER_BLOCK_SIZE = 0 then n
  else (n / MARKER_BLOCK_SIZE + 1) * MARKER_BLOCK_SIZE

/-- Modelled from the spec: ROOT_MARKER, the fixed ASCII sentinel baked into
the build (its defining module robt_config.rs / robt_marker.rs is not under
src/; the spec only says it is a fixed ASCII-byte sentinel and that a
mismatch yields InvalidSnapshot).  A concrete 16-byte value is used. -/
def ROOT_MARKER : List Nat :=
  [98, 111, 103, 110, 45, 114, 111, 98, 116, 45, 109, 97, 114, 107, 101, 114]

/-- Bytes appended to the index file by write_meta_items
(src/robt.rs lines 488-534).  The source enumerates the items and panics
unless they are exactly [Root, AppMetadata, Stats, Marker]; that panic is
the none case.  The 32-byte header holds the four big-endian u64 lengths;
the block is md ++ stats ++ marker ++ hdr, then
resize(n, 0) / copy_within(0..m, shift) turns it into
block.take shift ++ block (the first shift bytes of the original block are
left in place as padding and the whole block is shifted to the end). -/
def writeMetaItems : List MetaItem → Option (List Nat)
  | [.Root fpos, .AppMetadata md, .Stats st, .Marker mk] =>
    let hdr := toBE 8 (fpos % 2 ^ 64) ++ toBE 8 (md.length % 2 ^ 64) ++
      toBE 8 (st.length % 2 ^ 64) ++ toBE 8 (mk.length % 2 ^ 64)
    let block := md ++ st ++ mk ++ hdr
    let n := computeRootBlock block.length
    let resized := block ++ List.replicate (n - block.length) 0
    some (resized.take (n - block.length) ++ block)
  | _ => none

/-- Modelled from the spec: util::read_buffer (src/util.rs is not under
src/); the spec says any short or unexpected read is reified as
PartialRead.  Reads n bytes at offset fpos of the file. -/
def readBuffer (file : List Nat) (fpos n : Nat) : Except Error (List Nat) :=
  if fpos + n ≤ file.length then .ok ((file.drop fpos).take n)
  else .error .PartialRead

/-- read_meta_items (src/robt.rs lines 543-593) over the file contents.
The outer Option is a Rust panic (an out-of-range byteSlice index inside the
block); Except carries the PartialRead / InvalidSnapshot errors.  The
from_utf8 conversion of the stats is the identity on the byte level. -/
def readMetaItems (file : List Nat) : Option (Except Error (List MetaItem)) :=
  let m := file.length
  match readBuffer file (m - 32) 32 with
  | .error e => some (.error e)
  | .ok hdr =>
    let root := fromBE (hdr.take 8)
    let n_md := fromBE ((hdr.drop 8).take 8)
    let n_stats := fromBE ((hdr.drop 16).take 8)
    let n_marker := fromBE ((hdr.drop 24).take 8)
    let n := computeRootBlock (n_stats + n_md + n_marker + 32)
    match readBuffer file (m - n) n with
    | .error e => some (.error e)
    | .ok block =>
      let z := n - 32
      match byteSlice block (z - n_marker) z with
      | none => none
      | some marker =>
        if marker ≠ ROOT_MARKER then some (.error .InvalidSnapshot)
        else
          match byteSlice block (z - n_marker - n_stats) (z - n_marker) with
          | none => none
          | some stats =>
            match byteSlice block (z - n_marker - n_stats - n_md) (z - n_marker - n_stats) with
            | none => none
            | some app_data =>
              let items := [MetaItem.Root root, .AppMetadata app_data,
                .Stats stats, .Marker marker]
              if m - n ≠ root then some (.error .InvalidSnapshot)
              else some (.ok items)

theorem computeRootBlock_mod (n : Nat) : computeRootBlock n % MARKER_BLOCK_SIZE = 0 := by
  unfold computeRootBlock
  split
  · assumption
  · simp [Nat.mul_mod_left]

theorem computeRootBlock_ge (n : Nat) : n ≤ computeRootBlock n := by
  unfold computeRootBlock MARKER_BLOCK_SIZE
  split
  · exact le_refl n
  · omega

theorem readBuffer_append (A B : List Nat) :
    readBuffer (A ++ B) A.length B.length = .ok B := by
  simp [readBuffer]

theorem byteSlice_append (A B C : List Nat) :
    byteSlice (A ++ (B ++ C)) A.length (A.length + B.length) = some B := by
  rw [byteSlice_eq_of_le (by omega) (by simp)]
  rw [show A.length + B.length - A.length = B.length by omega]
  rw [List.drop_left, List.take_left]

theorem hdr32_length (a b c d : Nat) :
    (toBE 8 a ++ toBE 8 b ++ toBE 8 c ++ toBE 8 d).length = 32 := by
  simp [toBE_length]

theorem hdr32_take8 (a b c d : Nat) :
    (toBE 8 a ++ toBE 8 b ++ toBE 8 c ++ toBE 8 d).take 8 = toBE 8 a := by
  rw [List.append_assoc, List.append_assoc]
  rw [List.take_append_of_le_length (by simp [toBE_length])]
  exact List.take_of_length_le (by simp [toBE_length])

theorem hdr32_drop8 (a b c d : Nat) :
    (toBE 8 a ++ toBE 8 b ++ toBE 8 c ++ toBE 8 d).drop 8 =
      toBE 8 b ++ toBE 8 c ++ toBE 8 d := by
  rw [List.append_assoc, List.append_assoc]
  rw [List.drop_left' (by simp [toBE_length])]
  rw [List.append_assoc]

theorem take8_two (b c : Nat) (R : List Nat) :
    ((toBE 8 b ++ toBE 8 c) ++ R).take 8 = toBE 8 b := by
  rw [List.append_assoc]
  exact List.take_left' (toBE_length 8 b)

theorem hdr32_fields (a b c d : Nat) (ha : a < 2 ^ 64) (hb : b < 2 ^ 64)
    (hc : c < 2 ^ 64) (hd : d < 2 ^ 64) :
    let h := toBE 8 a ++ toBE 8 b ++ toBE 8 c ++ toBE 8 d
    fromBE (h.take 8) = a ∧ fromBE ((h.drop 8).take 8) = b ∧
      fromBE ((h.drop 16).take 8) = c ∧ fromBE ((h.drop 24).take 8) = d := by
  intro h
  have e64 : (2 : Nat) ^ 64 = 256 ^ 8 := by norm_num
  have h8 := hdr32_drop8 a b c d
  have h16 : h.drop 16 = toBE 8 c ++ toBE 8 d := by
    show h.drop (8 + 8) = _
    rw [← List.drop_drop, h8, List.append_assoc, List.drop_left' (toBE_length 8 b)]
  have h24 : h.drop 24 = toBE 8 d := by
    show h.drop (16 + 8) = _
    rw [← List.drop_drop, h16, List.drop_left' (toBE_length 8 c)]
  refine ⟨?_, ?_, ?_, ?_⟩
  · rw [hdr32_take8, fromBE_toBE 8 a (e64 ▸ ha)]
  · rw [h8, take8_two, fromBE_toBE 8 b (e64 ▸ hb)]
  · rw [h16, List.take_left' (toBE_length 8 c), fromBE_toBE 8 c (e64 ▸ hc)]
  · rw [h24, List.take_of_length_le (by rw [toBE_length]), fromBE_toBE 8 d (e64 ▸ hd)]

/-- C3: reading back what write_meta_items wrote yields the same items, the
appended meta region's length is a multiple of 4096, and the final 32 bytes
of the file are the four big-endian u64 lengths
[root_fpos, app_meta_len, stats_len, marker_len].  The hypotheses are the
conditions under which the builder calls the writer: the root file position
is the file length before the append (the meta block is appended right
after the root block) and all lengths fit in a u64. -/
theorem robt_meta_roundtrip (file md st : List Nat) (root : Nat)
    (hroot : root = file.length)
    (hrootlt : root < 2 ^ 64) (hmd : md.length < 2 ^ 64) (hst : st.length < 2 ^ 64) :
    ∃ B : List Nat,
      writeMetaItems [.Root root, .AppMetadata md, .Stats st, .Marker ROOT_MARKER] = some B ∧
      readMetaItems (file ++ B) =
        some (.ok [MetaItem.Root root, .AppMetadata md, .Stats st, .Marker ROOT_MARKER]) ∧
      B.length % 4096 = 0 ∧
      (file ++ B).drop ((file ++ B).length - 32) =
        toBE 8 root ++ toBE 8 md.length ++ toBE 8 st.length ++ toBE 8 ROOT_MARKER.length := by
  have hmk : ROOT_MARKER.length = 16 := by decide
  set hdr : List Nat := toBE 8 root ++ toBE 8 md.length ++ toBE 8 st.length ++
    toBE 8 ROOT_MARKER.length with hhdr
  have hhl : hdr.length = 32 := hdr32_length _ _ _ _
  set block : List Nat := md ++ st ++ ROOT_MARKER ++ hdr with hblock
  have hL : block.length = md.length + st.length + 48 := by
    simp [hblock, hhl, hmk]; omega
  set n : Nat := computeRootBlock block.length with hn
  have hnge : block.length ≤ n := computeRootBlock_ge _
  set pad : List Nat := (block ++ List.replicate (n - block.length) 0).take (n - block.length)
    with hpad
  have hpl : pad.length = n - block.length := by
    simp [hpad]
  have hw : writeMetaItems [.Root root, .AppMetadata md, .Stats st, .Marker ROOT_MARKER] =
      some (pad ++ block) := by
    simp only [writeMetaItems, Nat.mod_eq_of_lt hrootlt, Nat.mod_eq_of_lt hmd,
      Nat.mod_eq_of_lt hst, Nat.mod_eq_of_lt (by rw [hmk]; norm_num : ROOT_MARKER.length < 2 ^ 64)]
  refine ⟨pad ++ block, hw, ?_, ?_, ?_⟩
  · -- read back
    have hBlen : (pad ++ block).length = n := by simp [hpl]; omega
    have hm : (file ++ (pad ++ block)).length = file.length + n := by simp [hBlen]
    -- header read
    have e1 : (file ++ (pad ++ block)).length - 32 =
        (file ++ pad ++ md ++ st ++ ROOT_MARKER).length := by
      simp [hm, hpl, hmk]
      omega
    have r1 : readBuffer (file ++ (pad ++ block)) ((file ++ (pad ++ block)).length - 32) 32 =
        .ok hdr := by
      rw [e1]
      have : file ++ (pad ++ block) = (file ++ pad ++ md ++ st ++ ROOT_MARKER) ++ hdr := by
        simp [hblock]
      rw [this]
      have := readBuffer_append (file ++ pad ++ md ++ st ++ ROOT_MARKER) hdr
      rwa [hhl] at this
    have hmk64 : ROOT_MARKER.length < 2 ^ 64 := by rw [hmk]; norm_num
    have hfields := hdr32_fields root md.length st.length ROOT_MARKER.length
      hrootlt hmd hst hmk64
    obtain ⟨g1, g2, g3, g4⟩ := hfields
    have f1 : fromBE (hdr.take 8) = root := by rw [hhdr]; exact g1
    have f2 : fromBE ((hdr.drop 8).take 8) = md.length := by rw [hhdr]; exact g2
    have f3 : fromBE ((hdr.drop 16).take 8) = st.length := by rw [hhdr]; exact g3
    have f4 : fromBE ((hdr.drop 24).take 8) = ROOT_MARKER.length := by rw [hhdr]; exact g4
    have f5 : computeRootBlock (st.length + md.length + ROOT_MARKER.length + 32) = n := by
      have harg : st.length + md.length + ROOT_MARKER.length + 32 = block.length := by
        rw [hL, hmk]; omega
      rw [harg, hn]
    have r2 : readBuffer (file ++ (pad ++ block)) ((file ++ (pad ++ block)).length - n) n =
        .ok (pad ++ block) := by
      rw [hm, show file.length + n - n = file.length from by omega, ← hBlen]
      exact readBuffer_append _ _
    have s1 : byteSlice (pad ++ block) (n - 32 - ROOT_MARKER.length) (n - 32) =
        some ROOT_MARKER := by
      have hrw : pad ++ block = (pad ++ (md ++ st)) ++ (ROOT_MARKER ++ hdr) := by
        rw [hblock]; simp [List.append_assoc]
      have hx : n - 32 - ROOT_MARKER.length = (pad ++ (md ++ st)).length := by
        simp [hpl, hmk]; omega
      have hy : n - 32 = (pad ++ (md ++ st)).length + ROOT_MARKER.length := by
        simp [hpl, hmk]; omega
      rw [hrw, hx, hy]
      exact byteSlice_append _ _ _
    have s2 : byteSlice (pad ++ block) (n - 32 - ROOT_MARKER.length - st.length)
        (n - 32 - ROOT_MARKER.length) = some st := by
      have hrw : pad ++ block = (pad ++ md) ++ (st ++ (ROOT_MARKER ++ hdr)) := by
        rw [hblock]; simp [List.append_assoc]
      have hx : n - 32 - ROOT_MARKER.length - st.length = (pad ++ md).length := by
        simp [hpl, hmk]; omega
      have hy : n - 32 - ROOT_MARKER.length = (pad ++ md).length + st.length := by
        simp [hpl, hmk]; omega
      rw [hx, hy, hrw]
      exact byteSlice_append _ _ _
    have s3 : byteSlice (pad ++ block) (n - 32 - ROOT_MARKER.length - st.length - md.length)
        (n - 32 - ROOT_MARKER.length - st.length) = some md := by
      have hrw : pad ++ block = pad ++ (md ++ (st ++ (ROOT_MARKER ++ hdr))) := by
        rw [hblock]; simp [List.append_assoc]
      have hx : n - 32 - ROOT_MARKER.length - st.length - md.length = pad.length := by
        simp [hpl, hmk]; omega
      have hy : n - 32 - ROOT_MARKER.length - st.length = pad.length + md.length := by
        simp [hpl, hmk]; omega
      rw [hx, hy, hrw]
      exact byteSlice_append _ _ _
    have e4 : (file ++ (pad ++ block)).length - n = root := by
      rw [hm, hroot]; omega
    have r2a : readBuffer (file ++ (pad ++ block)) root n = .ok (pad ++ block) := by
      rw [← e4]; exact r2
    simp only [readMetaItems, r1, f1, f2, f3, f4, f5, e4, r2a, s1, s2, s3,
      ne_eq, not_true_eq_false, if_false, ite_false]
  · have hBlen : (pad ++ block).length = n := by simp [hpl]; omega
    rw [hBlen, hn]
    have := computeRootBlock_mod block.length
    simpa [MARKER_BLOCK_SIZE] using this
  · have hBlen : (pad ++ block).length = n := by simp [hpl]; omega
    have e1 : (file ++ (pad ++ block)).length - 32 =
        (file ++ pad ++ md ++ st ++ ROOT_MARKER).length := by
      simp [hBlen, hpl, hmk]
      omega
    rw [e1]
    have hsplit : file ++ (pad ++ block) = (file ++ pad ++ md ++ st ++ ROOT_MARKER) ++ hdr := by
      simp [hblock, List.append_assoc]
    rw [hsplit, List.drop_left, hhdr]


theorem robt_meta_roundtrip_witness :
    ((1 : Nat) = ([7] : List Nat).length ∧ (1 : Nat) < 2 ^ 64 ∧
      ([1, 2] : List Nat).length < 2 ^ 64 ∧ ([3] : List Nat).length < 2 ^ 64) ∧
    (∃ B : List Nat,
      writeMetaItems [.Root 1, .AppMetadata [1, 2], .Stats [3], .Marker ROOT_MARKER] = some B ∧
      readMetaItems ([7] ++ B) =
        some (.ok [MetaItem.Root 1, .AppMetadata [1, 2], .Stats [3], .Marker ROOT_MARKER]) ∧
      B.length % 4096 = 0 ∧
      ([7] ++ B).drop (([7] ++ B).length - 32) =
        toBE 8 1 ++ toBE 8 ([1, 2] : List Nat).length ++ toBE 8 ([3] : List Nat).length ++
          toBE 8 ROOT_MARKER.length) :=
  ⟨⟨rfl, by norm_num, by norm_num, by norm_num⟩,
    robt_meta_roundtrip [7] [1, 2] [3] 1 rfl (by norm_num) (by norm_num) (by norm_num)⟩

end Robt

namespace Wal

/-! ## WAL batch framing (src/wal.rs: Batch::encode_native / Batch::validate) -/

/-- Error type for WAL decoding (src/error.rs variant used in src/wal.rs). -/
inductive WError where
  | InvalidWAL
  deriving DecidableEq, Repr

/-- BATCH_MARKER (src/wal.rs line 59): the ASCII bytes of
vawval-treatment. -/
def BATCH_MARKER : List Nat :=
  [118, 97, 119, 118, 97, 108, 45, 116, 114, 101, 97, 116, 109, 101, 110, 116]

/-- Serialize trait (crate::core): encode appends bytes to the buffer and
returns the byte count.  The model carries the appended bytes; the returned
count is their length. -/
class Ser (α : Type) where
  enc : α → List Nat

instance : Ser (List Nat) := ⟨id⟩

/-- Op (src/wal.rs lines 1298-1310). -/
inductive Op (K V : Type) where
  | Set (key : K) (value : V)
  | SetCAS (key : K) (value : V) (cas : Nat)
  | Delete (key : K)

/-- Op::encode (src/wal.rs lines 1341-1350, 1384-1398, 1442-1462, 1505-1515):
an 8-byte header whose upper part carries the op-type in bits 32..56 and the
low 32 bits the key length, then value-length (and cas for SetCAS), then the
key and value payloads. -/
def encOp {K V : Type} [Ser K] [Ser V] : Op K V → List Nat
  | .Set k v =>
    let kb := Ser.enc k
    let vb := Ser.enc v
    toBE 8 ((1 <<< 32) ||| kb.length) ++ toBE 8 vb.length ++ kb ++ vb
  | .SetCAS k v cas =>
    let kb := Ser.enc k
    let vb := Ser.enc v
    toBE 8 ((2 <<< 32) ||| kb.length) ++ toBE 8 vb.length ++ toBE 8 cas ++ kb ++ vb
  | .Delete k =>
    let kb := Ser.enc k
    toBE 8 ((3 <<< 32) ||| kb.length) ++ kb

/-- Entry (src/wal.rs lines 1066-1094). -/
inductive WEntry (K V : Type) where
  | Term (term index : Nat) (op : Op K V)
  | Client (term index id ceqno : Nat) (op : Op K V)

/-- Entry::index (src/wal.rs lines 1127-1132). -/
def WEntry.index {K V : Type} : WEntry K V → Nat
  | .Term _ i _ => i
  | .Client _ i _ _ _ => i

/-- Entry::encode (src/wal.rs lines 1147-1164, 1200-1210, 1243-1257):
an 8-byte type tag (1 = Term, 2 = Client) then term, index
(and id, ceqno for Client), then the op bytes. -/
def encEntry {K V : Type} [Ser K] [Ser V] : WEntry K V → List Nat
  | .Term term index op =>
    toBE 8 1 ++ toBE 8 term ++ toBE 8 index ++ encOp op
  | .Client term index id ceqno op =>
    toBE 8 2 ++ toBE 8 term ++ toBE 8 index ++ toBE 8 id ++ toBE 8 ceqno ++ encOp op

/-- Batch::encode_config (src/wal.rs lines 974-987): u16 count then
u16-length-prefixed strings.  The u16 casts panic (none) when a length
exceeds u16::MAX. -/
def encConfig (cfg : List (List Nat)) : Option (List Nat) := do
  if cfg.length < 2 ^ 16 then
    let parts ← cfg.mapM (fun c =>
      if c.length < 2 ^ 16 then some (toBE 2 c.length ++ c) else none)
    pure (toBE 2 cfg.length ++ parts.flatten)
  else none

/-- Batch::encode_votedfor (src/wal.rs lines 1009-1017). -/
def encVotedfor (s : List Nat) : Option (List Nat) :=
  if s.length < 2 ^ 16 then some (toBE 2 s.length ++ s) else none

/-- The Batch::Active variant (src/wal.rs around line 740): framing fields
plus the entry list; strings are carried as their UTF-8 bytes. -/
structure Batch (K V : Type) where
  term : Nat
  committed : Nat
  persisted : Nat
  config : List (List Nat)
  votedfor : List Nat
  entries : List (WEntry K V)

/-- Batch::encode_native (src/wal.rs lines 885-920): 8 length bytes
(patched in at the end), five 8-byte header fields, config, votedfor,
entries, BATCH_MARKER, and the trailing length equal to the leading one.
None models the panic on an empty entry list (entries[0]) or a u16
truncation in the config encoding. -/
def encodeNative {K V : Type} [Ser K] [Ser V] (b : Batch K V) : Option (List Nat) := do
  match b.entries with
  | [] => none
  | e0 :: _ =>
    let cfgB ← encConfig b.config
    let vfB ← encVotedfor b.votedfor
    let entB := (b.entries.map encEntry).flatten
    let m := cfgB.length + vfB.length + entB.length
    let n := 48 + m + BATCH_MARKER.length + 8
    pure (toBE 8 n ++ toBE 8 b.term ++ toBE 8 b.committed ++ toBE 8 b.persisted ++
      toBE 8 e0.index ++ toBE 8 b.entries.length ++ cfgB ++ vfB ++ entB ++
      BATCH_MARKER ++ toBE 8 n)

/-- Batch::validate (src/wal.rs lines 1029-1048).  The outer Option is a
Rust panic: reading buf[..8] on a short buffer, the usize underflow of
length - 8, the out-of-range slice buf[m..n] when the leading length
exceeds the buffer, or the underflow of m - BATCH_MARKER.len(). -/
def validate (buf : List Nat) : Option (Except WError Nat) :=
  if buf.length < 8 then none
  else
    let length := fromBE (buf.take 8)
    if length < 8 then none
    else
      match byteSlice buf (length - 8) length with
      | none => none
      | some tr =>
        if fromBE tr ≠ length then some (.error .InvalidWAL)
        else
          if length - 8 < BATCH_MARKER.length then none
          else
            match byteSlice buf (length - 8 - BATCH_MARKER.length) (length - 8) with
            | none => none
            | some mkr =>
              if BATCH_MARKER ≠ mkr then some (.error .InvalidWAL)
              else some (.ok length)


theorem byteSlice_suffix (A B : List Nat) :
    byteSlice (A ++ B) A.length (A.length + B.length) = some B := by
  have := Robt.byteSlice_append A B []
  simpa using this

theorem byteSlice_mid (A B C : List Nat) (x y : Nat) (hx : x = A.length)
    (hy : y = A.length + B.length) : byteSlice (A ++ (B ++ C)) x y = some B := by
  subst hx; subst hy; exact Robt.byteSlice_append A B C

theorem byteSlice_end (A B : List Nat) (x y : Nat) (hx : x = A.length)
    (hy : y = A.length + B.length) : byteSlice (A ++ B) x y = some B := by
  subst hx; subst hy; exact byteSlice_suffix A B

theorem take_prefix_eight (L : Nat) (R : List Nat) :
    (toBE 8 L ++ R).take 8 = toBE 8 L :=
  List.take_left' (toBE_length 8 L)

/-- Helper: validate on a well-framed buffer
toBE 8 L ++ mid ++ BATCH_MARKER ++ toBE 8 L with L = mid.length + 32. -/
theorem validate_framed (mid : List Nat) (hlt : mid.length + 32 < 2 ^ 64) :
    validate (toBE 8 (mid.length + 32) ++ (mid ++ (BATCH_MARKER ++ toBE 8 (mid.length + 32)))) =
      some (.ok (mid.length + 32)) := by
  set L := mid.length + 32 with hL
  set buf := toBE 8 L ++ (mid ++ (BATCH_MARKER ++ toBE 8 L)) with hbuf
  have hmkl : BATCH_MARKER.length = 16 := by decide
  have hblen : buf.length = L := by
    simp [hbuf, toBE_length, hmkl, hL]; omega
  have hlead : fromBE (buf.take 8) = L := by
    rw [hbuf, take_prefix_eight, fromBE_toBE 8 L (by norm_num at hlt ⊢; omega)]
  have htr : byteSlice buf (L - 8) L = some (toBE 8 L) := by
    rw [show buf = (toBE 8 L ++ mid ++ BATCH_MARKER) ++ toBE 8 L from by
      simp [hbuf, List.append_assoc]]
    exact byteSlice_end _ _ _ _ (by simp [toBE_length, hmkl, hL]; omega)
      (by simp [toBE_length, hmkl, hL]; omega)
  have hmk : byteSlice buf (L - 8 - BATCH_MARKER.length) (L - 8) = some BATCH_MARKER := by
    rw [show buf = (toBE 8 L ++ mid) ++ (BATCH_MARKER ++ toBE 8 L) from by
      simp [hbuf, List.append_assoc]]
    exact byteSlice_mid _ _ _ _ _ (by simp [toBE_length, hmkl, hL]; omega)
      (by simp [toBE_length, hmkl, hL]; omega)
  unfold validate
  rw [hblen, hlead]
  rw [if_neg (by omega), if_neg (by omega)]
  simp only [htr, hmk]
  have hfb : fromBE (toBE 8 L) = L := fromBE_toBE 8 L (by norm_num at hlt ⊢; omega)
  have hml : ¬ (L - 8 < BATCH_MARKER.length) := by rw [hmkl]; omega
  simp [hfb, hml]


/-- Helper: validate on a framed buffer whose trailing length bytes T do not
decode to the leading length reports InvalidWAL. -/
theorem validate_bad_trailing (mid T : List Nat) (hlt : mid.length + 32 < 2 ^ 64)
    (hT : T.length = 8) (hne : fromBE T ≠ mid.length + 32) :
    validate (toBE 8 (mid.length + 32) ++ (mid ++ (BATCH_MARKER ++ T))) =
      some (.error .InvalidWAL) := by
  set L := mid.length + 32 with hL
  set buf := toBE 8 L ++ (mid ++ (BATCH_MARKER ++ T)) with hbuf
  have hmkl : BATCH_MARKER.length = 16 := by decide
  have hblen : buf.length = L := by
    simp [hbuf, toBE_length, hmkl, hL, hT]; omega
  have hlead : fromBE (buf.take 8) = L := by
    rw [hbuf, take_prefix_eight, fromBE_toBE 8 L (by norm_num at hlt ⊢; omega)]
  have htr : byteSlice buf (L - 8) L = some T := by
    rw [show buf = (toBE 8 L ++ mid ++ BATCH_MARKER) ++ T from by
      simp [hbuf, List.append_assoc]]
    exact byteSlice_end _ _ _ _ (by simp [toBE_length, hmkl, hL]; omega)
      (by simp [toBE_length, hmkl, hL, hT]; omega)
  unfold validate
  rw [hblen, hlead]
  rw [if_neg (by omega), if_neg (by omega)]
  simp only [htr]
  simp [hne]

/-- Helper: validate on a framed buffer whose 16 marker bytes M differ from
BATCH_MARKER reports InvalidWAL. -/
theorem validate_bad_marker (mid M : List Nat) (hlt : mid.length + 32 < 2 ^ 64)
    (hM : M.length = 16) (hne : M ≠ BATCH_MARKER) :
    validate (toBE 8 (mid.length + 32) ++ (mid ++ (M ++ toBE 8 (mid.length + 32)))) =
      some (.error .InvalidWAL) := by
  set L := mid.length + 32 with hL
  set buf := toBE 8 L ++ (mid ++ (M ++ toBE 8 L)) with hbuf
  have hmkl : BATCH_MARKER.length = 16 := by decide
  have hblen : buf.length = L := by
    simp [hbuf, toBE_length, hmkl, hL, hM]; omega
  have hlead : fromBE (buf.take 8) = L := by
    rw [hbuf, take_prefix_eight, fromBE_toBE 8 L (by norm_num at hlt ⊢; omega)]
  have htr : byteSlice buf (L - 8) L = some (toBE 8 L) := by
    rw [show buf = (toBE 8 L ++ mid ++ M) ++ toBE 8 L from by
      simp [hbuf, List.append_assoc]]
    exact byteSlice_end _ _ _ _ (by simp [toBE_length, hmkl, hL, hM]; omega)
      (by simp [toBE_length, hmkl, hL, hM]; omega)
  have hmk : byteSlice buf (L - 8 - BATCH_MARKER.length) (L - 8) = some M := by
    rw [show buf = (toBE 8 L ++ mid) ++ (M ++ toBE 8 L) from by
      simp [hbuf, List.append_assoc]]
    exact byteSlice_mid _ _ _ _ _ (by simp [toBE_length, hmkl, hL]; omega)
      (by simp [toBE_length, hmkl, hL, hM]; omega)
  unfold validate
  rw [hblen, hlead]
  rw [if_neg (by omega), if_neg (by omega)]
  simp only [htr, hmk]
  have hfb : fromBE (toBE 8 L) = L := fromBE_toBE 8 L (by norm_num at hlt ⊢; omega)
  have hml : ¬ (L - 8 < BATCH_MARKER.length) := by rw [hmkl]; omega
  have hne2 : ¬ (BATCH_MARKER = M) := fun h => hne h.symm
  simp [hfb, hml, hne2]


theorem encodeNative_shape {K V : Type} [Ser K] [Ser V] (b : Batch K V) (bytes : List Nat)
    (h : encodeNative b = some bytes) :
    ∃ mid : List Nat,
      bytes = toBE 8 (mid.length + 32) ++ (mid ++ (BATCH_MARKER ++ toBE 8 (mid.length + 32))) ∧
      bytes.length = mid.length + 32 := by
  rcases hb : b.entries with _ | ⟨e0, rest⟩
  · rw [encodeNative, hb] at h; exact absurd h (by simp)
  · rw [encodeNative, hb] at h
    rcases hc : encConfig b.config with _ | cfgB
    · rw [hc] at h; exact absurd h (by simp)
    rcases hv : encVotedfor b.votedfor with _ | vfB
    · rw [hc, hv] at h; exact absurd h (by simp)
    rw [hc, hv] at h
    simp only [Option.bind_eq_bind, Option.some_bind, Option.pure_def, Option.some.injEq] at h
    refine ⟨toBE 8 b.term ++ toBE 8 b.committed ++ toBE 8 b.persisted ++
      toBE 8 e0.index ++ toBE 8 (b.entries.length) ++ cfgB ++ vfB ++
      ((b.entries.map encEntry).flatten), ?_, ?_⟩
    · rw [← h, hb]
      have hlen : (toBE 8 b.term ++ toBE 8 b.committed ++ toBE 8 b.persisted ++
          toBE 8 e0.index ++ toBE 8 ((e0 :: rest).length) ++ cfgB ++ vfB ++
          (((e0 :: rest)).map encEntry).flatten).length =
          40 + (cfgB.length + vfB.length + ((e0 :: rest).map encEntry).flatten.length) := by
        simp [toBE_length]; omega
      rw [show (48 : Nat) + (cfgB.length + vfB.length +
          (((e0 :: rest)).map encEntry).flatten.length) + BATCH_MARKER.length + 8 =
          (toBE 8 b.term ++ toBE 8 b.committed ++ toBE 8 b.persisted ++
          toBE 8 e0.index ++ toBE 8 ((e0 :: rest).length) ++ cfgB ++ vfB ++
          (((e0 :: rest)).map encEntry).flatten).length + 32 from by
        rw [hlen]
        have hmkl : BATCH_MARKER.length = 16 := by decide
        omega]
      simp [List.append_assoc]
    · rw [← h, hb]
      simp [toBE_length]
      have hmkl : BATCH_MARKER.length = 16 := by decide
      omega


/-- C4 (amended): every buffer produced by Batch::encode_native has equal
leading and trailing 8-byte lengths and Batch::validate accepts it;
replacing the trailing length with bytes that decode to a different value,
or replacing the 16 marker bytes, makes validate return InvalidWAL.
(Corrupting the leading length is not covered: it can make validate panic
on an out-of-range slice instead of returning InvalidWAL, see the
counterexample.) -/
theorem wal_batch_framing {K V : Type} [Ser K] [Ser V] (b : Batch K V) (bytes : List Nat)
    (henc : encodeNative b = some bytes) (hlt : bytes.length < 2 ^ 64) :
    bytes.take 8 = bytes.drop (bytes.length - 8) ∧
    fromBE (bytes.take 8) = bytes.length ∧
    validate bytes = some (.ok bytes.length) ∧
    (∀ T : List Nat, T.length = 8 → fromBE T ≠ bytes.length →
      validate (bytes.take (bytes.length - 8) ++ T) = some (.error .InvalidWAL)) ∧
    (∀ M : List Nat, M.length = 16 → M ≠ BATCH_MARKER →
      validate (bytes.take (bytes.length - 24) ++ (M ++ bytes.drop (bytes.length - 8))) =
        some (.error .InvalidWAL)) := by
  obtain ⟨mid, hsh, hlen⟩ := encodeNative_shape b bytes henc
  have hmkl : BATCH_MARKER.length = 16 := by decide
  have hlt2 : mid.length + 32 < 2 ^ 64 := by omega
  have htake8 : bytes.take 8 = toBE 8 (mid.length + 32) := by
    rw [hsh]; exact take_prefix_eight _ _
  have hdrop : bytes.drop (bytes.length - 8) = toBE 8 (mid.length + 32) := by
    rw [hlen, hsh]
    rw [show toBE 8 (mid.length + 32) ++ (mid ++ (BATCH_MARKER ++ toBE 8 (mid.length + 32))) =
      (toBE 8 (mid.length + 32) ++ mid ++ BATCH_MARKER) ++ toBE 8 (mid.length + 32) from by
      simp [List.append_assoc]]
    rw [List.drop_left' (by simp [toBE_length, hmkl]; omega)]
  have htakeA : bytes.take (bytes.length - 8) =
      toBE 8 (mid.length + 32) ++ mid ++ BATCH_MARKER := by
    rw [hlen, hsh]
    rw [show toBE 8 (mid.length + 32) ++ (mid ++ (BATCH_MARKER ++ toBE 8 (mid.length + 32))) =
      (toBE 8 (mid.length + 32) ++ mid ++ BATCH_MARKER) ++ toBE 8 (mid.length + 32) from by
      simp [List.append_assoc]]
    rw [List.take_left' (by simp [toBE_length, hmkl]; omega)]
  have htakeB : bytes.take (bytes.length - 24) = toBE 8 (mid.length + 32) ++ mid := by
    rw [hlen, hsh]
    rw [show toBE 8 (mid.length + 32) ++ (mid ++ (BATCH_MARKER ++ toBE 8 (mid.length + 32))) =
      (toBE 8 (mid.length + 32) ++ mid) ++ (BATCH_MARKER ++ toBE 8 (mid.length + 32)) from by
      simp [List.append_assoc]]
    rw [List.take_left' (by simp [toBE_length]; omega)]
  refine ⟨by rw [htake8, hdrop], ?_, ?_, ?_, ?_⟩
  · rw [htake8, hlen, fromBE_toBE 8 _ (by norm_num at hlt2 ⊢; omega)]
  · rw [hlen, hsh]
    exact validate_framed mid hlt2
  · intro T hT hne
    rw [hlen] at hne
    rw [htakeA]
    rw [show toBE 8 (mid.length + 32) ++ mid ++ BATCH_MARKER ++ T =
      toBE 8 (mid.length + 32) ++ (mid ++ (BATCH_MARKER ++ T)) from by
      simp [List.append_assoc]]
    exact validate_bad_trailing mid T hlt2 hT hne
  · intro M hM hne
    rw [htakeB, hdrop]
    rw [show toBE 8 (mid.length + 32) ++ mid ++ (M ++ toBE 8 (mid.length + 32)) =
      toBE 8 (mid.length + 32) ++ (mid ++ (M ++ toBE 8 (mid.length + 32))) from by
      simp [List.append_assoc]]
    exact validate_bad_marker mid M hlt2 hM hne

/-- Concrete batch used for the C4 witness and counterexample: one Term
entry carrying a Delete op with a one-byte key. -/
def cexBatch : Batch (List Nat) (List Nat) :=
  { term := 0, committed := 0, persisted := 0, config := [], votedfor := [],
    entries := [.Term 0 1 (.Delete [5])] }

/-- The encoded bytes of cexBatch. -/
def cexBytes : List Nat := (encodeNative cexBatch).getD []

theorem wal_batch_framing_witness :
    (encodeNative cexBatch = some cexBytes ∧ cexBytes.length < 2 ^ 64) ∧
    (cexBytes.take 8 = cexBytes.drop (cexBytes.length - 8) ∧
      fromBE (cexBytes.take 8) = cexBytes.length ∧
      validate cexBytes = some (.ok cexBytes.length) ∧
      (∀ T : List Nat, T.length = 8 → fromBE T ≠ cexBytes.length →
        validate (cexBytes.take (cexBytes.length - 8) ++ T) = some (.error .InvalidWAL)) ∧
      (∀ M : List Nat, M.length = 16 → M ≠ BATCH_MARKER →
        validate (cexBytes.take (cexBytes.length - 24) ++ (M ++ cexBytes.drop (cexBytes.length - 8))) =
          some (.error .InvalidWAL))) :=
  ⟨⟨rfl, by decide⟩, wal_batch_framing cexBatch cexBytes rfl (by decide)⟩

/-- C4 counterexample: replacing the leading 8-byte length of an encoded
batch with a too-large value makes Batch::validate panic on an
out-of-range slice (modelled as none) instead of returning InvalidWAL, so
the claim that every corrupted buffer is answered with InvalidWAL is
false. -/
theorem wal_batch_framing_cex :
    encodeNative cexBatch = some cexBytes ∧
    (toBE 8 (2 ^ 32) ++ cexBytes.drop 8).length = cexBytes.length ∧
    fromBE ((toBE 8 (2 ^ 32) ++ cexBytes.drop 8).take 8) ≠ fromBE (cexBytes.take 8) ∧
    validate (toBE 8 (2 ^ 32) ++ cexBytes.drop 8) = none ∧
    validate (toBE 8 (2 ^ 32) ++ cexBytes.drop 8) ≠ some (.error .InvalidWAL) := by
  have hnone : validate (toBE 8 (2 ^ 32) ++ cexBytes.drop 8) = none := by rfl
  refine ⟨rfl, by decide, by decide, hnone, by rw [hnone]; simp⟩

end Wal

namespace Scans

/-! ## SkipScan (src/scans.rs: refill / next / SKIP_SCAN_BATCH_SIZE) -/

/-- SKIP_SCAN_BATCH_SIZE (src/scans.rs line 14). -/
def SKIP_SCAN_BATCH_SIZE : Nat := 1000

/-- Modelled from the spec: Entry (crate::core is not under src/); SkipScan
only uses its key projection (entry.to_key / as_key), so only the key is
carried here. -/
structure SEntry (K : Type) where
  key : K

/-- ScanEntry (crate::core): an item of a piece-wise scan. -/
inductive ScanEntry (K : Type) where
  | Found (entry : SEntry K)
  | Retry (key : K)

/-- Bound, as std::ops::Bound. -/
inductive KBound (K : Type) where
  | Included (k : K)
  | Excluded (k : K)
  | Unbounded

/-- Refill (src/scans.rs lines 56-64). -/
inductive Refill (K E : Type) where
  | Ok (entries : List (Except E (SEntry K))) (key : Option K)
  | Retry (key : K) (entries : List (Except E (SEntry K)))
  | Finish (entries : List (Except E (SEntry K)))

/-- Prepend one already-pushed entry to a Refill result (the Vec push
before the loop breaks, seen from the recursive formulation). -/
def Refill.push {K E : Type} (e : Except E (SEntry K)) : Refill K E → Refill K E
  | .Ok es k => .Ok (e :: es) k
  | .Retry k es => .Retry k (e :: es)
  | .Finish es => .Finish (e :: es)

/-- The loop inside SkipScan::refill (src/scans.rs lines 141-159) over the
enumerated items of the underlying piece-wise scan; i is the enumerate
index.  Note the first arm fires while i <= batch_size, and the
overflowing arm pushes one more entry before breaking. -/
def refillLoop {K E : Type} (batchSize : Nat) : Nat → List (Except E (ScanEntry K)) →
    Refill K E
  | _, [] => .Finish []
  | i, .ok (.Found e) :: xs =>
    if i ≤ batchSize then (refillLoop batchSize (i + 1) xs).push (.ok e)
    else .Ok [.ok e] (some e.key)
  | _, .ok (.Retry k) :: _ => .Retry k []
  | _, .error err :: _ => .Ok [.error err] none

/-- SkipScan::refill (src/scans.rs lines 136-166): the reader handle's
pw_scan result is either an item iterator (a list here) or an error. -/
def refill {K E : Type} (batchSize : Nat)
    (scan : Except E (List (Except E (ScanEntry K)))) : Refill K E :=
  match scan with
  | .ok items => refillLoop batchSize 0 items
  | .error err => .Ok [.error err] none

/-- Entry list of a Refill result. -/
def Refill.entries {K E : Type} : Refill K E → List (Except E (SEntry K))
  | .Ok es _ => es
  | .Retry _ es => es
  | .Finish es => es

/-- The key_start update performed by SkipScan::next on a refill result
(src/scans.rs lines 209-227): an Ok with a key or a Retry moves the lower
bound to Excluded of that key. -/
def nextKeyStart {K E : Type} (cur : KBound K) : Refill K E → KBound K
  | .Ok _ (some k) => .Excluded k
  | .Ok _ none => cur
  | .Retry k _ => .Excluded k
  | .Finish _ => cur

/-- The batch_size field established by SkipScan::new
(src/scans.rs lines 74-85). -/
def skipScanNewBatchSize : Nat := SKIP_SCAN_BATCH_SIZE

theorem refillLoop_length {K E : Type} (batchSize : Nat) (i : Nat)
    (xs : List (Except E (ScanEntry K))) (hi : i ≤ batchSize + 1) :
    (refillLoop batchSize i xs).entries.length ≤ batchSize + 2 - i := by
  induction xs generalizing i with
  | nil => simp [refillLoop, Refill.entries]
  | cons x xs ih =>
    match x with
    | .ok (.Found e) =>
      by_cases hc : i ≤ batchSize
      · have := ih (i + 1) (by omega)
        rw [refillLoop, if_pos hc]
        rcases hr : refillLoop batchSize (i + 1) xs with es | k | es <;>
          rw [hr] at this <;>
          simp [Refill.push, Refill.entries] at this ⊢ <;> omega
      · rw [refillLoop, if_neg hc]
        simp [Refill.entries]
        omega
    | .ok (.Retry k) => simp [refillLoop, Refill.entries]
    | .error err => simp [refillLoop, Refill.entries]; omega

theorem refillLoop_ok_key {K E : Type} (batchSize : Nat) (i : Nat)
    (xs : List (Except E (ScanEntry K))) (es : List (Except E (SEntry K))) (k : K)
    (h : refillLoop batchSize i xs = .Ok es (some k)) :
    ∃ e : SEntry K, es.getLast? = some (.ok e) ∧ e.key = k := by
  induction xs generalizing i es with
  | nil => exact absurd h (by simp [refillLoop])
  | cons x xs ih =>
    match x with
    | .ok (.Found e) =>
      by_cases hc : i ≤ batchSize
      · rw [refillLoop, if_pos hc] at h
        rcases hr : refillLoop batchSize (i + 1) xs with es' | k' | es' <;> rw [hr] at h
        · simp only [Refill.push, Refill.Ok.injEq] at h
          obtain ⟨h1, h2⟩ := h
          rw [h2] at hr
          obtain ⟨e', he1, he2⟩ := ih (i + 1) es' hr
          rcases es' with _ | ⟨a, t⟩
          · simp at he1
          · refine ⟨e', ?_, he2⟩
            rw [← h1, List.getLast?_cons_cons]
            exact he1
        · simp [Refill.push] at h
        · simp [Refill.push] at h
      · rw [refillLoop, if_neg hc] at h
        simp at h
        obtain ⟨h1, h2⟩ := h
        exact ⟨e, by simp [← h1], h2⟩
    | .ok (.Retry k') => exact absurd h (by simp [refillLoop])
    | .error err => exact absurd h (by simp [refillLoop])

/-- C7 (amended): a SkipScan refill pulls at most batch_size + 2 entries
from the underlying piece-wise scan (the loop guard is i <= batch_size over
an enumerate index, and the overflow arm pushes one more entry), when a
refill ends with a carry key that key is the key of the last emitted entry
and SkipScan::next resumes from Excluded of it, and the batch size
installed by SkipScan::new is SKIP_SCAN_BATCH_SIZE = 1000. -/
theorem skipscan_refill_spec {K E : Type} (batchSize : Nat)
    (scan : Except E (List (Except E (ScanEntry K)))) :
    (refill batchSize scan).entries.length ≤ batchSize + 2 ∧
    (∀ (es : List (Except E (SEntry K))) (k : K) (cur : KBound K),
      refill batchSize scan = .Ok es (some k) →
      (∃ e : SEntry K, es.getLast? = some (.ok e) ∧ e.key = k) ∧
      nextKeyStart cur (refill batchSize scan) = .Excluded k) ∧
    skipScanNewBatchSize = 1000 := by
  refine ⟨?_, ?_, rfl⟩
  · match scan with
    | .error err => simp [refill, Refill.entries]
    | .ok items =>
      have := refillLoop_length batchSize 0 items (by omega)
      simp [refill]
      omega
  · intro es k cur h
    match scan with
    | .error err => exact absurd h (by simp [refill])
    | .ok items =>
      rw [refill] at h ⊢
      exact ⟨refillLoop_ok_key batchSize 0 items es k h, by rw [h]; rfl⟩

theorem skipscan_refill_spec_witness :
    (refill 1 (.ok [Except.ok (ScanEntry.Found ⟨10⟩), .ok (.Found ⟨20⟩),
        .ok (.Found ⟨30⟩), .ok (.Found (⟨40⟩ : SEntry Nat))]) :
      Refill Nat Unit).entries.length ≤ 1 + 2 ∧
    ((refill 1 (.ok [Except.ok (ScanEntry.Found ⟨10⟩), .ok (.Found ⟨20⟩),
        .ok (.Found ⟨30⟩), .ok (.Found (⟨40⟩ : SEntry Nat))]) :
      Refill Nat Unit) = .Ok [.ok ⟨10⟩, .ok ⟨20⟩, .ok ⟨30⟩] (some 30)) ∧
    nextKeyStart .Unbounded
      (refill 1 (.ok [Except.ok (ScanEntry.Found ⟨10⟩), .ok (.Found ⟨20⟩),
        .ok (.Found ⟨30⟩), .ok (.Found (⟨40⟩ : SEntry Nat))]) :
      Refill Nat Unit) = .Excluded 30 := by
  refine ⟨(skipscan_refill_spec 1 _).1, rfl, ?_⟩
  exact ((skipscan_refill_spec (K := Nat) (E := Unit) 1
    (.ok [Except.ok (ScanEntry.Found ⟨10⟩), .ok (.Found ⟨20⟩),
        .ok (.Found ⟨30⟩), .ok (.Found ⟨40⟩)])).2.1
    [.ok ⟨10⟩, .ok ⟨20⟩, .ok ⟨30⟩] 30 .Unbounded rfl).2

/-- C7 counterexample: with batch_size = 1, a refill over four Found items
emits three entries, so a refill is not bounded by batch_size entries as
the claim states. -/
theorem skipscan_refill_cex :
    (refill 1 (.ok [Except.ok (ScanEntry.Found ⟨10⟩), .ok (.Found ⟨20⟩),
        .ok (.Found ⟨30⟩), .ok (.Found (⟨40⟩ : SEntry Nat))]) :
      Refill Nat Unit).entries.length = 3 ∧
    ¬ ((refill 1 (.ok [Except.ok (ScanEntry.Found ⟨10⟩), .ok (.Found ⟨20⟩),
        .ok (.Found ⟨30⟩), .ok (.Found (⟨40⟩ : SEntry Nat))]) :
      Refill Nat Unit).entries.length ≤ 1) := by
  exact ⟨rfl, by simp [refill, refillLoop, Refill.push, Refill.entries]⟩

end Scans

namespace WalJournal

/-! ## WAL journal file names (src/wal.rs: Journal::create / file_parts) -/

/-- Rust str::split on one separator character, over the characters of the
string. -/
def splitChar (sep : Char) : List Char → List Char → List (List Char)
  | [], acc => [acc.reverse]
  | c :: cs, acc =>
    if c = sep then acc.reverse :: splitChar sep cs []
    else splitChar sep cs (c :: acc)

/-- Rust str::parse for usize: all characters must be digits and the
string nonempty. -/
def parseNat? (s : List Char) : Option Nat :=
  if s ≠ [] ∧ s.all Char.isDigit then
    some (s.foldl (fun a c => a * 10 + (c.toNat - 48)) 0)
  else none

/-- The file name built by Journal::create (src/wal.rs line 464):
name, then -shard-, then the id, then the literal -journal-1.  The num
parameter is received by create (line 462) but never used in the format
string. -/
def createFileName (name : List Char) (id _num : Nat) : List Char :=
  name ++ "-shard-".toList ++ (toString id).toList ++ "-journal-1".toList

/-- The file name the source itself documents for a journal
(src/wal.rs line 445 comment name-shard-id-journal-num.log, and the
spec). -/
def documentedFileName (name : List Char) (id num : Nat) : List Char :=
  name ++ "-shard-".toList ++ (toString id).toList ++ "-journal-".toList ++
    (toString num).toList

/-- Journal::file_parts (src/wal.rs lines 529-548): split the file name on
the underscore character, expect name, shard, id, journal, num, check the
two literals and parse the numbers.  The Path::file_name step is the
identity for the slash-free names the WAL builds. -/
def fileParts (filePath : List Char) : Option (List Char × Nat × Nat) :=
  match splitChar '_' filePath [] with
  | name :: shard :: id :: journal :: num :: _ =>
    if shard = "shard".toList ∧ journal = "journal".toList then
      match parseNat? id, parseNat? num with
      | some i, some n => some (name, i, n)
      | _, _ => none
    else none
  | _ => none

/-- C8: Journal::create and Journal::file_parts disagree with the
documented name-shard-id-journal-num scheme: create hard-codes journal
number 1 regardless of num, and file_parts splits on underscores while
create joins with hyphens, so a created file is never recognized; only an
underscore-separated name would be parsed. -/
theorem journal_file_name_bug :
    createFileName "w".toList 2 3 = "w-shard-2-journal-1".toList ∧
    createFileName "w".toList 2 3 ≠ documentedFileName "w".toList 2 3 ∧
    fileParts (createFileName "w".toList 2 3) = none ∧
    fileParts (documentedFileName "w".toList 2 3) = none ∧
    fileParts "w_shard_2_journal_3".toList = some ("w".toList, 2, 3) := by
  refine ⟨rfl, by decide, by decide, by decide, by decide⟩

end WalJournal

namespace RobtIter

/-! ## ROBT reverse iteration (src/robt.rs: MZ::next_back, build_rev) -/

/-- MZ (src/robt.rs lines 1930-1938): an interior frame (file position and
index) or a terminal leaf frame.  The Z-block is spec-modelled as the list
of its entries (robt_indx.rs with ZBlock is not under src/). -/
inductive MZ (E : Type) where
  | M (fpos : Nat) (index : Nat)
  | Z (zblock : List E) (index : Nat)
  deriving DecidableEq, Repr

/-- Modelled from the spec: ZBlock::to_entry (robt_indx.rs, not under
src/) returns the entry at the index, or the internal __ZBlockExhausted
error past the end; MZ::next and next_back in src/robt.rs rely on exactly
that behavior. -/
def toEntry {E : Type} (z : List E) (i : Nat) : Option E :=
  if h : i < z.length then some z[i] else none

/-- MZ::next_back (src/robt.rs lines 1969-1981).  On a yield the source
runs the usize decrement index -= 1, which wraps modulo 2^64 in release
builds (and panics in debug builds) when index is 0; the M arm is the
unreachable panic, modelled as the outer none. -/
def nextBack {E : Type} : MZ E → Option (Option E × MZ E)
  | .M _ _ => none
  | .Z z i =>
    match toEntry z i with
    | some e => some (some e, .Z z ((i + (2 ^ 64 - 1)) % 2 ^ 64))
    | none => some (none, .Z z i)

/-- The terminal frame pushed by Snapshot::build_rev
(src/robt.rs lines 1596-1599): index = zblock.len() - 1. -/
def buildRevFrame {E : Type} (z : List E) : MZ E :=
  .Z z (z.length - 1)

/-- C10 (amended): next_back on the terminal Z frame yields the entry at
the current index; when that index is positive the decrement is an
ordinary one, but when it is 0 the unsigned decrement underflows and
wraps to 2^64 - 1 (a panic in debug builds), after which the next call
finds the block exhausted, terminating the reverse iteration. -/
theorem mz_next_back_spec {E : Type} (z : List E) (i : Nat)
    (hz : z.length < 2 ^ 64) (hi : i < z.length) :
    (0 < i → nextBack (.Z z i) = some (some (z.get ⟨i, hi⟩), .Z z (i - 1))) ∧
    (i = 0 → nextBack (.Z z i) = some (some (z.get ⟨i, hi⟩), .Z z (2 ^ 64 - 1)) ∧
      nextBack (.Z z (2 ^ 64 - 1)) = some (none, .Z z (2 ^ 64 - 1))) := by
  constructor
  · intro hpos
    rw [nextBack, toEntry, dif_pos hi]
    have hmod : (i + (2 ^ 64 - 1)) % 2 ^ 64 = i - 1 := by omega
    rw [hmod]
    rfl
  · intro h0
    subst h0
    refine ⟨?_, ?_⟩
    · rw [nextBack, toEntry, dif_pos hi]
      have hmod : (0 + (2 ^ 64 - 1)) % 2 ^ 64 = 2 ^ 64 - 1 := by omega
      rw [hmod]
      rfl
    · rw [nextBack, toEntry, dif_neg (by omega)]

theorem mz_next_back_spec_witness :
    (([7] : List Nat).length < 2 ^ 64 ∧ 0 < ([7] : List Nat).length) ∧
    (nextBack (.Z ([7] : List Nat) 0) = some (some 7, .Z [7] (2 ^ 64 - 1)) ∧
      nextBack (.Z ([7] : List Nat) (2 ^ 64 - 1)) = some (none, .Z [7] (2 ^ 64 - 1))) :=
  ⟨⟨by norm_num, by norm_num⟩,
    (mz_next_back_spec [7] 0 (by norm_num) (by norm_num)).2 rfl⟩

/-- C10 counterexample: a completed reverse iteration reaches the frame
index 0 (already for a one-entry Z block, where build_rev starts at index
0); next_back still yields the entry at index 0 and then decrements,
wrapping to 2^64 - 1 instead of the claimed always-positive pre-index. -/
theorem mz_next_back_cex :
    buildRevFrame ([7] : List Nat) = .Z [7] 0 ∧
    nextBack (.Z ([7] : List Nat) 0) = some (some 7, .Z [7] (2 ^ 64 - 1)) := by
  refine ⟨rfl, ?_⟩
  rw [nextBack, toEntry, dif_pos (by norm_num)]
  have hmod : ((0 : Nat) + (2 ^ 64 - 1)) % 2 ^ 64 = 2 ^ 64 - 1 := by omega
  rw [hmod]
  rfl

end RobtIter

namespace Mvcc

/-! ## The MVCC / LLRB in-memory index (src/mvcc.rs, src/llrb_node.rs,
src/llrb_common.rs)

The tree is embedded with an explicit leaf constructor for the Rust
Option<Box<Node>> links.  mvcc_clone and Node::duplicate copy or alias a
node without changing any field value, so in this value-level embedding
they are identities and the reclaim lists (memory management only) are
dropped.  A Rust panic (unwrap of a missing child, rotation of a black
link, the explicit panic! calls) is Option.none. -/

/-- DeltaNode (src/llrb_node.rs lines 7-15). -/
structure DeltaNode (D : Type) where
  delta : D
  seqno : Nat
  deleted : Option Nat
  deriving DecidableEq, Repr

/-- AsDelta::seqno for DeltaNode (src/llrb_node.rs lines 40-43):
the tombstone seqno when deleted, else the mutation seqno. -/
def DeltaNode.dseqno {D : Type} (d : DeltaNode D) : Nat :=
  d.deleted.getD d.seqno

/-- The Diff trait (crate::traits): diff of two values. -/
class Diff (V : Type) (D : outParam Type) where
  diff : V → V → D

/-- The per-entry fields of Node (src/llrb_node.rs lines 53-67), without
the tree links and color. -/
structure NodeData (K V D : Type) where
  key : K
  value : V
  seqno : Nat
  deleted : Option Nat
  deltas : List (DeltaNode D)
  dirty : Bool

/-- An LLRB (sub)tree: leaf is Rust None, a node carries its entry data,
its color (black field) and the two children. -/
inductive Tree (K V D : Type) where
  | leaf
  | node (data : NodeData K V D) (black : Bool) (left right : Tree K V D)

variable {K V D : Type}

/-- is_red (src/llrb_common.rs lines 1-8). -/
def isRed : Tree K V D → Bool
  | .leaf => false
  | .node _ b _ _ => !b

/-- left_deref (src/llrb_node.rs lines 131-134), with None as leaf. -/
def leftOf : Tree K V D → Tree K V D
  | .leaf => .leaf
  | .node _ _ l _ => l

/-- right_deref (src/llrb_node.rs lines 136-139). -/
def rightOf : Tree K V D → Tree K V D
  | .leaf => .leaf
  | .node _ _ _ r => r

/-- Node::set_black on the root slot (no-op on an empty tree, where the
source guards the call). -/
def setBlack : Tree K V D → Tree K V D
  | .leaf => .leaf
  | .node d _ l r => .node d true l r

/-- Node count, the measure for the well-founded delete recursion. -/
def size : Tree K V D → Nat
  | .leaf => 0
  | .node _ _ l r => size l + size r + 1

/-- AsEntry::seqno (src/llrb_node.rs lines 259-262): the tombstone seqno
when deleted, else the value seqno. -/
def NodeData.nodeSeqno (d : NodeData K V D) : Nat :=
  d.deleted.getD d.seqno

/-- Node::is_deleted. -/
def NodeData.isDeleted (d : NodeData K V D) : Bool :=
  d.deleted.isSome

/-- Node::new (src/llrb_node.rs lines 76-90): fresh red node, dirty. -/
def newData (key : K) (value : V) (seqno : Nat) : NodeData K V D :=
  { key, value, seqno, deleted := none, deltas := [], dirty := true }

/-- Node::prepend_version (src/llrb_node.rs lines 142-154): in lsm mode
push a delta holding the diff to the previous value, tagged with the
previous seqno and tombstone, then install the new value; otherwise
overwrite value and seqno. -/
def NodeData.prependVersion [Diff V D] (d : NodeData K V D) (value : V) (seqno : Nat)
    (lsm : Bool) : NodeData K V D :=
  if lsm then
    { d with
      deltas := d.deltas ++ [⟨Diff.diff d.value value, d.seqno, d.deleted⟩],
      value := value, seqno := seqno, deleted := none }
  else
    { d with value := value, seqno := seqno }

/-- Node::delete (src/llrb_node.rs lines 157-162): set the tombstone only
if not already set. -/
def NodeData.deleteMark (d : NodeData K V D) (seqno : Nat) : NodeData K V D :=
  if d.deleted.isNone then { d with deleted := some seqno } else d

/-- Node::clone_detach (src/llrb_node.rs lines 202-214): the entry data
with dirty set true (links dropped). -/
def NodeData.cloneDetach (d : NodeData K V D) : NodeData K V D :=
  { d with dirty := true }

/-- Mvcc::rotate_left (src/mvcc.rs lines 627-648).  Panics (none) when the
right child is missing or black.  The dirty-or-clone choice of the source
is value-level identity. -/
def rotateLeft : Tree K V D → Option (Tree K V D)
  | .node d b l (.node rd rb rl rr) =>
    if rb then none
    else some (.node rd b (.node d false l rl) rr)
  | _ => none

/-- Mvcc::rotate_right (src/mvcc.rs lines 660-681). -/
def rotateRight : Tree K V D → Option (Tree K V D)
  | .node d b (.node ld lb ll lr) r =>
    if lb then none
    else some (.node ld b ll (.node d false lr r))
  | _ => none

/-- Mvcc::flip (src/mvcc.rs lines 691-712): toggle the colors of the node
and of both children; panics (none) when a child is missing. -/
def flip : Tree K V D → Option (Tree K V D)
  | .node d b (.node ld lb ll lr) (.node rd rb rl rr) =>
    some (.node d (!b) (.node ld (!lb) ll lr) (.node rd (!rb) rl rr))
  | _ => none

/-- Mvcc::walkuprot_23 (src/mvcc.rs lines 600-615). -/
def walkuprot23 (t : Tree K V D) : Option (Tree K V D) :=
  (if isRed (rightOf t) && !(isRed (leftOf t)) then rotateLeft t else pure t).bind fun t =>
  (if isRed (leftOf t) && isRed (leftOf (leftOf t)) then rotateRight t else pure t).bind fun t =>
  if isRed (leftOf t) && isRed (rightOf t) then flip t else pure t

/-- Mvcc::fixup (src/mvcc.rs lines 714-729). -/
def fixup (t : Tree K V D) : Option (Tree K V D) :=
  (if isRed (rightOf t) then rotateLeft t else pure t).bind fun t =>
  (if isRed (leftOf t) && isRed (leftOf (leftOf t)) then rotateRight t else pure t).bind fun t =>
  if isRed (leftOf t) && isRed (rightOf t) then flip t else pure t

/-- Mvcc::move_red_left (src/mvcc.rs lines 731-743).  The source unwraps
node.right after the flip; flip already guarantees both children are
present, so the is_red check on right.left is expressed with the total
projections. -/
def moveRedLeft (t : Tree K V D) : Option (Tree K V D) := do
  let t ← flip t
  if isRed (leftOf (rightOf t)) then
    match t with
    | .node d b l r => do
      let r2 ← rotateRight r
      let t2 ← rotateLeft (.node d b l r2)
      flip t2
    | .leaf => none
  else pure t

/-- Mvcc::move_red_right (src/mvcc.rs lines 745-755). -/
def moveRedRight (t : Tree K V D) : Option (Tree K V D) := do
  let t ← flip t
  if isRed (leftOf (leftOf t)) then do
    let t2 ← rotateRight t
    flip t2
  else pure t

end Mvcc

namespace Mvcc

variable {K V D : Type}

theorem rotateLeft_size {t t' : Tree K V D} (h : rotateLeft t = some t') :
    size t' = size t := by
  match t with
  | .leaf => simp [rotateLeft] at h
  | .node d b l .leaf => simp [rotateLeft] at h
  | .node d b l (.node rd rb rl rr) =>
    rw [rotateLeft] at h
    split at h
    · exact absurd h (by simp)
    · simp at h
      subst h
      simp [size]
      omega

theorem rotateRight_size {t t' : Tree K V D} (h : rotateRight t = some t') :
    size t' = size t := by
  match t with
  | .leaf => simp [rotateRight] at h
  | .node d b .leaf r => simp [rotateRight] at h
  | .node d b (.node ld lb ll lr) r =>
    rw [rotateRight] at h
    split at h
    · exact absurd h (by simp)
    · simp at h
      subst h
      simp [size]
      omega

theorem flip_size {t t' : Tree K V D} (h : flip t = some t') : size t' = size t := by
  match t with
  | .leaf => simp [flip] at h
  | .node d b .leaf r => simp [flip] at h
  | .node d b (.node ld lb ll lr) .leaf => simp [flip] at h
  | .node d b (.node ld lb ll lr) (.node rd rb rl rr) =>
    rw [flip] at h
    simp at h
    subst h
    simp [size]

theorem moveRedLeft_size {t t' : Tree K V D} (h : moveRedLeft t = some t') :
    size t' = size t := by
  rw [moveRedLeft] at h
  rcases hf : flip t with _ | tf
  · rw [hf] at h; exact absurd h (by simp)
  rw [hf] at h
  simp only [Option.bind_eq_bind, Option.some_bind] at h
  split at h
  · rcases tf with _ | ⟨d, b, l, r⟩
    · simp at h
    · dsimp only at h
      rcases hr : rotateRight r with _ | r2
      · rw [hr] at h; simp at h
      rw [hr] at h
      simp only [Option.bind_eq_bind, Option.some_bind] at h
      rcases hl : rotateLeft (.node d b l r2) with _ | t2
      · rw [hl] at h; simp at h
      rw [hl] at h
      simp only [Option.bind_eq_bind, Option.some_bind] at h
      have e1 := flip_size h
      have e2 := rotateLeft_size hl
      have e3 := rotateRight_size hr
      have e4 := flip_size hf
      simp [size] at e2 e4 ⊢
      omega
  · simp at h
    subst h
    exact flip_size hf

theorem moveRedRight_size {t t' : Tree K V D} (h : moveRedRight t = some t') :
    size t' = size t := by
  rw [moveRedRight] at h
  rcases hf : flip t with _ | tf
  · rw [hf] at h; exact absurd h (by simp)
  rw [hf] at h
  simp only [Option.bind_eq_bind, Option.some_bind] at h
  split at h
  · rcases hr : rotateRight tf with _ | t2
    · rw [hr] at h; simp at h
    rw [hr] at h
    simp only [Option.bind_eq_bind, Option.some_bind] at h
    have e1 := flip_size h
    have e2 := rotateRight_size hr
    have e3 := flip_size hf
    omega
  · simp at h
    subst h
    exact flip_size hf

theorem fixup_size {t t' : Tree K V D} (h : fixup t = some t') : size t' = size t := by
  rw [fixup] at h
  rcases h1 : (if isRed (rightOf t) then rotateLeft t else pure t) with _ | t1
  · rw [h1] at h; exact absurd h (by simp)
  rw [h1] at h
  simp only [Option.bind_eq_bind, Option.some_bind] at h
  rcases h2 : (if isRed (leftOf t1) && isRed (leftOf (leftOf t1)) then rotateRight t1
      else pure t1) with _ | t2
  · rw [h2] at h; exact absurd h (by simp)
  rw [h2] at h
  simp only [Option.bind_eq_bind, Option.some_bind] at h
  have e1 : size t1 = size t := by
    split at h1
    · exact rotateLeft_size h1
    · simp at h1; rw [h1]
  have e2 : size t2 = size t1 := by
    split at h2
    · exact rotateRight_size h2
    · simp at h2; rw [h2]
  have e3 : size t' = size t2 := by
    split at h
    · exact flip_size h
    · simp at h; rw [h]
  omega

end Mvcc

namespace Mvcc

variable {K V D : Type}

/-- Emptiness of a link, as Option::is_none on the child. -/
def Tree.isLeaf : Tree K V D → Bool
  | .leaf => true
  | .node _ _ _ _ => false

/-- The error type of the CAS path (src/error.rs). -/
inductive CasError where
  | InvalidCAS
  deriving DecidableEq, Repr

/-- Mvcc::upsert (src/mvcc.rs lines 332-379).  Returns the new subtree and
the detached old node data; the duplicate alias n returned by the source
is the node carrying the written key, whose dirty flag the wrapper clears
(see clearDirtyAtKey). -/
def upsert [LinearOrder K] [Diff V D] (t : Tree K V D) (key : K) (value : V)
    (seqno : Nat) (lsm : Bool) : Option (Tree K V D × Option (NodeData K V D)) :=
  match t with
  | .leaf => some (.node (newData key value seqno) false .leaf .leaf, none)
  | .node data black l r =>
    if key < data.key then
      (upsert l key value seqno lsm).bind fun p =>
      (walkuprot23 (.node data black p.1 r)).map fun t2 => (t2, p.2)
    else if data.key < key then
      (upsert r key value seqno lsm).bind fun p =>
      (walkuprot23 (.node data black l p.1)).map fun t2 => (t2, p.2)
    else
      let old := data.cloneDetach
      let data2 := { data.prependVersion value seqno lsm with dirty := true }
      (walkuprot23 (.node data2 black l r)).map fun t2 => (t2, some old)

/-- Mvcc::upsert_cas (src/mvcc.rs lines 381-440).  The first component is
the Option tree the source returns (None only in the empty-with-cas
case), then the old node and the InvalidCAS error. -/
def upsertCas [LinearOrder K] [Diff V D] (t : Tree K V D) (key : K) (val : V)
    (cas seqno : Nat) (lsm : Bool) :
    Option (Option (Tree K V D) × Option (NodeData K V D) × Option CasError) :=
  match t with
  | .leaf =>
    if cas > 0 then some (none, none, some .InvalidCAS)
    else some (some (.node (newData key val seqno) false .leaf .leaf), none, none)
  | .node data black l r =>
    if key < data.key then
      (upsertCas l key val cas seqno lsm).bind fun p =>
      (walkuprot23 (.node data black (p.1.getD .leaf) r)).map fun t2 =>
        (some t2, p.2.1, p.2.2)
    else if data.key < key then
      (upsertCas r key val cas seqno lsm).bind fun p =>
      (walkuprot23 (.node data black l (p.1.getD .leaf))).map fun t2 =>
        (some t2, p.2.1, p.2.2)
    else if data.isDeleted ∧ cas ≠ 0 ∧ cas ≠ data.nodeSeqno then
      some (some (.node data black l r), none, some .InvalidCAS)
    else if ¬ data.isDeleted = true ∧ cas ≠ data.nodeSeqno then
      some (some (.node data black l r), none, some .InvalidCAS)
    else
      let old := data.cloneDetach
      let data2 := { data.prependVersion val seqno lsm with dirty := true }
      (walkuprot23 (.node data2 black l r)).map fun t2 => (some t2, some old, none)

/-- Mvcc::delete_lsm (src/mvcc.rs lines 442-493): insert a tombstone node
with the default value when the key is absent, otherwise mark the node
deleted; every arm rebalances with walkuprot_23. -/
def deleteLsm [LinearOrder K] [Inhabited V] [Diff V D] (t : Tree K V D) (key : K)
    (seqno : Nat) : Option (Tree K V D × Option (NodeData K V D)) :=
  match t with
  | .leaf =>
    some (.node ((newData key default seqno).deleteMark seqno) false .leaf .leaf, none)
  | .node data black l r =>
    if key < data.key then
      (deleteLsm l key seqno).bind fun p =>
      (walkuprot23 (.node data black p.1 r)).map fun t2 => (t2, p.2)
    else if data.key < key then
      (deleteLsm r key seqno).bind fun p =>
      (walkuprot23 (.node data black l p.1)).map fun t2 => (t2, p.2)
    else
      let old := data.cloneDetach
      let data2 := { data.deleteMark seqno with dirty := true }
      (walkuprot23 (.node data2 black l r)).map fun t2 => (t2, some old)

/-- Mvcc::delete_min (src/mvcc.rs lines 567-592): detach the leftmost
node (mvcc_detach drops its links), rebalance on the way down with
move_red_left and on the way up with fixup. -/
def deleteMin (t : Tree K V D) : Option (Tree K V D × Option (NodeData K V D)) :=
  match t with
  | .leaf => some (.leaf, none)
  | .node data black l r =>
    if l.isLeaf then some (.leaf, some data)
    else
      match hm : (if !(isRed l) && !(isRed (leftOf l)) then
          moveRedLeft (.node data black l r) else some (.node data black l r)) with
      | none => none
      | some .leaf => none
      | some (.node d2 b2 l2 r2) =>
        (deleteMin l2).bind fun p =>
        (fixup (.node d2 b2 p.1 r2)).map fun t3 => (t3, p.2)
termination_by size t
decreasing_by
  split at hm
  · have := moveRedLeft_size hm
    simp [size] at this ⊢
    omega
  · simp at hm
    obtain ⟨h1, h2, h3, h4⟩ := hm
    subst h3
    simp [size]
    omega

/-- Mvcc::do_delete (src/mvcc.rs lines 496-564): Sedgewick delete.  On
the left descent move_red_left guards; on the right, rotate_right when the
left child is red, detach when the key matches at a right-less node,
move_red_right, then either splice in the successor taken by delete_min
(res = None is the source panic) or recurse right; every structural arm
ends in fixup. -/
def doDelete [LinearOrder K] (t : Tree K V D) (key : K) :
    Option (Tree K V D × Option (NodeData K V D)) :=
  match t with
  | .leaf => some (.leaf, none)
  | .node data black l r =>
    if key < data.key then
      if l.isLeaf then some (.node data black l r, none)
      else
        match hm : (if !(isRed l) && !(isRed (leftOf l)) then
            moveRedLeft (.node data black l r) else some (.node data black l r)) with
        | none => none
        | some .leaf => none
        | some (.node d2 b2 l2 r2) =>
          (doDelete l2 key).bind fun p =>
          (fixup (.node d2 b2 p.1 r2)).map fun t3 => (t3, p.2)
    else
      match hr : (if isRed l then rotateRight (.node data black l r)
          else some (.node data black l r)) with
      | none => none
      | some .leaf => none
      | some (.node d2 b2 l2 r2) =>
        if ¬ d2.key < key ∧ r2.isLeaf then some (.leaf, some d2)
        else
          match hm2 : (if (!r2.isLeaf) && !(isRed r2) && !(isRed (leftOf r2)) then
              moveRedRight (.node d2 b2 l2 r2) else some (.node d2 b2 l2 r2)) with
          | none => none
          | some .leaf => none
          | some (.node d3 b3 l3 r3) =>
            if ¬ d3.key < key then
              (deleteMin r3).bind fun p =>
              match p.2 with
              | none => none
              | some newdata =>
                (fixup (.node newdata b3 l3 p.1)).map fun t5 => (t5, some d3)
            else
              (doDelete r3 key).bind fun p =>
              (fixup (.node d3 b3 l3 p.1)).map fun t5 => (t5, p.2)
termination_by size t
decreasing_by
  · split at hm
    · have := moveRedLeft_size hm
      simp [size] at this ⊢
      omega
    · simp at hm
      obtain ⟨h1, h2, h3, h4⟩ := hm
      subst h3
      simp [size]
      omega
  · have hs3 : size (Tree.node d3 b3 l3 r3) = size (Tree.node d2 b2 l2 r2) := by
      split at hm2
      · exact moveRedRight_size hm2
      · simp at hm2
        obtain ⟨e1, e2, e3, e4⟩ := hm2
        subst e3; subst e4
        rfl
    split at hr
    · have hs2 := rotateRight_size hr
      simp [size] at hs2 hs3 ⊢
      omega
    · simp at hr
      obtain ⟨e1, e2, e3, e4⟩ := hr
      subst e3; subst e4
      simp [size] at hs3 ⊢
      omega

/-- llrb_common::get (src/llrb_common.rs lines 19-34), returning the
node's entry data; Err(KeyNotFound) is none. -/
def get [LinearOrder K] : Tree K V D → K → Option (NodeData K V D)
  | .leaf, _ => none
  | .node d _ l r, key =>
    if d.key < key then get r key
    else if key < d.key then get l key
    else some d

/-- The wrapper statement `n.dirty = false` through the alias n returned
by upsert / upsert_cas / delete_lsm.  The alias is the node carrying the
written key; rotations and flips reuse a dirty node instead of cloning it
(src/mvcc.rs lines 636-640, 669-673, 695-704), so the alias stays in the
new tree and clearing it clears the dirty flag of exactly the key's
node. -/
def clearDirtyAtKey [DecidableEq K] : Tree K V D → K → Tree K V D
  | .leaf, _ => .leaf
  | .node d b l r, key =>
    if d.key = key then .node { d with dirty := false } b l r
    else .node d b (clearDirtyAtKey l key) (clearDirtyAtKey r key)

/-- The state an Mvcc index publishes in a snapshot: the root, the
snapshot seqno and the entry count, plus the lsm flag fixed at creation
(src/mvcc.rs Snapshot / Mvcc). -/
structure Index (K V D : Type) where
  lsm : Bool
  root : Tree K V D
  seqno : Nat
  n_count : Nat

/-- Llrb::new / Mvcc::new: empty index. -/
def Index.new (lsm : Bool) : Index K V D :=
  { lsm, root := .leaf, seqno := 0, n_count := 0 }

/-- Mvcc::set (src/mvcc.rs lines 187-211): upsert at seqno + 1, set the
root black, clear the alias's dirty flag, bump n_count on a fresh key and
publish the snapshot at the new seqno. -/
def Index.set [LinearOrder K] [Diff V D] (s : Index K V D) (key : K) (value : V) :
    Option (Index K V D × Option (NodeData K V D)) :=
  let seqno := s.seqno + 1
  (upsert s.root key value seqno s.lsm).bind fun p =>
  let root := clearDirtyAtKey (setBlack p.1) key
  let n_count := if p.2.isNone then s.n_count + 1 else s.n_count
  some ({ s with root := root, seqno := seqno, n_count := n_count }, p.2)

/-- Mvcc::set_cas (src/mvcc.rs lines 213-251).  Even the InvalidCAS arm
publishes a snapshot whose seqno is the previous seqno + 1 (seqno is
computed before the match and shift_snapshot runs unconditionally);
upsert_cas returning no root (empty index with cas > 0) falls into the
`panic!("set_cas: impossible case")` arm, i.e. none. -/
def Index.setCas [LinearOrder K] [Diff V D] (s : Index K V D) (k : K) (v : V)
    (cas : Nat) : Option (Index K V D × Except CasError (Option (NodeData K V D))) :=
  let seqno := s.seqno + 1
  (upsertCas s.root k v cas seqno s.lsm).bind fun p =>
  match p with
  | (none, _, _) => none
  | (some root, _, some err) =>
    some ({ s with root := setBlack root, seqno := seqno }, .error err)
  | (some root, old, none) =>
    let n_count := if old.isNone then s.n_count + 1 else s.n_count
    let root2 := clearDirtyAtKey (setBlack root) k
    some ({ s with root := root2, seqno := seqno, n_count := n_count }, .ok old)

/-- Mvcc::delete (src/mvcc.rs lines 253-301): lsm mode inserts or marks a
tombstone via delete_lsm (n_count grows on a fresh key); non-lsm mode
removes the node via do_delete (n_count shrinks when one was removed);
either way the snapshot is published at seqno + 1. -/
def Index.delete [LinearOrder K] [Inhabited V] [Diff V D] (s : Index K V D)
    (key : K) : Option (Index K V D × Option (NodeData K V D)) :=
  let seqno := s.seqno + 1
  if s.lsm then
    (deleteLsm s.root key seqno).bind fun p =>
    let root := clearDirtyAtKey (setBlack p.1) key
    let n_count := if p.2.isNone then s.n_count + 1 else s.n_count
    some ({ s with root := root, seqno := seqno, n_count := n_count }, p.2)
  else
    (doDelete s.root key).bind fun p =>
    let n_count := if p.2.isSome then s.n_count - 1 else s.n_count
    some ({ s with root := setBlack p.1, seqno := seqno, n_count := n_count }, p.2)

/-- The errors of llrb_common::validate_tree (src/error.rs names). -/
inductive VError (K : Type) where
  | DirtyNode
  | ConsecutiveReds
  | SortError (a b : K)
  | UnbalancedBlacks (l r : Nat)
  deriving DecidableEq

/-- The left-child sort check of validate_tree (src/llrb_common.rs lines
56-62): left.key >= node.key is a SortError. -/
def leftSortErr [LinearOrder K] (d : NodeData K V D) : Tree K V D → Option (VError K)
  | .leaf => none
  | .node ld _ _ _ => if d.key ≤ ld.key then some (.SortError ld.key d.key) else none

/-- The right-child sort check of validate_tree (src/llrb_common.rs lines
63-68): right.key <= node.key is a SortError. -/
def rightSortErr [LinearOrder K] (d : NodeData K V D) : Tree K V D → Option (VError K)
  | .leaf => none
  | .node rd _ _ _ => if rd.key ≤ d.key then some (.SortError d.key rd.key) else none

/-- llrb_common::validate_tree (src/llrb_common.rs lines 36-90): dirty
check, consecutive-red check, sort checks, then recurse counting blacks
and compare the black heights.  The depth statistics are dropped. -/
def validateTree [LinearOrder K] : Tree K V D → Bool → Nat → Except (VError K) Nat
  | .leaf, _, blacks => .ok blacks
  | .node d b l r, fromred, blacks =>
    let red := !b
    if d.dirty then .error .DirtyNode
    else if fromred && red then .error .ConsecutiveReds
    else match leftSortErr d l with
    | some e => .error e
    | none => match rightSortErr d r with
      | some e => .error e
      | none =>
        let blacks2 := if red then blacks else blacks + 1
        (validateTree l red blacks2).bind fun lb =>
        (validateTree r red blacks2).bind fun rb =>
        if lb ≠ rb then .error (.UnbalancedBlacks lb rb) else .ok lb

/-- Mvcc::validate (src/mvcc.rs lines 311-324): validate_tree from the
root with fromred = is_red(root) and zero blacks. -/
def Index.validate [LinearOrder K] (s : Index K V D) : Except (VError K) Nat :=
  validateTree s.root (isRed s.root) 0

/-- Strictly ascending recorded seqnos: every delta's AsDelta::seqno, in
list order, then the entry's AsEntry::seqno on top. -/
def DeltaAsc (d : NodeData K V D) : Prop :=
  List.Chain' (· < ·) (d.deltas.map DeltaNode.dseqno ++ [d.nodeSeqno])

instance instDiffNat : Diff Nat Nat := ⟨fun a _ => a⟩

/-- Two lsm prepend_versions on a fresh node, at seqnos 2 and 3. -/
def c5Data : NodeData Nat Nat Nat :=
  ((newData 10 100 1).prependVersion 200 2 true).prependVersion 300 3 true

/-- C5 (amended): Node::prepend_version pushes the displaced version at
the END of the delta vector (Vec::push, src/llrb_node.rs line 146), so
the recorded seqnos run strictly ASCENDING along the delta list and the
entry seqno tops them all: seqno(deltas[0]) < ... < seqno(deltas[last]) <
seqno(value); the newest delta sits at the last position, not at
position 0. -/
theorem prepend_version_seqno_order [Diff V D] (d : NodeData K V D) (v : V) (s : Nat)
    (hchain : DeltaAsc d) (hs : d.nodeSeqno < s) :
    (d.prependVersion v s true).deltas =
      d.deltas ++ [⟨Diff.diff d.value v, d.seqno, d.deleted⟩] ∧
    DeltaAsc (d.prependVersion v s true) := by
  constructor
  · simp [NodeData.prependVersion]
  · unfold DeltaAsc at hchain ⊢
    have h1 : (d.prependVersion v s true).deltas.map DeltaNode.dseqno ++
        [(d.prependVersion v s true).nodeSeqno] =
        (d.deltas.map DeltaNode.dseqno ++ [d.nodeSeqno]) ++ [s] := by
      simp [NodeData.prependVersion, NodeData.nodeSeqno, DeltaNode.dseqno]
    rw [h1]
    rw [List.chain'_append]
    refine ⟨hchain, List.chain'_singleton s, ?_⟩
    intro x hx y hy
    rw [List.getLast?_concat] at hx
    simp at hx hy
    omega

/-- C5 witness at a concrete entry. -/
theorem prepend_version_seqno_order_witness :
    DeltaAsc (newData 10 100 1 : NodeData Nat Nat Nat) ∧
    (newData 10 100 1 : NodeData Nat Nat Nat).nodeSeqno < 2 ∧
    ((newData 10 100 1 : NodeData Nat Nat Nat).prependVersion 200 2 true).deltas =
      (newData 10 100 1 : NodeData Nat Nat Nat).deltas ++ [⟨100, 1, none⟩] ∧
    DeltaAsc ((newData 10 100 1 : NodeData Nat Nat Nat).prependVersion 200 2 true) := by
  refine ⟨?_, ?_, ?_⟩
  · simp [DeltaAsc, newData]
  · decide
  · exact prepend_version_seqno_order (newData 10 100 1) 200 2
      (by simp [DeltaAsc, newData]) (by decide)

/-- C5 counterexample: after two lsm prepend_versions the delta seqnos are
[1, 2] in list order, ascending, and the newest delta (seqno 2) is at the
last index, not at index 0 — refuting the claimed descending order
seqno(deltas[0]) > seqno(deltas[1]) and the newest-first layout. -/
theorem prepend_version_newest_last :
    c5Data.deltas.length = 2 ∧
    (c5Data.deltas.get ⟨0, by decide⟩).dseqno = 1 ∧
    (c5Data.deltas.get ⟨1, by decide⟩).dseqno = 2 ∧
    ¬ (c5Data.deltas.get ⟨0, by decide⟩).dseqno >
        (c5Data.deltas.get ⟨1, by decide⟩).dseqno ∧
    (c5Data.deltas.get ⟨1, by decide⟩).seqno = 2 := by
  refine ⟨rfl, rfl, rfl, by decide, rfl⟩

/-- In-order entry listing of a subtree. -/
def inorder : Tree K V D → List (NodeData K V D)
  | .leaf => []
  | .node d _ l r => inorder l ++ d :: inorder r

/-- In-order key listing. -/
def keys (t : Tree K V D) : List K :=
  (inorder t).map (·.key)

/-- Red-black balance of the left-leaning tree as the mutations maintain
it: a red node has two black children of equal black height, a black node
has a black right child and a left child of either color.  The index is
the black height (number of black links to every leaf). -/
inductive LBal : Tree K V D → Bool → Nat → Prop where
  | leaf : LBal .leaf true 0
  | red {d : NodeData K V D} {l r n} :
      LBal l true n → LBal r true n → LBal (.node d false l r) false n
  | black {d : NodeData K V D} {l r c n} :
      LBal l c n → LBal r true n → LBal (.node d true l r) true (n + 1)

/-- What an unbalanced intermediate hand back up: either balanced, or a
red root whose left child is red (one left-leaning red-red violation at
the top), with equal black heights.  A set_black on top restores LBal. -/
inductive RedL : Tree K V D → Nat → Prop where
  | bal {t : Tree K V D} {c n} : LBal t c n → RedL t n
  | rr {d : NodeData K V D} {a b n} :
      LBal a false n → LBal b true n → RedL (.node d false a b) n

/-- No node of the subtree carries dirty = true (the published-snapshot
condition validate_tree checks first). -/
def NoDirty : Tree K V D → Prop
  | .leaf => True
  | .node d _ l r => d.dirty = false ∧ NoDirty l ∧ NoDirty r

/-- Every dirty node of the subtree carries the given key. -/
def DirtyOnly (k : K) : Tree K V D → Prop
  | .leaf => True
  | .node d _ l r => (d.dirty = true → d.key = k) ∧ DirtyOnly k l ∧ DirtyOnly k r

/-- k lies strictly inside the open interval (lo, hi). -/
def Inside [LT K] (lo hi : Option K) (k : K) : Prop :=
  (∀ a ∈ lo, a < k) ∧ ∀ b ∈ hi, k < b

/-- Every node's key lies inside (lo, hi) and separates its subtrees. -/
def Bnd [LT K] (lo hi : Option K) : Tree K V D → Prop
  | .leaf => True
  | .node d _ l r => Inside lo hi d.key ∧ Bnd lo (some d.key) l ∧ Bnd (some d.key) hi r

theorem isRed_false_of_black {t : Tree K V D} {n} (h : LBal t true n) :
    isRed t = false := by
  cases h <;> rfl

theorem lbal_setBlack {t : Tree K V D} {c n} (h : LBal t c n) :
    ∃ n', LBal (setBlack t) true n' := by
  cases h with
  | leaf => exact ⟨0, .leaf⟩
  | red hl hr => exact ⟨_, .black hl hr⟩
  | black hl hr => exact ⟨_, .black hl hr⟩

theorem redL_setBlack {t : Tree K V D} {n} (h : RedL t n) :
    ∃ n', LBal (setBlack t) true n' := by
  cases h with
  | bal h => exact lbal_setBlack h
  | rr ha hb => exact ⟨_, .black ha hb⟩

theorem rotateLeft_inorder {t t' : Tree K V D} (h : rotateLeft t = some t') :
    inorder t' = inorder t := by
  match t with
  | .leaf => simp [rotateLeft] at h
  | .node d b l .leaf => simp [rotateLeft] at h
  | .node d b l (.node rd rb rl rr) =>
    rw [rotateLeft] at h
    split at h
    · exact absurd h (by simp)
    · simp at h
      subst h
      simp [inorder]

theorem rotateRight_inorder {t t' : Tree K V D} (h : rotateRight t = some t') :
    inorder t' = inorder t := by
  match t with
  | .leaf => simp [rotateRight] at h
  | .node d b .leaf r => simp [rotateRight] at h
  | .node d b (.node ld lb ll lr) r =>
    rw [rotateRight] at h
    split at h
    · exact absurd h (by simp)
    · simp at h
      subst h
      simp [inorder]

theorem flip_inorder {t t' : Tree K V D} (h : flip t = some t') :
    inorder t' = inorder t := by
  match t with
  | .leaf => simp [flip] at h
  | .node d b .leaf r => simp [flip] at h
  | .node d b (.node ld lb ll lr) .leaf => simp [flip] at h
  | .node d b (.node ld lb ll lr) (.node rd rb rl rr) =>
    rw [flip] at h
    simp at h
    subst h
    simp [inorder]

theorem walkuprot23_inorder {t t' : Tree K V D} (h : walkuprot23 t = some t') :
    inorder t' = inorder t := by
  unfold walkuprot23 at h
  rw [Option.bind_eq_some] at h
  obtain ⟨t1, h1, h⟩ := h
  rw [Option.bind_eq_some] at h
  obtain ⟨t2, h2, h3⟩ := h
  have e1 : inorder t1 = inorder t := by
    split at h1
    · exact rotateLeft_inorder h1
    · simp at h1
      rw [h1]
  have e2 : inorder t2 = inorder t1 := by
    split at h2
    · exact rotateRight_inorder h2
    · simp at h2
      rw [h2]
  have e3 : inorder t' = inorder t2 := by
    split at h3
    · exact flip_inorder h3
    · simp at h3
      rw [h3]
  rw [e3, e2, e1]

theorem fixup_inorder {t t' : Tree K V D} (h : fixup t = some t') :
    inorder t' = inorder t := by
  unfold fixup at h
  rw [Option.bind_eq_some] at h
  obtain ⟨t1, h1, h⟩ := h
  rw [Option.bind_eq_some] at h
  obtain ⟨t2, h2, h3⟩ := h
  have e1 : inorder t1 = inorder t := by
    split at h1
    · exact rotateLeft_inorder h1
    · simp at h1
      rw [h1]
  have e2 : inorder t2 = inorder t1 := by
    split at h2
    · exact rotateRight_inorder h2
    · simp at h2
      rw [h2]
  have e3 : inorder t' = inorder t2 := by
    split at h3
    · exact flip_inorder h3
    · simp at h3
      rw [h3]
  rw [e3, e2, e1]

theorem leftOf_node {d : NodeData K V D} {b : Bool} {l r : Tree K V D} :
    leftOf (.node d b l r) = l := rfl

theorem rightOf_node {d : NodeData K V D} {b : Bool} {l r : Tree K V D} :
    rightOf (.node d b l r) = r := rfl

theorem isRed_node {d : NodeData K V D} {b : Bool} {l r : Tree K V D} :
    isRed (.node d b l r) = !b := rfl

theorem isRed_leaf : isRed (.leaf : Tree K V D) = false := rfl

theorem walkuprot_noop {d : NodeData K V D} {b : Bool} {l r : Tree K V D}
    (h1 : isRed r = false) (h2 : isRed l = false ∨ isRed (leftOf l) = false) :
    walkuprot23 (.node d b l r) = some (.node d b l r) := by
  rcases h2 with h | h <;>
    simp [walkuprot23, leftOf_node, rightOf_node, h1, h]

theorem walkuprot_rotl {d rd : NodeData K V D} {b : Bool} {l rl rr : Tree K V D}
    (hl : isRed l = false) (hrr : isRed rr = false) :
    walkuprot23 (.node d b l (.node rd false rl rr)) =
      some (.node rd b (.node d false l rl) rr) := by
  simp [walkuprot23, leftOf_node, rightOf_node, isRed_node, hl, hrr, rotateLeft]

theorem walkuprot_rotr_flip {d ld lad : NodeData K V D} {lal lar lb r : Tree K V D}
    (hr : isRed r = false) :
    walkuprot23 (.node d true (.node ld false (.node lad false lal lar) lb) r) =
      some (.node ld false (.node lad true lal lar) (.node d true lb r)) := by
  simp [walkuprot23, leftOf_node, rightOf_node, isRed_node, hr, rotateRight, flip]

theorem walkuprot_fliponly {d ld rd : NodeData K V D} {b : Bool}
    {ll lr rl rr : Tree K V D} (hll : isRed ll = false) :
    walkuprot23 (.node d b (.node ld false ll lr) (.node rd false rl rr)) =
      some (.node d (!b) (.node ld true ll lr) (.node rd true rl rr)) := by
  simp [walkuprot23, leftOf_node, rightOf_node, isRed_node, hll, flip]

theorem inside_lo {x k : K} {hi : Option K} [LinearOrder K]
    (h : Inside (some x) hi k) : x < k :=
  h.1 x rfl

theorem inside_hi {x k : K} {lo : Option K} [LinearOrder K]
    (h : Inside lo (some x) k) : k < x :=
  h.2 x rfl

theorem inside_shrink_hi {k x : K} {lo hi : Option K} [LinearOrder K]
    (h : Inside lo hi k) (hx : k < x) : Inside lo (some x) k :=
  ⟨h.1, fun b hb => by cases hb; exact hx⟩

theorem inside_shrink_lo {k x : K} {lo hi : Option K} [LinearOrder K]
    (h : Inside lo hi k) (hx : x < k) : Inside (some x) hi k :=
  ⟨fun a ha => by cases ha; exact hx, h.2⟩

theorem inside_widen_hi {k x : K} {lo hi : Option K} [LinearOrder K]
    (h : Inside lo (some x) k) (hx : ∀ b ∈ hi, x < b) : Inside lo hi k :=
  ⟨h.1, fun b hb => lt_trans (inside_hi h) (hx b hb)⟩

theorem inside_widen_lo {k x : K} {lo hi : Option K} [LinearOrder K]
    (h : Inside (some x) hi k) (hx : ∀ a ∈ lo, a < x) : Inside lo hi k :=
  ⟨fun a ha => lt_trans (hx a ha) (inside_lo h), h.2⟩

theorem bnd_mem [LinearOrder K] {lo hi : Option K} {t : Tree K V D}
    (h : Bnd lo hi t) : ∀ e ∈ inorder t, Inside lo hi e.key := by
  induction t generalizing lo hi with
  | leaf => intro e he; simp [inorder] at he
  | node d b l r ihl ihr =>
    obtain ⟨hin, hbl, hbr⟩ := h
    intro e he
    simp only [inorder, List.mem_append, List.mem_cons] at he
    rcases he with he | he | he
    · exact inside_widen_hi (ihl hbl e he) hin.2
    · rw [he]; exact hin
    · exact inside_widen_lo (ihr hbr e he) hin.1

theorem lbal_noop_side {t : Tree K V D} {c : Bool} {n : Nat} (h : LBal t c n) :
    isRed t = false ∨ isRed (leftOf t) = false := by
  cases h with
  | leaf => exact Or.inl rfl
  | red hl hr => exact Or.inr (isRed_false_of_black hl)
  | black hl hr => exact Or.inl rfl

/-- What an insert-style recursion (upsert, upsert_cas success path,
delete_lsm) does to the entry list: either the key was absent and a new
entry newd appears at its place, or the entry d0 at the key is replaced
by f d0 and old = g d0 is handed back. -/
def InsIO (k : K) (newd : NodeData K V D) (f g : NodeData K V D → NodeData K V D)
    (t t' : Tree K V D) (old : Option (NodeData K V D)) : Prop :=
  (old = none ∧ (∀ e ∈ inorder t, e.key ≠ k) ∧
    ∃ A B, inorder t = A ++ B ∧ inorder t' = A ++ newd :: B) ∨
  (∃ d0 A B, old = some (g d0) ∧ d0.key = k ∧
    inorder t = A ++ d0 :: B ∧ inorder t' = A ++ f d0 :: B)

theorem insIO_left [LinearOrder K] {k : K} {newd : NodeData K V D} {f g}
    {l l' r t' : Tree K V D} {d : NodeData K V D} {b : Bool} {old} {hi : Option K}
    (hio : InsIO k newd f g l l' old)
    (ht' : inorder t' = inorder l' ++ d :: inorder r)
    (hbr : Bnd (some d.key) hi r) (hlt : k < d.key) :
    InsIO k newd f g (.node d b l r) t' old := by
  rcases hio with ⟨hold, habs, A, B, hA, hB⟩ | ⟨d0, A, B, hold, hk0, hA, hB⟩
  · refine Or.inl ⟨hold, ?_, A, B ++ d :: inorder r, ?_, ?_⟩
    · intro e he
      simp only [inorder, List.mem_append, List.mem_cons] at he
      rcases he with he | he | he
      · exact habs e he
      · rw [he]; exact ne_of_gt hlt
      · exact ne_of_gt (lt_trans hlt (inside_lo (bnd_mem hbr e he)))
    · simp [inorder, hA]
    · simp [ht', hB]
  · refine Or.inr ⟨d0, A, B ++ d :: inorder r, hold, hk0, ?_, ?_⟩
    · simp [inorder, hA]
    · simp [ht', hB]

theorem insIO_right [LinearOrder K] {k : K} {newd : NodeData K V D} {f g}
    {l r r' t' : Tree K V D} {d : NodeData K V D} {b : Bool} {old} {lo : Option K}
    (hio : InsIO k newd f g r r' old)
    (ht' : inorder t' = inorder l ++ d :: inorder r')
    (hbl : Bnd lo (some d.key) l) (hgt : d.key < k) :
    InsIO k newd f g (.node d b l r) t' old := by
  rcases hio with ⟨hold, habs, A, B, hA, hB⟩ | ⟨d0, A, B, hold, hk0, hA, hB⟩
  · refine Or.inl ⟨hold, ?_, inorder l ++ d :: A, B, ?_, ?_⟩
    · intro e he
      simp only [inorder, List.mem_append, List.mem_cons] at he
      rcases he with he | he | he
      · exact ne_of_lt (lt_trans (inside_hi (bnd_mem hbl e he)) hgt)
      · rw [he]; exact ne_of_lt hgt
      · exact habs e he
    · simp [inorder, hA]
    · simp [ht', hB]
  · refine Or.inr ⟨d0, inorder l ++ d :: A, B, hold, hk0, ?_, ?_⟩
    · simp [inorder, hA]
    · simp [ht', hB]

theorem insIO_eq {k : K} {newd : NodeData K V D} {f g}
    {l r t' : Tree K V D} {d : NodeData K V D} {b : Bool}
    (ht' : inorder t' = inorder l ++ f d :: inorder r) (hk : d.key = k) :
    InsIO k newd f g (.node d b l r) t' (some (g d)) :=
  Or.inr ⟨d, inorder l, inorder r, rfl, hk, rfl, ht'⟩

/-- Mvcc::upsert preserves the LLRB shape: a black subtree comes back
balanced at the same black height (its root may turn red), a red subtree
comes back as RedL; bounds are preserved and the entry list changes by
exactly the inserted or updated entry. -/
theorem upsert_spec [LinearOrder K] [Diff V D] {t : Tree K V D}
    {k : K} {v : V} {s : Nat} {lsm : Bool} {c : Bool} {n : Nat}
    (hb : LBal t c n) :
    ∀ {t' : Tree K V D} {old : Option (NodeData K V D)} {lo hi : Option K},
      Bnd lo hi t → Inside lo hi k → upsert t k v s lsm = some (t', old) →
      (RedL t' n ∧ (c = true → ∃ c', LBal t' c' n)) ∧ Bnd lo hi t' ∧
      InsIO k (newData k v s)
        (fun d0 => { d0.prependVersion v s lsm with dirty := true })
        NodeData.cloneDetach t t' old := by
  induction hb with
  | leaf =>
    intro t' old lo hi hbnd hk h
    simp only [upsert, Option.some.injEq, Prod.mk.injEq] at h
    obtain ⟨h1, h2⟩ := h
    subst h1; subst h2
    refine ⟨⟨.bal (.red .leaf .leaf), fun _ => ⟨false, .red .leaf .leaf⟩⟩,
      ⟨hk, trivial, trivial⟩, Or.inl ⟨rfl, ?_, [], [], rfl, rfl⟩⟩
    intro e he
    simp [inorder] at he
  | @red d l r n hl hr ihl ihr =>
    intro t' old lo hi hbnd hk h
    obtain ⟨hin, hbl, hbr⟩ := hbnd
    simp only [upsert] at h
    split at h
    case isTrue hlt =>
      rw [Option.bind_eq_some] at h
      obtain ⟨p, hp, hrest⟩ := h
      obtain ⟨l2, old2⟩ := p
      rw [Option.map_eq_some'] at hrest
      obtain ⟨t2, hw2, hpair⟩ := hrest
      rw [Prod.mk.injEq] at hpair
      obtain ⟨h1, h2⟩ := hpair
      subst h1; subst h2
      obtain ⟨⟨hRL, hBl⟩, hBnd2, hio⟩ := ihl hbl (inside_shrink_hi hk hlt) hp
      obtain ⟨c2, hl2⟩ := hBl rfl
      rw [walkuprot_noop (isRed_false_of_black hr) (lbal_noop_side hl2)] at hw2
      injection hw2 with hw3
      subst hw3
      refine ⟨⟨?_, by simp⟩, ⟨hin, hBnd2, hbr⟩,
        insIO_left hio (by simp [inorder]) hbr hlt⟩
      cases c2 with
      | false => exact .rr hl2 hr
      | true => exact .bal (.red hl2 hr)
    case isFalse hge =>
      split at h
      case isTrue hgt =>
        rw [Option.bind_eq_some] at h
        obtain ⟨p, hp, hrest⟩ := h
        obtain ⟨r2, old2⟩ := p
        rw [Option.map_eq_some'] at hrest
        obtain ⟨t2, hw2, hpair⟩ := hrest
        rw [Prod.mk.injEq] at hpair
        obtain ⟨h1, h2⟩ := hpair
        subst h1; subst h2
        obtain ⟨⟨hRL, hBl⟩, hBnd2, hio⟩ := ihr hbr (inside_shrink_lo hk hgt) hp
        obtain ⟨c2, hr2⟩ := hBl rfl
        cases c2 with
        | true =>
          rw [walkuprot_noop (isRed_false_of_black hr2)
            (Or.inl (isRed_false_of_black hl))] at hw2
          injection hw2 with hw3
          subst hw3
          exact ⟨⟨.bal (.red hl hr2), by simp⟩, ⟨hin, hbl, hBnd2⟩,
            insIO_right hio (by simp [inorder]) hbl hgt⟩
        | false =>
          cases hr2 with
          | @red rd ra rb _ hra hrb =>
            rw [walkuprot_rotl (isRed_false_of_black hl)
              (isRed_false_of_black hrb)] at hw2
            injection hw2 with hw3
            subst hw3
            obtain ⟨hin2, hb2a, hb2b⟩ := hBnd2
            refine ⟨⟨.rr (.red hl hra) hrb, by simp⟩,
              ⟨inside_widen_lo hin2 hin.1,
                ⟨inside_shrink_hi hin (inside_lo hin2), hbl, hb2a⟩, hb2b⟩,
              insIO_right hio (by simp [inorder]) hbl hgt⟩
      case isFalse hle =>
        have hke : k = d.key := le_antisymm (not_lt.mp hle) (not_lt.mp hge)
        rw [Option.map_eq_some'] at h
        obtain ⟨t2, hw2, hpair⟩ := h
        rw [Prod.mk.injEq] at hpair
        obtain ⟨h1, h2⟩ := hpair
        subst h1; subst h2
        rw [walkuprot_noop (isRed_false_of_black hr)
          (Or.inl (isRed_false_of_black hl))] at hw2
        injection hw2 with hw3
        subst hw3
        have hd2 : ({ d.prependVersion v s lsm with dirty := true } :
            NodeData K V D).key = d.key := by
          unfold NodeData.prependVersion
          split <;> rfl
        refine ⟨⟨.bal (.red hl hr), by simp⟩, ?_,
          insIO_eq (by simp [inorder]) hke.symm⟩
        refine ⟨?_, ?_, ?_⟩ <;> rw [hd2]
        · exact hin
        · exact hbl
        · exact hbr
  | @black d l r c1 n hl hr ihl ihr =>
    intro t' old lo hi hbnd hk h
    obtain ⟨hin, hbl, hbr⟩ := hbnd
    simp only [upsert] at h
    split at h
    case isTrue hlt =>
      rw [Option.bind_eq_some] at h
      obtain ⟨p, hp, hrest⟩ := h
      obtain ⟨l2, old2⟩ := p
      rw [Option.map_eq_some'] at hrest
      obtain ⟨t2, hw2, hpair⟩ := hrest
      rw [Prod.mk.injEq] at hpair
      obtain ⟨h1, h2⟩ := hpair
      subst h1; subst h2
      obtain ⟨⟨hRL, hBl⟩, hBnd2, hio⟩ := ihl hbl (inside_shrink_hi hk hlt) hp
      cases hRL with
      | bal hl2 =>
        rw [walkuprot_noop (isRed_false_of_black hr) (lbal_noop_side hl2)] at hw2
        injection hw2 with hw3
        subst hw3
        exact ⟨⟨.bal (.black hl2 hr), fun _ => ⟨true, .black hl2 hr⟩⟩,
          ⟨hin, hBnd2, hbr⟩, insIO_left hio (by simp [inorder]) hbr hlt⟩
      | @rr ld la lb _ hla hlb =>
        cases hla with
        | @red lad lal lar _ hlal hlar =>
          rw [walkuprot_rotr_flip (isRed_false_of_black hr)] at hw2
          injection hw2 with hw3
          subst hw3
          obtain ⟨hinld, hbla, hblb⟩ := hBnd2
          obtain ⟨hinlad, hblal, hblar⟩ := hbla
          refine ⟨⟨.bal (.red (.black hlal hlar) (.black hlb hr)),
              fun _ => ⟨false, .red (.black hlal hlar) (.black hlb hr)⟩⟩,
            ⟨inside_widen_hi hinld hin.2, ⟨hinlad, hblal, hblar⟩,
              ⟨inside_shrink_lo hin (inside_hi hinld), hblb, hbr⟩⟩,
            insIO_left hio (by simp [inorder]) hbr hlt⟩
    case isFalse hge =>
      split at h
      case isTrue hgt =>
        rw [Option.bind_eq_some] at h
        obtain ⟨p, hp, hrest⟩ := h
        obtain ⟨r2, old2⟩ := p
        rw [Option.map_eq_some'] at hrest
        obtain ⟨t2, hw2, hpair⟩ := hrest
        rw [Prod.mk.injEq] at hpair
        obtain ⟨h1, h2⟩ := hpair
        subst h1; subst h2
        obtain ⟨⟨hRL, hBl⟩, hBnd2, hio⟩ := ihr hbr (inside_shrink_lo hk hgt) hp
        obtain ⟨c2, hr2⟩ := hBl rfl
        cases c2 with
        | true =>
          rw [walkuprot_noop (isRed_false_of_black hr2) (lbal_noop_side hl)] at hw2
          injection hw2 with hw3
          subst hw3
          exact ⟨⟨.bal (.black hl hr2), fun _ => ⟨true, .black hl hr2⟩⟩,
            ⟨hin, hbl, hBnd2⟩, insIO_right hio (by simp [inorder]) hbl hgt⟩
        | false =>
          cases hr2 with
          | @red rd ra rb _ hra hrb =>
            cases c1 with
            | true =>
              rw [walkuprot_rotl (isRed_false_of_black hl)
                (isRed_false_of_black hrb)] at hw2
              injection hw2 with hw3
              subst hw3
              obtain ⟨hin2, hb2a, hb2b⟩ := hBnd2
              exact ⟨⟨.bal (.black (.red hl hra) hrb),
                  fun _ => ⟨true, .black (.red hl hra) hrb⟩⟩,
                ⟨inside_widen_lo hin2 hin.1,
                  ⟨inside_shrink_hi hin (inside_lo hin2), hbl, hb2a⟩, hb2b⟩,
                insIO_right hio (by simp [inorder]) hbl hgt⟩
            | false =>
              cases hl with
              | @red ld ll lr _ hll hlr =>
                rw [walkuprot_fliponly (isRed_false_of_black hll)] at hw2
                injection hw2 with hw3
                subst hw3
                obtain ⟨hin2, hb2a, hb2b⟩ := hBnd2
                refine ⟨⟨.bal (.red (.black hll hlr) (.black hra hrb)),
                    fun _ => ⟨false, .red (.black hll hlr) (.black hra hrb)⟩⟩,
                  ⟨hin, hbl, ⟨hin2, hb2a, hb2b⟩⟩,
                  insIO_right hio (by simp [inorder]) hbl hgt⟩
      case isFalse hle =>
        have hke : k = d.key := le_antisymm (not_lt.mp hle) (not_lt.mp hge)
        rw [Option.map_eq_some'] at h
        obtain ⟨t2, hw2, hpair⟩ := h
        rw [Prod.mk.injEq] at hpair
        obtain ⟨h1, h2⟩ := hpair
        subst h1; subst h2
        rw [walkuprot_noop (isRed_false_of_black hr) (lbal_noop_side hl)] at hw2
        injection hw2 with hw3
        subst hw3
        have hd2 : ({ d.prependVersion v s lsm with dirty := true } :
            NodeData K V D).key = d.key := by
          unfold NodeData.prependVersion
          split <;> rfl
        refine ⟨⟨.bal (.black hl hr), fun _ => ⟨true, .black hl hr⟩⟩, ?_,
          insIO_eq (by simp [inorder]) hke.symm⟩
        refine ⟨?_, ?_, ?_⟩ <;> rw [hd2]
        · exact hin
        · exact hbl
        · exact hbr

theorem leftSortErr_none [LinearOrder K] {d : NodeData K V D} {l : Tree K V D}
    {lo : Option K} (hbl : Bnd lo (some d.key) l) : leftSortErr d l = none := by
  cases l with
  | leaf => rfl
  | node ld lb ll lr =>
    simp [leftSortErr, not_le.mpr (inside_hi hbl.1)]

theorem rightSortErr_none [LinearOrder K] {d : NodeData K V D} {r : Tree K V D}
    {hi : Option K} (hbr : Bnd (some d.key) hi r) : rightSortErr d r = none := by
  cases r with
  | leaf => rfl
  | node rd rb rl rr =>
    simp [rightSortErr, not_le.mpr (inside_lo hbr.1)]

theorem noDirty_iff {t : Tree K V D} :
    NoDirty t ↔ ∀ e ∈ inorder t, e.dirty = false := by
  induction t with
  | leaf => simp [NoDirty, inorder]
  | node d b l r ihl ihr =>
    simp only [NoDirty, inorder, List.mem_append, List.mem_cons, ihl, ihr]
    constructor
    · rintro ⟨h1, h2, h3⟩ e (he | he | he)
      · exact h2 e he
      · rw [he]; exact h1
      · exact h3 e he
    · intro h
      exact ⟨h d (Or.inr (Or.inl rfl)), fun e he => h e (Or.inl he),
        fun e he => h e (Or.inr (Or.inr he))⟩

/-- llrb_common::validate_tree succeeds on a balanced, bounded, clean
subtree, yielding blacks plus the black height. -/
theorem validateTree_ok [LinearOrder K] {t : Tree K V D} {c : Bool} {n : Nat}
    (hb : LBal t c n) :
    ∀ {lo hi : Option K} {fromred : Bool} {blacks : Nat},
      Bnd lo hi t → NoDirty t → (fromred && isRed t) = false →
      validateTree t fromred blacks = .ok (blacks + n) := by
  induction hb with
  | leaf =>
    intro lo hi fromred blacks hbnd hnd hfrom
    simp [validateTree]
  | @red d l r n hl hr ihl ihr =>
    intro lo hi fromred blacks hbnd hnd hfrom
    obtain ⟨hin, hbl, hbr⟩ := hbnd
    obtain ⟨hd, hndl, hndr⟩ := hnd
    rw [isRed_node, Bool.not_false, Bool.and_true] at hfrom
    subst hfrom
    have r1 : validateTree l true blacks = .ok (blacks + n) :=
      ihl hbl hndl (by simp [isRed_false_of_black hl])
    have r2 : validateTree r true blacks = .ok (blacks + n) :=
      ihr hbr hndr (by simp [isRed_false_of_black hr])
    simp [validateTree, hd, leftSortErr_none hbl, rightSortErr_none hbr, r1, r2,
      Except.bind]
  | @black d l r c1 n hl hr ihl ihr =>
    intro lo hi fromred blacks hbnd hnd hfrom
    obtain ⟨hin, hbl, hbr⟩ := hbnd
    obtain ⟨hd, hndl, hndr⟩ := hnd
    have r1 : validateTree l false (blacks + 1) = .ok (blacks + 1 + n) :=
      ihl hbl hndl (by simp)
    have r2 : validateTree r false (blacks + 1) = .ok (blacks + 1 + n) :=
      ihr hbr hndr (by simp)
    have harith : blacks + 1 + n = blacks + (n + 1) := by omega
    simp [validateTree, hd, leftSortErr_none hbl, rightSortErr_none hbr,
      r1, r2, harith, Except.bind]

theorem dirtyOnly_iff {t : Tree K V D} {k : K} :
    DirtyOnly k t ↔ ∀ e ∈ inorder t, e.dirty = true → e.key = k := by
  induction t with
  | leaf => simp [DirtyOnly, inorder]
  | node d b l r ihl ihr =>
    simp only [DirtyOnly, inorder, List.mem_append, List.mem_cons, ihl, ihr]
    constructor
    · rintro ⟨h1, h2, h3⟩ e (he | he | he)
      · exact h2 e he
      · rw [he]; exact h1
      · exact h3 e he
    · intro h
      exact ⟨h d (Or.inr (Or.inl rfl)), fun e he => h e (Or.inl he),
        fun e he => h e (Or.inr (Or.inr he))⟩

theorem setBlack_bnd [LinearOrder K] {t : Tree K V D} {lo hi : Option K}
    (h : Bnd lo hi t) : Bnd lo hi (setBlack t) := by
  cases t with
  | leaf => exact h
  | node d b l r => exact h

theorem clearDirty_lbal [DecidableEq K] {t : Tree K V D} {c : Bool} {n : Nat}
    {k : K} (hb : LBal t c n) : LBal (clearDirtyAtKey t k) c n := by
  induction hb with
  | leaf => exact .leaf
  | @red d l r n hl hr ihl ihr =>
    rw [clearDirtyAtKey]
    split
    · exact .red hl hr
    · exact .red ihl ihr
  | @black d l r c1 n hl hr ihl ihr =>
    rw [clearDirtyAtKey]
    split
    · exact .black hl hr
    · exact .black ihl ihr

theorem clearDirty_bnd [LinearOrder K] {t : Tree K V D} {lo hi : Option K}
    {k : K} (h : Bnd lo hi t) : Bnd lo hi (clearDirtyAtKey t k) := by
  induction t generalizing lo hi with
  | leaf => exact h
  | node d b l r ihl ihr =>
    obtain ⟨hin, hbl, hbr⟩ := h
    rw [clearDirtyAtKey]
    split
    · exact ⟨hin, hbl, hbr⟩
    · exact ⟨hin, ihl hbl, ihr hbr⟩

theorem clearDirty_noDirty [LinearOrder K] {t : Tree K V D} {k : K}
    {lo hi : Option K} (hdo : DirtyOnly k t) (hbnd : Bnd lo hi t) :
    NoDirty (clearDirtyAtKey t k) := by
  induction t generalizing lo hi with
  | leaf => trivial
  | node d b l r ihl ihr =>
    obtain ⟨h1, h2, h3⟩ := hdo
    obtain ⟨hin, hbl, hbr⟩ := hbnd
    rw [clearDirtyAtKey]
    split
    case isTrue heq =>
      refine ⟨rfl, noDirty_iff.mpr ?_, noDirty_iff.mpr ?_⟩
      · intro e he
        by_contra hcon
        have hek : e.key = k := (dirtyOnly_iff.mp h2) e he (by
          cases hdd : e.dirty
          · exact absurd hdd hcon
          · rfl)
        have := inside_hi (bnd_mem hbl e he)
        rw [hek, heq] at this
        exact lt_irrefl _ this
      · intro e he
        by_contra hcon
        have hek : e.key = k := (dirtyOnly_iff.mp h3) e he (by
          cases hdd : e.dirty
          · exact absurd hdd hcon
          · rfl)
        have := inside_lo (bnd_mem hbr e he)
        rw [hek, heq] at this
        exact lt_irrefl _ this
    case isFalse hne =>
      refine ⟨?_, ihl h2 hbl, ihr h3 hbr⟩
      cases hdd : d.dirty
      · rfl
      · exact absurd (h1 hdd) hne

/-- The state invariant every published snapshot satisfies: black (or
empty) balanced root, sorted keys, no dirty node. -/
def Good [LinearOrder K] (s : Index K V D) : Prop :=
  (∃ n, LBal s.root true n) ∧ Bnd none none s.root ∧ NoDirty s.root

theorem inside_top [LinearOrder K] (k : K) : Inside (none : Option K) none k :=
  ⟨fun a ha => (by cases ha), fun b hb => (by cases hb)⟩

/-- Mvcc::validate succeeds on a Good index. -/
theorem validate_ok_of_good [LinearOrder K] {s : Index K V D} (hg : Good s) :
    ∃ bl, Index.validate s = .ok bl := by
  obtain ⟨⟨n, hb⟩, hbnd, hnd⟩ := hg
  refine ⟨n, ?_⟩
  rw [Index.validate, isRed_false_of_black hb]
  have h0 : ((false : Bool) && isRed s.root) = false := by simp
  have h1 := @validateTree_ok K V D _ _ _ _ hb none none false 0 hbnd hnd h0
  simpa using h1

theorem prependVersion_key [Diff V D] {d : NodeData K V D} {v : V} {s : Nat}
    {lsm : Bool} : (d.prependVersion v s lsm).key = d.key := by
  unfold NodeData.prependVersion
  split <;> rfl

theorem setBlack_inorder {t : Tree K V D} : inorder (setBlack t) = inorder t := by
  cases t <;> rfl

theorem insIO_dirtyOnly {k : K} {newd : NodeData K V D} {f g}
    {t t' : Tree K V D} {old : Option (NodeData K V D)}
    (hio : InsIO k newd f g t t' old) (hnewk : newd.key = k)
    (hfk : ∀ d0 : NodeData K V D, (f d0).key = d0.key) (hnd : NoDirty t) :
    DirtyOnly k t' := by
  rw [dirtyOnly_iff]
  have hnd' := noDirty_iff.mp hnd
  rcases hio with ⟨_, _, A, B, hA, hB⟩ | ⟨d0, A, B, _, hk0, hA, hB⟩
  · intro e he hdirty
    rw [hB, List.mem_append, List.mem_cons] at he
    rcases he with he | he | he
    · have hf : e.dirty = false := hnd' e (by rw [hA, List.mem_append]; exact Or.inl he)
      rw [hf] at hdirty
      simp at hdirty
    · rw [he]
      exact hnewk
    · have hf : e.dirty = false := hnd' e (by rw [hA, List.mem_append]; exact Or.inr he)
      rw [hf] at hdirty
      simp at hdirty
  · intro e he hdirty
    rw [hB, List.mem_append, List.mem_cons] at he
    rcases he with he | he | he
    · have hf : e.dirty = false := hnd' e (by rw [hA, List.mem_append]; exact Or.inl he)
      rw [hf] at hdirty
      simp at hdirty
    · rw [he, hfk d0, hk0]
    · have hf : e.dirty = false := hnd' e (by
        rw [hA, List.mem_append, List.mem_cons]
        exact Or.inr (Or.inr he))
      rw [hf] at hdirty
      simp at hdirty

theorem setBlack_dirtyOnly {t : Tree K V D} {k : K} (h : DirtyOnly k t) :
    DirtyOnly k (setBlack t) := by
  cases t with
  | leaf => exact h
  | node d b l r => exact h

/-- Mvcc::set preserves the snapshot invariant and publishes seqno + 1. -/
theorem set_spec [LinearOrder K] [Diff V D] {s s2 : Index K V D} {key : K}
    {value : V} {old : Option (NodeData K V D)} (hg : Good s)
    (h : Index.set s key value = some (s2, old)) :
    Good s2 ∧ s2.seqno = s.seqno + 1 ∧ s2.lsm = s.lsm := by
  obtain ⟨⟨n, hb⟩, hbnd, hnd⟩ := hg
  simp only [Index.set] at h
  rw [Option.bind_eq_some] at h
  obtain ⟨p, hp, heq⟩ := h
  obtain ⟨t1, old1⟩ := p
  simp only [Option.some.injEq, Prod.mk.injEq] at heq
  obtain ⟨hs2, hold⟩ := heq
  subst hs2
  obtain ⟨⟨hRL, hBl⟩, hBnd2, hio⟩ := upsert_spec hb hbnd (inside_top key) hp
  obtain ⟨c', hb2⟩ := hBl rfl
  obtain ⟨n2, hsb⟩ := lbal_setBlack hb2
  have hdo : DirtyOnly key t1 :=
    insIO_dirtyOnly hio rfl (fun d0 => prependVersion_key) hnd
  exact ⟨⟨⟨n2, clearDirty_lbal hsb⟩, clearDirty_bnd (setBlack_bnd hBnd2),
    clearDirty_noDirty (setBlack_dirtyOnly hdo) (setBlack_bnd hBnd2)⟩, rfl, rfl⟩

theorem deleteMark_key {d : NodeData K V D} {s : Nat} :
    (d.deleteMark s).key = d.key := by
  unfold NodeData.deleteMark
  split <;> rfl

/-- Mvcc::delete_lsm has the same shape discipline as upsert: black in,
balanced out at the same height; red in, RedL out; the entry list gains a
tombstone or the entry at the key is marked deleted. -/
theorem deleteLsm_spec [LinearOrder K] [Inhabited V] [Diff V D] {t : Tree K V D}
    {k : K} {s : Nat} {c : Bool} {n : Nat} (hb : LBal t c n) :
    ∀ {t' : Tree K V D} {old : Option (NodeData K V D)} {lo hi : Option K},
      Bnd lo hi t → Inside lo hi k → deleteLsm t k s = some (t', old) →
      (RedL t' n ∧ (c = true → ∃ c', LBal t' c' n)) ∧ Bnd lo hi t' ∧
      InsIO k ((newData k default s).deleteMark s)
        (fun d0 => { d0.deleteMark s with dirty := true })
        NodeData.cloneDetach t t' old := by
  induction hb with
  | leaf =>
    intro t' old lo hi hbnd hk h
    simp only [deleteLsm, Option.some.injEq, Prod.mk.injEq] at h
    obtain ⟨h1, h2⟩ := h
    subst h1; subst h2
    refine ⟨⟨.bal (.red .leaf .leaf), fun _ => ⟨false, .red .leaf .leaf⟩⟩,
      ⟨?_, trivial, trivial⟩, Or.inl ⟨rfl, ?_, [], [], rfl, rfl⟩⟩
    · rw [deleteMark_key]
      exact hk
    · intro e he
      simp [inorder] at he
  | @red d l r n hl hr ihl ihr =>
    intro t' old lo hi hbnd hk h
    obtain ⟨hin, hbl, hbr⟩ := hbnd
    simp only [deleteLsm] at h
    split at h
    case isTrue hlt =>
      rw [Option.bind_eq_some] at h
      obtain ⟨p, hp, hrest⟩ := h
      obtain ⟨l2, old2⟩ := p
      rw [Option.map_eq_some'] at hrest
      obtain ⟨t2, hw2, hpair⟩ := hrest
      rw [Prod.mk.injEq] at hpair
      obtain ⟨h1, h2⟩ := hpair
      subst h1; subst h2
      obtain ⟨⟨hRL, hBl⟩, hBnd2, hio⟩ := ihl hbl (inside_shrink_hi hk hlt) hp
      obtain ⟨c2, hl2⟩ := hBl rfl
      rw [walkuprot_noop (isRed_false_of_black hr) (lbal_noop_side hl2)] at hw2
      injection hw2 with hw3
      subst hw3
      refine ⟨⟨?_, by simp⟩, ⟨hin, hBnd2, hbr⟩,
        insIO_left hio (by simp [inorder]) hbr hlt⟩
      cases c2 with
      | false => exact .rr hl2 hr
      | true => exact .bal (.red hl2 hr)
    case isFalse hge =>
      split at h
      case isTrue hgt =>
        rw [Option.bind_eq_some] at h
        obtain ⟨p, hp, hrest⟩ := h
        obtain ⟨r2, old2⟩ := p
        rw [Option.map_eq_some'] at hrest
        obtain ⟨t2, hw2, hpair⟩ := hrest
        rw [Prod.mk.injEq] at hpair
        obtain ⟨h1, h2⟩ := hpair
        subst h1; subst h2
        obtain ⟨⟨hRL, hBl⟩, hBnd2, hio⟩ := ihr hbr (inside_shrink_lo hk hgt) hp
        obtain ⟨c2, hr2⟩ := hBl rfl
        cases c2 with
        | true =>
          rw [walkuprot_noop (isRed_false_of_black hr2)
            (Or.inl (isRed_false_of_black hl))] at hw2
          injection hw2 with hw3
          subst hw3
          exact ⟨⟨.bal (.red hl hr2), by simp⟩, ⟨hin, hbl, hBnd2⟩,
            insIO_right hio (by simp [inorder]) hbl hgt⟩
        | false =>
          cases hr2 with
          | @red rd ra rb _ hra hrb =>
            rw [walkuprot_rotl (isRed_false_of_black hl)
              (isRed_false_of_black hrb)] at hw2
            injection hw2 with hw3
            subst hw3
            obtain ⟨hin2, hb2a, hb2b⟩ := hBnd2
            refine ⟨⟨.rr (.red hl hra) hrb, by simp⟩,
              ⟨inside_widen_lo hin2 hin.1,
                ⟨inside_shrink_hi hin (inside_lo hin2), hbl, hb2a⟩, hb2b⟩,
              insIO_right hio (by simp [inorder]) hbl hgt⟩
      case isFalse hle =>
        have hke : k = d.key := le_antisymm (not_lt.mp hle) (not_lt.mp hge)
        rw [Option.map_eq_some'] at h
        obtain ⟨t2, hw2, hpair⟩ := h
        rw [Prod.mk.injEq] at hpair
        obtain ⟨h1, h2⟩ := hpair
        subst h1; subst h2
        rw [walkuprot_noop (isRed_false_of_black hr)
          (Or.inl (isRed_false_of_black hl))] at hw2
        injection hw2 with hw3
        subst hw3
        have hd2 : ({ d.deleteMark s with dirty := true } :
            NodeData K V D).key = d.key := deleteMark_key
        refine ⟨⟨.bal (.red hl hr), by simp⟩, ?_,
          insIO_eq (by simp [inorder]) hke.symm⟩
        refine ⟨?_, ?_, ?_⟩ <;> rw [hd2]
        · exact hin
        · exact hbl
        · exact hbr
  | @black d l r c1 n hl hr ihl ihr =>
    intro t' old lo hi hbnd hk h
    obtain ⟨hin, hbl, hbr⟩ := hbnd
    simp only [deleteLsm] at h
    split at h
    case isTrue hlt =>
      rw [Option.bind_eq_some] at h
      obtain ⟨p, hp, hrest⟩ := h
      obtain ⟨l2, old2⟩ := p
      rw [Option.map_eq_some'] at hrest
      obtain ⟨t2, hw2, hpair⟩ := hrest
      rw [Prod.mk.injEq] at hpair
      obtain ⟨h1, h2⟩ := hpair
      subst h1; subst h2
      obtain ⟨⟨hRL, hBl⟩, hBnd2, hio⟩ := ihl hbl (inside_shrink_hi hk hlt) hp
      cases hRL with
      | bal hl2 =>
        rw [walkuprot_noop (isRed_false_of_black hr) (lbal_noop_side hl2)] at hw2
        injection hw2 with hw3
        subst hw3
        exact ⟨⟨.bal (.black hl2 hr), fun _ => ⟨true, .black hl2 hr⟩⟩,
          ⟨hin, hBnd2, hbr⟩, insIO_left hio (by simp [inorder]) hbr hlt⟩
      | @rr ld la lb _ hla hlb =>
        cases hla with
        | @red lad lal lar _ hlal hlar =>
          rw [walkuprot_rotr_flip (isRed_false_of_black hr)] at hw2
          injection hw2 with hw3
          subst hw3
          obtain ⟨hinld, hbla, hblb⟩ := hBnd2
          obtain ⟨hinlad, hblal, hblar⟩ := hbla
          refine ⟨⟨.bal (.red (.black hlal hlar) (.black hlb hr)),
              fun _ => ⟨false, .red (.black hlal hlar) (.black hlb hr)⟩⟩,
            ⟨inside_widen_hi hinld hin.2, ⟨hinlad, hblal, hblar⟩,
              ⟨inside_shrink_lo hin (inside_hi hinld), hblb, hbr⟩⟩,
            insIO_left hio (by simp [inorder]) hbr hlt⟩
    case isFalse hge =>
      split at h
      case isTrue hgt =>
        rw [Option.bind_eq_some] at h
        obtain ⟨p, hp, hrest⟩ := h
        obtain ⟨r2, old2⟩ := p
        rw [Option.map_eq_some'] at hrest
        obtain ⟨t2, hw2, hpair⟩ := hrest
        rw [Prod.mk.injEq] at hpair
        obtain ⟨h1, h2⟩ := hpair
        subst h1; subst h2
        obtain ⟨⟨hRL, hBl⟩, hBnd2, hio⟩ := ihr hbr (inside_shrink_lo hk hgt) hp
        obtain ⟨c2, hr2⟩ := hBl rfl
        cases c2 with
        | true =>
          rw [walkuprot_noop (isRed_false_of_black hr2) (lbal_noop_side hl)] at hw2
          injection hw2 with hw3
          subst hw3
          exact ⟨⟨.bal (.black hl hr2), fun _ => ⟨true, .black hl hr2⟩⟩,
            ⟨hin, hbl, hBnd2⟩, insIO_right hio (by simp [inorder]) hbl hgt⟩
        | false =>
          cases hr2 with
          | @red rd ra rb _ hra hrb =>
            cases c1 with
            | true =>
              rw [walkuprot_rotl (isRed_false_of_black hl)
                (isRed_false_of_black hrb)] at hw2
              injection hw2 with hw3
              subst hw3
              obtain ⟨hin2, hb2a, hb2b⟩ := hBnd2
              exact ⟨⟨.bal (.black (.red hl hra) hrb),
                  fun _ => ⟨true, .black (.red hl hra) hrb⟩⟩,
                ⟨inside_widen_lo hin2 hin.1,
                  ⟨inside_shrink_hi hin (inside_lo hin2), hbl, hb2a⟩, hb2b⟩,
                insIO_right hio (by simp [inorder]) hbl hgt⟩
            | false =>
              cases hl with
              | @red ld ll lr _ hll hlr =>
                rw [walkuprot_fliponly (isRed_false_of_black hll)] at hw2
                injection hw2 with hw3
                subst hw3
                obtain ⟨hin2, hb2a, hb2b⟩ := hBnd2
                refine ⟨⟨.bal (.red (.black hll hlr) (.black hra hrb)),
                    fun _ => ⟨false, .red (.black hll hlr) (.black hra hrb)⟩⟩,
                  ⟨hin, hbl, ⟨hin2, hb2a, hb2b⟩⟩,
                  insIO_right hio (by simp [inorder]) hbl hgt⟩
      case isFalse hle =>
        have hke : k = d.key := le_antisymm (not_lt.mp hle) (not_lt.mp hge)
        rw [Option.map_eq_some'] at h
        obtain ⟨t2, hw2, hpair⟩ := h
        rw [Prod.mk.injEq] at hpair
        obtain ⟨h1, h2⟩ := hpair
        subst h1; subst h2
        rw [walkuprot_noop (isRed_false_of_black hr) (lbal_noop_side hl)] at hw2
        injection hw2 with hw3
        subst hw3
        have hd2 : ({ d.deleteMark s with dirty := true } :
            NodeData K V D).key = d.key := deleteMark_key
        refine ⟨⟨.bal (.black hl hr), fun _ => ⟨true, .black hl hr⟩⟩, ?_,
          insIO_eq (by simp [inorder]) hke.symm⟩
        refine ⟨?_, ?_, ?_⟩ <;> rw [hd2]
        · exact hin
        · exact hbl
        · exact hbr

theorem fixup_noop {d : NodeData K V D} {b : Bool} {l r : Tree K V D}
    (h1 : isRed r = false) (h2 : isRed l = false ∨ isRed (leftOf l) = false) :
    fixup (.node d b l r) = some (.node d b l r) := by
  rcases h2 with h | h <;>
    simp [fixup, leftOf_node, rightOf_node, h1, h]

theorem fixup_rotl {d rd : NodeData K V D} {b : Bool} {l rl rr : Tree K V D}
    (hl : isRed l = false) (hrr : isRed rr = false) :
    fixup (.node d b l (.node rd false rl rr)) =
      some (.node rd b (.node d false l rl) rr) := by
  simp [fixup, leftOf_node, rightOf_node, isRed_node, hl, hrr, rotateLeft]

theorem fixup_two_red {d ld rd : NodeData K V D} {b : Bool}
    {ll lr rl rr : Tree K V D} :
    fixup (.node d b (.node ld false ll lr) (.node rd false rl rr)) =
      some (.node d (!b) (.node ld true ll lr) (.node rd true rl rr)) := by
  simp [fixup, leftOf_node, rightOf_node, isRed_node, rotateLeft, rotateRight, flip]

theorem fixup_rotr_flip {d ld lad : NodeData K V D} {b : Bool}
    {lal lar lb r : Tree K V D} (hr : isRed r = false) :
    fixup (.node d b (.node ld false (.node lad false lal lar) lb) r) =
      some (.node ld (!b) (.node lad true lal lar) (.node d true lb r)) := by
  simp [fixup, leftOf_node, rightOf_node, isRed_node, hr, rotateRight, flip]

theorem mrl_flip {d lx rx : NodeData K V D} {b : Bool} {la lb ra rb : Tree K V D}
    (hra : isRed ra = false) :
    moveRedLeft (.node d b (.node lx true la lb) (.node rx true ra rb)) =
      some (.node d (!b) (.node lx false la lb) (.node rx false ra rb)) := by
  simp [moveRedLeft, flip, leftOf_node, rightOf_node, isRed_node, hra]

theorem mrl_dance {d lx rx rad : NodeData K V D} {b : Bool}
    {la lb ral rar rb : Tree K V D} :
    moveRedLeft (.node d b (.node lx true la lb)
        (.node rx true (.node rad false ral rar) rb)) =
      some (.node rad b (.node d true (.node lx false la lb) ral)
        (.node rx true rar rb)) := by
  simp [moveRedLeft, flip, leftOf_node, rightOf_node, isRed_node,
    rotateLeft, rotateRight]

theorem mrr_flip {d lx rx : NodeData K V D} {b : Bool} {la lb ra rb : Tree K V D}
    (hla : isRed la = false) :
    moveRedRight (.node d b (.node lx true la lb) (.node rx true ra rb)) =
      some (.node d (!b) (.node lx false la lb) (.node rx false ra rb)) := by
  simp [moveRedRight, flip, leftOf_node, rightOf_node, isRed_node, hla]

theorem mrr_dance {d lx rx lad : NodeData K V D} {b : Bool}
    {lal lar lb ra rb : Tree K V D} :
    moveRedRight (.node d b (.node lx true (.node lad false lal lar) lb)
        (.node rx true ra rb)) =
      some (.node lx b (.node lad true lal lar)
        (.node d true lb (.node rx false ra rb))) := by
  simp [moveRedRight, flip, leftOf_node, rightOf_node, isRed_node,
    rotateRight]

theorem deleteMin_node {d : NodeData K V D} {b : Bool} {l r : Tree K V D}
    (hleaf : l.isLeaf = false) :
    deleteMin (.node d b l r) =
      match (if !(isRed l) && !(isRed (leftOf l)) then
          moveRedLeft (.node d b l r) else some (.node d b l r)) with
      | none => none
      | some .leaf => none
      | some (.node d2 b2 l2 r2) =>
        (deleteMin l2).bind fun p =>
        (fixup (.node d2 b2 p.1 r2)).map fun t3 => (t3, p.2) := by
  rw [deleteMin]
  simp only [hleaf, Bool.false_eq_true, if_false]
  cases hval : (if (!isRed l && !isRed (leftOf l)) = true then
      moveRedLeft (Tree.node d b l r) else some (Tree.node d b l r)) with
  | none => rfl
  | some t2 => cases t2 <;> rfl

theorem forall_mem_some {P : K → Prop} {x : K} (h : P x) :
    ∀ a ∈ (some x : Option K), P a :=
  fun a ha => by cases ha; exact h

theorem deleteMin_step {d d2 : NodeData K V D} {b b2 : Bool} {l r l2 r2 : Tree K V D}
    (hleaf : l.isLeaf = false)
    (hm : (if !(isRed l) && !(isRed (leftOf l)) then moveRedLeft (.node d b l r)
      else some (.node d b l r)) = some (.node d2 b2 l2 r2)) :
    deleteMin (.node d b l r) =
      (deleteMin l2).bind fun p =>
      (fixup (.node d2 b2 p.1 r2)).map fun t3 => (t3, p.2) := by
  rw [deleteMin_node hleaf, hm]

/-- Mvcc::delete_min on a subtree that is red or has a red left child
(the shape every call site establishes): it never panics, detaches the
least entry, and preserves the black height — a black subtree stays
black, a red one comes back balanced at the same height. -/
theorem deleteMin_spec [LinearOrder K] {sz : Nat} :
    ∀ {t : Tree K V D} {c : Bool} {n : Nat} {lo hi : Option K},
      size t ≤ sz → LBal t c n → Bnd lo hi t →
      (c = false ∨ isRed (leftOf t) = true) →
      ∃ t' d0, deleteMin t = some (t', some d0) ∧
        Inside lo hi d0.key ∧ Bnd (some d0.key) hi t' ∧
        inorder t = d0 :: inorder t' ∧
        (c = true → LBal t' true n) ∧ (c = false → ∃ c', LBal t' c' n) := by
  induction sz with
  | zero =>
    intro t c n lo hi hsz hb hbnd hpre
    rcases t with _ | ⟨d, b, l, r⟩
    · rcases hpre with hc | hred
      · subst hc; cases hb
      · simp [leftOf, isRed] at hred
    · simp [size] at hsz
  | succ sz ih =>
    intro t c n lo hi hsz hb hbnd hpre
    rcases t with _ | ⟨d, b, l, r⟩
    · rcases hpre with hc | hred
      · subst hc; cases hb
      · simp [leftOf, isRed] at hred
    · obtain ⟨hin, hbl, hbr⟩ := hbnd
      have hszlr : size l + size r ≤ sz := by simp [size] at hsz; omega
      rcases hpre with hc | hred
      · -- case A1: red root, both children black
        subst hc
        cases hb with
        | @red _ _ _ n hl hr =>
          cases hl with
          | leaf =>
            cases hr with
            | leaf =>
              refine ⟨.leaf, d, ?_, hin, trivial, by simp [inorder], ?_, ?_⟩
              · rw [deleteMin]
                simp [Tree.isLeaf]
              · intro hcon; exact absurd hcon (by simp)
              · exact fun _ => ⟨true, .leaf⟩
          | @black lx la lb c1 m hla hlb =>
            cases c1 with
            | false =>
              -- red left grandchild: no move_red_left, recurse on l (A2)
              cases hla with
              | @red lad lal lab _ hlal hlab =>
                obtain ⟨l', d0, hdm, hIns2, hBnd2, hio2, hcT, _⟩ :=
                  ih (by simp [size] at hszlr ⊢; omega)
                    (.black (.red hlal hlab) hlb) hbl
                    (Or.inr (by simp [leftOf_node, isRed_node]))
                have hl' := hcT rfl
                have hm : (if !(isRed (Tree.node lx true
                      (Tree.node lad false lal lab) lb)) &&
                      !(isRed (leftOf (Tree.node lx true
                        (Tree.node lad false lal lab) lb))) then
                    moveRedLeft (.node d false (.node lx true
                      (.node lad false lal lab) lb) r)
                    else some (.node d false (.node lx true
                      (.node lad false lal lab) lb) r)) =
                    some (.node d false (.node lx true
                      (.node lad false lal lab) lb) r) := by
                  simp [isRed_node, leftOf_node]
                refine ⟨.node d false l' r, d0, ?_,
                  inside_widen_hi hIns2 hin.2,
                  ⟨inside_shrink_lo hin (inside_hi hIns2), hBnd2, hbr⟩, ?_, ?_, ?_⟩
                · rw [deleteMin_step (by rfl) hm, hdm, Option.some_bind,
                    fixup_noop (isRed_false_of_black hr)
                      (Or.inl (isRed_false_of_black hl')), Option.map_some']
                · simp only [inorder] at hio2 ⊢
                  rw [hio2]
                  simp
                · intro hcon; exact absurd hcon (by simp)
                · exact fun _ => ⟨false, .red hl' hr⟩
            | true =>
              -- move_red_left fires; split on r.left color
              cases hr with
              | @black rx ra rb c2 _ hra hrb =>
                obtain ⟨hinrx, hbra, hbrb⟩ := hbr
                cases c2 with
                | true =>
                  -- r.left black: flip only
                  have hm : (if !(isRed (Tree.node lx true la lb)) &&
                        !(isRed (leftOf (Tree.node lx true la lb))) then
                      moveRedLeft (.node d false (.node lx true la lb)
                        (.node rx true ra rb))
                      else some (.node d false (.node lx true la lb)
                        (.node rx true ra rb))) =
                      some (.node d true (.node lx false la lb)
                        (.node rx false ra rb)) := by
                    have hc2 : (!isRed (Tree.node lx true la lb) &&
                        !isRed (leftOf (Tree.node lx true la lb))) = true := by
                      simp [isRed_node, leftOf_node, isRed_false_of_black hla]
                    rw [hc2, if_pos rfl]
                    exact mrl_flip (isRed_false_of_black hra)
                  obtain ⟨l', d0, hdm, hIns2, hBnd2, hio2, _, hcF⟩ :=
                    ih (by simp [size] at hszlr ⊢; omega) (.red hla hlb) hbl
                      (Or.inl rfl)
                  obtain ⟨c', hl'⟩ := hcF rfl
                  cases c' with
                  | true =>
                    refine ⟨.node rx true (.node d false l' ra) rb, d0, ?_,
                      inside_widen_hi hIns2 hin.2,
                      ⟨⟨forall_mem_some (lt_trans (inside_hi hIns2)
                          (inside_lo hinrx)), hinrx.2⟩,
                        ⟨⟨forall_mem_some (inside_hi hIns2),
                          forall_mem_some (inside_lo hinrx)⟩, hBnd2, hbra⟩,
                        hbrb⟩, ?_, ?_, ?_⟩
                    · rw [deleteMin_step (by rfl) hm, hdm, Option.some_bind,
                        fixup_rotl (isRed_false_of_black hl')
                          (isRed_false_of_black hrb), Option.map_some']
                    · simp only [inorder] at hio2 ⊢
                      rw [hio2]
                      simp
                    · intro hcon; exact absurd hcon (by simp)
                    · exact fun _ => ⟨true, .black (.red hl' hra) hrb⟩
                  | false =>
                    cases hl' with
                    | @red l2d l2l l2r _ hl2l hl2r =>
                      refine ⟨.node d false (.node l2d true l2l l2r)
                          (.node rx true ra rb), d0, ?_,
                        inside_widen_hi hIns2 hin.2,
                        ⟨⟨forall_mem_some (inside_hi hIns2), hin.2⟩, hBnd2,
                          ⟨hinrx, hbra, hbrb⟩⟩, ?_, ?_, ?_⟩
                      · rw [deleteMin_step (by rfl) hm, hdm, Option.some_bind,
                          fixup_two_red, Option.map_some']
                        rfl
                      · simp only [inorder] at hio2 ⊢
                        rw [hio2]
                        simp
                      · intro hcon; exact absurd hcon (by simp)
                      · exact fun _ => ⟨false,
                          .red (.black hl2l hl2r) (.black hra hrb)⟩
                | false =>
                  -- r.left red: the rotate dance inside move_red_left
                  cases hra with
                  | @red rad ral rar _ hral hrar =>
                    obtain ⟨hinrad, hbral, hbrar⟩ := hbra
                    have hm : (if !(isRed (Tree.node lx true la lb)) &&
                          !(isRed (leftOf (Tree.node lx true la lb))) then
                        moveRedLeft (.node d false (.node lx true la lb)
                          (.node rx true (.node rad false ral rar) rb))
                        else some (.node d false (.node lx true la lb)
                          (.node rx true (.node rad false ral rar) rb))) =
                        some (.node rad false
                          (.node d true (.node lx false la lb) ral)
                          (.node rx true rar rb)) := by
                      have hc2 : (!isRed (Tree.node lx true la lb) &&
                          !isRed (leftOf (Tree.node lx true la lb))) = true := by
                        simp [isRed_node, leftOf_node, isRed_false_of_black hla]
                      rw [hc2, if_pos rfl]
                      exact mrl_dance
                    obtain ⟨l', d0, hdm, hIns2, hBnd2, hio2, hcT, _⟩ :=
                      ih (by simp [size] at hszlr ⊢; omega)
                        (.black (.red hla hlb) hral)
                        ⟨⟨hin.1, forall_mem_some (inside_lo hinrad)⟩, hbl, hbral⟩
                        (Or.inr (by simp [leftOf_node, isRed_node]))
                    have hl' := hcT rfl
                    refine ⟨.node rad false l' (.node rx true rar rb), d0, ?_,
                      ⟨hIns2.1, fun bb hbb => lt_trans (inside_hi hIns2)
                        (lt_trans (inside_hi hinrad) (hinrx.2 bb hbb))⟩,
                      ⟨⟨forall_mem_some (inside_hi hIns2),
                          fun bb hbb => lt_trans (inside_hi hinrad)
                            (hinrx.2 bb hbb)⟩, hBnd2,
                        ⟨⟨forall_mem_some (inside_hi hinrad), hinrx.2⟩,
                          hbrar, hbrb⟩⟩, ?_, ?_, ?_⟩
                    · rw [deleteMin_step (by rfl) hm, hdm, Option.some_bind,
                        fixup_noop (by simp [isRed_node])
                          (Or.inl (isRed_false_of_black hl')), Option.map_some']
                    · have e1 : inorder (Tree.node d false (Tree.node lx true la lb)
                          (Tree.node rx true (Tree.node rad false ral rar) rb)) =
                          inorder (Tree.node d true (Tree.node lx false la lb) ral)
                            ++ rad :: inorder (Tree.node rx true rar rb) := by
                        simp [inorder]
                      rw [e1, hio2]
                      simp [inorder]
                    · intro hcon; exact absurd hcon (by simp)
                    · exact fun _ => ⟨false, .red hl' (.black hrar hrb)⟩
      · -- case A2: black root with red left child
        have hlred : isRed l = true := by
          simpa [leftOf_node] using hred
        cases hb with
        | @red _ _ _ n hl hr =>
          rw [isRed_false_of_black hl] at hlred
          exact absurd hlred (by simp)
        | @black _ _ _ c1 n hl hr =>
          cases hl with
          | leaf => simp [isRed] at hlred
          | @black lx la lb _ _ hla hlb => simp [isRed_node] at hlred
          | @red lx la lb m hla hlb =>
            obtain ⟨l', d0, hdm, hIns2, hBnd2, hio2, _, hcF⟩ :=
              ih (by simp [size] at hszlr ⊢; omega) (.red hla hlb) hbl
                (Or.inl rfl)
            obtain ⟨c', hl'⟩ := hcF rfl
            have hm : (if !(isRed (Tree.node lx false la lb)) &&
                  !(isRed (leftOf (Tree.node lx false la lb))) then
                moveRedLeft (.node d true (.node lx false la lb) r)
                else some (.node d true (.node lx false la lb) r)) =
                some (.node d true (.node lx false la lb) r) := by
              simp [isRed_node, leftOf_node]
            refine ⟨.node d true l' r, d0, ?_,
              inside_widen_hi hIns2 hin.2,
              ⟨inside_shrink_lo hin (inside_hi hIns2), hBnd2, hbr⟩, ?_, ?_, ?_⟩
            · rw [deleteMin_step (by rfl) hm, hdm, Option.some_bind,
                fixup_noop (isRed_false_of_black hr) (lbal_noop_side hl'),
                Option.map_some']
            · simp only [inorder] at hio2 ⊢
              rw [hio2]
              simp
            · exact fun _ => .black hl' hr
            · intro hcon; exact absurd hcon (by simp)

/-- What do_delete does to the entry list: the key was absent and the
entries are untouched, or exactly the entry carrying the key is removed
and handed back. -/
def DelIO (key : K) (t t' : Tree K V D) (old : Option (NodeData K V D)) : Prop :=
  (old = none ∧ inorder t' = inorder t ∧ ∀ e ∈ inorder t, e.key ≠ key) ∨
  (∃ d0 A B, old = some d0 ∧ d0.key = key ∧
    inorder t = A ++ d0 :: B ∧ inorder t' = A ++ B)

theorem delIO_left [LinearOrder K] {key : K} {l l' r t' : Tree K V D}
    {d : NodeData K V D} {b : Bool} {old} {hi : Option K}
    (hio : DelIO key l l' old)
    (ht' : inorder t' = inorder l' ++ d :: inorder r)
    (hbr : Bnd (some d.key) hi r) (hlt : key < d.key) :
    DelIO key (.node d b l r) t' old := by
  rcases hio with ⟨hold, heq, habs⟩ | ⟨d0, A, B, hold, hk0, hA, hB⟩
  · refine Or.inl ⟨hold, ?_, ?_⟩
    · rw [ht', heq]
      simp [inorder]
    · intro e he
      simp only [inorder, List.mem_append, List.mem_cons] at he
      rcases he with he | he | he
      · exact habs e he
      · rw [he]; exact ne_of_gt hlt
      · exact ne_of_gt (lt_trans hlt (inside_lo (bnd_mem hbr e he)))
  · refine Or.inr ⟨d0, A, B ++ d :: inorder r, hold, hk0, ?_, ?_⟩
    · simp [inorder, hA]
    · simp [ht', hB]

theorem delIO_right [LinearOrder K] {key : K} {l r r' t' : Tree K V D}
    {d : NodeData K V D} {b : Bool} {old} {lo : Option K}
    (hio : DelIO key r r' old)
    (ht' : inorder t' = inorder l ++ d :: inorder r')
    (hbl : Bnd lo (some d.key) l) (hgt : d.key < key) :
    DelIO key (.node d b l r) t' old := by
  rcases hio with ⟨hold, heq, habs⟩ | ⟨d0, A, B, hold, hk0, hA, hB⟩
  · refine Or.inl ⟨hold, ?_, ?_⟩
    · rw [ht', heq]
      simp [inorder]
    · intro e he
      simp only [inorder, List.mem_append, List.mem_cons] at he
      rcases he with he | he | he
      · exact ne_of_lt (lt_trans (inside_hi (bnd_mem hbl e he)) hgt)
      · rw [he]; exact ne_of_lt hgt
      · exact habs e he
  · refine Or.inr ⟨d0, inorder l ++ d :: A, B, hold, hk0, ?_, ?_⟩
    · simp [inorder, hA]
    · simp [ht', hB]

theorem bnd_weaken_hi [LinearOrder K] {t : Tree K V D} {lo : Option K} {x : K}
    {hi2 : Option K} (h : Bnd lo (some x) t) (hx : ∀ b ∈ hi2, x < b) :
    Bnd lo hi2 t := by
  induction t generalizing lo with
  | leaf => trivial
  | node d b l r ihl ihr =>
    obtain ⟨hin, hbl, hbr⟩ := h
    exact ⟨inside_widen_hi hin hx, hbl, ihr hbr⟩

theorem bnd_weaken_lo [LinearOrder K] {t : Tree K V D} {hi : Option K} {x : K}
    {lo2 : Option K} (h : Bnd (some x) hi t) (hx : ∀ a ∈ lo2, a < x) :
    Bnd lo2 hi t := by
  induction t generalizing hi with
  | leaf => trivial
  | node d b l r ihl ihr =>
    obtain ⟨hin, hbl, hbr⟩ := h
    exact ⟨inside_widen_lo hin hx, ihl hbl, hbr⟩

theorem doDelete_node [LinearOrder K] {key : K} {d : NodeData K V D} {b : Bool}
    {l r : Tree K V D} :
    doDelete (.node d b l r) key =
      if key < d.key then
        if l.isLeaf then some (.node d b l r, none)
        else
          match (if !(isRed l) && !(isRed (leftOf l)) then
              moveRedLeft (.node d b l r) else some (.node d b l r)) with
          | none => none
          | some .leaf => none
          | some (.node d2 b2 l2 r2) =>
            (doDelete l2 key).bind fun p =>
            (fixup (.node d2 b2 p.1 r2)).map fun t3 => (t3, p.2)
      else
        match (if isRed l then rotateRight (.node d b l r)
            else some (.node d b l r)) with
        | none => none
        | some .leaf => none
        | some (.node d2 b2 l2 r2) =>
          if ¬ d2.key < key ∧ r2.isLeaf then some (.leaf, some d2)
          else
            match (if (!r2.isLeaf) && !(isRed r2) && !(isRed (leftOf r2)) then
                moveRedRight (.node d2 b2 l2 r2) else some (.node d2 b2 l2 r2)) with
            | none => none
            | some .leaf => none
            | some (.node d3 b3 l3 r3) =>
              if ¬ d3.key < key then
                (deleteMin r3).bind fun p =>
                match p.2 with
                | none => none
                | some newdata =>
                  (fixup (.node newdata b3 l3 p.1)).map fun t5 => (t5, some d3)
              else
                (doDelete r3 key).bind fun p =>
                (fixup (.node d3 b3 l3 p.1)).map fun t5 => (t5, p.2) := by
  rw [doDelete]
  by_cases hk : key < d.key
  · simp only [if_pos hk]
    cases hleaf : l.isLeaf
    · simp only [Bool.false_eq_true, if_false]
      cases hval : (if (!isRed l && !isRed (leftOf l)) = true then
          moveRedLeft (Tree.node d b l r) else some (Tree.node d b l r)) with
      | none => rfl
      | some t2 => cases t2 <;> rfl
    · simp only [if_true]
  · simp only [if_neg hk]
    cases hval : (if isRed l = true then rotateRight (Tree.node d b l r)
        else some (Tree.node d b l r)) with
    | none => rfl
    | some t2 =>
      cases t2 with
      | leaf => rfl
      | node d2 b2 l2 r2 =>
        by_cases hdet : ¬ d2.key < key ∧ r2.isLeaf = true
        · simp only [if_pos hdet]
        · simp only [if_neg hdet]
          cases hval2 : (if (!r2.isLeaf && !isRed r2 && !isRed (leftOf r2)) = true
              then moveRedRight (Tree.node d2 b2 l2 r2)
              else some (Tree.node d2 b2 l2 r2)) with
          | none => rfl
          | some t3 => cases t3 <;> rfl

theorem doDelete_lt_leaf [LinearOrder K] {key : K} {d : NodeData K V D}
    {b : Bool} {l r : Tree K V D} (hlt : key < d.key) (hleaf : l.isLeaf = true) :
    doDelete (.node d b l r) key = some (.node d b l r, none) := by
  rw [doDelete_node]
  simp [hlt, hleaf]

theorem doDelete_lt_step [LinearOrder K] {key : K} {d d2 : NodeData K V D}
    {b b2 : Bool} {l r l2 r2 : Tree K V D} (hlt : key < d.key)
    (hleaf : l.isLeaf = false)
    (hm : (if !(isRed l) && !(isRed (leftOf l)) then moveRedLeft (.node d b l r)
      else some (.node d b l r)) = some (.node d2 b2 l2 r2)) :
    doDelete (.node d b l r) key =
      (doDelete l2 key).bind fun p =>
      (fixup (.node d2 b2 p.1 r2)).map fun t3 => (t3, p.2) := by
  rw [doDelete_node, hm]
  simp only [if_pos hlt, hleaf, Bool.false_eq_true, if_false]

theorem doDelete_detach [LinearOrder K] {key : K} {d d2 : NodeData K V D}
    {b b2 : Bool} {l r l2 r2 : Tree K V D} (hge : ¬ key < d.key)
    (hr : (if isRed l then rotateRight (.node d b l r) else some (.node d b l r))
      = some (.node d2 b2 l2 r2))
    (hdet : ¬ d2.key < key ∧ r2.isLeaf = true) :
    doDelete (.node d b l r) key = some (.leaf, some d2) := by
  rw [doDelete_node, hr]
  simp only [if_neg hge, if_pos hdet]

theorem doDelete_splice_step [LinearOrder K] {key : K} {d d2 d3 : NodeData K V D}
    {b b2 b3 : Bool} {l r l2 r2 l3 r3 : Tree K V D} (hge : ¬ key < d.key)
    (hr : (if isRed l then rotateRight (.node d b l r) else some (.node d b l r))
      = some (.node d2 b2 l2 r2))
    (hdet : ¬ (¬ d2.key < key ∧ r2.isLeaf = true))
    (hm2 : (if (!r2.isLeaf) && !(isRed r2) && !(isRed (leftOf r2)) then
        moveRedRight (.node d2 b2 l2 r2) else some (.node d2 b2 l2 r2))
      = some (.node d3 b3 l3 r3))
    (hs : ¬ d3.key < key) :
    doDelete (.node d b l r) key =
      (deleteMin r3).bind fun p =>
      match p.2 with
      | none => none
      | some newdata =>
        (fixup (.node newdata b3 l3 p.1)).map fun t5 => (t5, some d3) := by
  rw [doDelete_node, hr]
  simp only [if_neg hge, if_neg hdet]
  rw [hm2]
  simp only [if_pos hs]

theorem doDelete_right_step [LinearOrder K] {key : K} {d d2 d3 : NodeData K V D}
    {b b2 b3 : Bool} {l r l2 r2 l3 r3 : Tree K V D} (hge : ¬ key < d.key)
    (hr : (if isRed l then rotateRight (.node d b l r) else some (.node d b l r))
      = some (.node d2 b2 l2 r2))
    (hdet : ¬ (¬ d2.key < key ∧ r2.isLeaf = true))
    (hm2 : (if (!r2.isLeaf) && !(isRed r2) && !(isRed (leftOf r2)) then
        moveRedRight (.node d2 b2 l2 r2) else some (.node d2 b2 l2 r2))
      = some (.node d3 b3 l3 r3))
    (hs : d3.key < key) :
    doDelete (.node d b l r) key =
      (doDelete r3 key).bind fun p =>
      (fixup (.node d3 b3 l3 p.1)).map fun t5 => (t5, p.2) := by
  rw [doDelete_node, hr]
  simp only [if_neg hge, if_neg hdet]
  rw [hm2]
  simp only [if_neg (not_not_intro hs)]

/-- The shapes do_delete is invoked on: a leaf, a red node with black
children (A1), a black node (A2 when its left child is red, the top-level
call otherwise), or — only while descending right with the search key at
or beyond the root key — a black node with a red right child (the shape
move_red_right leaves behind). -/
inductive DDIn [LinearOrder K] (key : K) : Tree K V D → Nat → Prop where
  | leaf : DDIn key .leaf 0
  | red {d : NodeData K V D} {l r : Tree K V D} {n : Nat} :
      LBal l true n → LBal r true n → DDIn key (.node d false l r) n
  | blk {d : NodeData K V D} {l r : Tree K V D} {c1 : Bool} {n : Nat} :
      LBal l c1 n → LBal r true n → DDIn key (.node d true l r) (n + 1)
  | bred {d : NodeData K V D} {l r : Tree K V D} {n : Nat} :
      LBal l true n → LBal r false n → d.key ≤ key →
      DDIn key (.node d true l r) (n + 1)

theorem delIO_extend_right {key : K} {t t' u u' : Tree K V D}
    {old : Option (NodeData K V D)} {C : List (NodeData K V D)}
    (hio : DelIO key t t' old) (hu : inorder u = inorder t ++ C)
    (hu' : inorder u' = inorder t' ++ C) (hC : ∀ e ∈ C, e.key ≠ key) :
    DelIO key u u' old := by
  rcases hio with ⟨hold, heq, habs⟩ | ⟨d0, A, B, hold, hk0, hA, hB⟩
  · refine Or.inl ⟨hold, by rw [hu, hu', heq], ?_⟩
    intro e he
    rw [hu, List.mem_append] at he
    rcases he with he | he
    · exact habs e he
    · exact hC e he
  · exact Or.inr ⟨d0, A, B ++ C, hold, hk0,
      by rw [hu, hA]; simp, by rw [hu', hB]; simp⟩

theorem delIO_extend_left {key : K} {t t' u u' : Tree K V D}
    {old : Option (NodeData K V D)} {C : List (NodeData K V D)}
    (hio : DelIO key t t' old) (hu : inorder u = C ++ inorder t)
    (hu' : inorder u' = C ++ inorder t') (hC : ∀ e ∈ C, e.key ≠ key) :
    DelIO key u u' old := by
  rcases hio with ⟨hold, heq, habs⟩ | ⟨d0, A, B, hold, hk0, hA, hB⟩
  · refine Or.inl ⟨hold, by rw [hu, hu', heq], ?_⟩
    intro e he
    rw [hu, List.mem_append] at he
    rcases he with he | he
    · exact hC e he
    · exact habs e he
  · exact Or.inr ⟨d0, C ++ A, B, hold, hk0,
      by rw [hu, hA]; simp, by rw [hu', hB]; simp⟩

/-- Mvcc::do_delete never panics on the shapes of DDIn: it removes the
key's entry (or nothing), keeps the bounds, and restores balance — red in,
balanced out at the same height; black with a red child in, black out at
the same height; the top-level black-black case may come back as RedL. -/
theorem doDelete_spec [LinearOrder K] {sz : Nat} :
    ∀ {t : Tree K V D} {key : K} {n : Nat} {lo hi : Option K},
      size t ≤ sz → DDIn key t n → Bnd lo hi t →
      ∃ t' old, doDelete t key = some (t', old) ∧ Bnd lo hi t' ∧
        DelIO key t t' old ∧ (∃ m, RedL t' m) ∧
        (isRed t = true → ∃ c', LBal t' c' n) ∧
        (isRed t = false → (isRed (leftOf t) || isRed (rightOf t)) = true →
          LBal t' true n) := by
  induction sz with
  | zero =>
    intro t key n lo hi hsz hdd hbnd
    cases hdd with
    | leaf =>
      refine ⟨.leaf, none, by rw [doDelete], trivial, Or.inl ⟨rfl, rfl, ?_⟩,
        ⟨0, .bal .leaf⟩, ?_, ?_⟩
      · intro e he; simp [inorder] at he
      · intro hcon; exact absurd hcon (by simp [isRed])
      · intro _ hcon; exact absurd hcon (by simp [leftOf, rightOf, isRed])
    | red hl hr => simp [size] at hsz
    | blk hl hr => simp [size] at hsz
    | bred hl hr hkle => simp [size] at hsz
  | succ sz ih =>
    intro t key n lo hi hsz hdd hbnd
    cases hdd with
    | leaf =>
      refine ⟨.leaf, none, by rw [doDelete], trivial, Or.inl ⟨rfl, rfl, ?_⟩,
        ⟨0, .bal .leaf⟩, ?_, ?_⟩
      · intro e he; simp [inorder] at he
      · intro hcon; exact absurd hcon (by simp [isRed])
      · intro _ hcon; exact absurd hcon (by simp [leftOf, rightOf, isRed])
    | @red d l r n hl hr =>
      obtain ⟨hin, hbl, hbr⟩ := hbnd
      by_cases hk : key < d.key
      · -- A1, left descent
        cases hl with
        | leaf =>
          cases hr with
          | leaf =>
            refine ⟨.node d false .leaf .leaf, none, doDelete_lt_leaf hk rfl,
              ⟨hin, trivial, trivial⟩, Or.inl ⟨rfl, rfl, ?_⟩,
              ⟨0, .bal (.red .leaf .leaf)⟩,
              fun _ => ⟨false, .red .leaf .leaf⟩,
              fun hcon => absurd hcon (by simp [isRed_node])⟩
            intro e he
            simp only [inorder, List.mem_append, List.mem_cons] at he
            rcases he with he | he | he
            · simp [inorder] at he
            · rw [he]; exact ne_of_gt hk
            · simp [inorder] at he
        | @black lx la lb c1 m hla hlb =>
          cases hr with
          | @black rx ra rb c2 _ hra hrb =>
            obtain ⟨hinlx, hbla, hblb⟩ := hbl
            obtain ⟨hinrx, hbra, hbrb⟩ := hbr
            cases c1 with
            | false =>
              cases hla with
              | @red lad lal lab _ hlal hlab =>
                have hm : (if !(isRed (Tree.node lx true
                      (Tree.node lad false lal lab) lb)) &&
                      !(isRed (leftOf (Tree.node lx true
                        (Tree.node lad false lal lab) lb))) then
                    moveRedLeft (.node d false (.node lx true
                      (.node lad false lal lab) lb) (.node rx true ra rb))
                    else some (.node d false (.node lx true
                      (.node lad false lal lab) lb) (.node rx true ra rb))) =
                    some (.node d false (.node lx true
                      (.node lad false lal lab) lb) (.node rx true ra rb)) := by
                  simp [isRed_node, leftOf_node]
                obtain ⟨l', old, hdd1, hBnd1, hio1, _, _, hP31⟩ :=
                  ih (by simp [size] at hsz ⊢; omega)
                    (.blk (.red hlal hlab) hlb) ⟨hinlx, hbla, hblb⟩
                have hl' : LBal l' true (m + 1) :=
                  hP31 (by simp [isRed_node]) (by simp [leftOf_node, isRed_node])
                refine ⟨.node d false l' (.node rx true ra rb), old, ?_,
                  ⟨hin, hBnd1, ⟨hinrx, hbra, hbrb⟩⟩,
                  delIO_left hio1 (by simp [inorder]) ⟨hinrx, hbra, hbrb⟩ hk,
                  ⟨m + 1, .bal (.red hl' (.black hra hrb))⟩,
                  fun _ => ⟨false, .red hl' (.black hra hrb)⟩,
                  fun hcon => absurd hcon (by simp [isRed_node])⟩
                rw [doDelete_lt_step hk (by rfl) hm, hdd1, Option.some_bind,
                  fixup_noop (by simp [isRed_node])
                    (Or.inl (isRed_false_of_black hl')), Option.map_some']
            | true =>
              cases c2 with
              | true =>
                have hc2 : (!isRed (Tree.node lx true la lb) &&
                    !isRed (leftOf (Tree.node lx true la lb))) = true := by
                  simp [isRed_node, leftOf_node, isRed_false_of_black hla]
                have hm : (if !(isRed (Tree.node lx true la lb)) &&
                      !(isRed (leftOf (Tree.node lx true la lb))) then
                    moveRedLeft (.node d false (.node lx true la lb)
                      (.node rx true ra rb))
                    else some (.node d false (.node lx true la lb)
                      (.node rx true ra rb))) =
                    some (.node d true (.node lx false la lb)
                      (.node rx false ra rb)) := by
                  rw [hc2, if_pos rfl]
                  exact mrl_flip (isRed_false_of_black hra)
                obtain ⟨l', old, hdd1, hBnd1, hio1, _, hP21, _⟩ :=
                  ih (by simp [size] at hsz ⊢; omega) (.red hla hlb)
                    ⟨hinlx, hbla, hblb⟩
                obtain ⟨c', hl'⟩ := hP21 (by simp [isRed_node])
                cases c' with
                | true =>
                  refine ⟨.node rx true (.node d false l' ra) rb, old, ?_,
                    ⟨inside_widen_lo hinrx hin.1,
                      ⟨⟨hin.1, forall_mem_some (inside_lo hinrx)⟩, hBnd1, hbra⟩,
                      hbrb⟩,
                    delIO_left hio1 (by simp [inorder]) ⟨hinrx, hbra, hbrb⟩ hk,
                    ⟨m + 1, .bal (.black (.red hl' hra) hrb)⟩,
                    fun _ => ⟨true, .black (.red hl' hra) hrb⟩,
                    fun hcon => absurd hcon (by simp [isRed_node])⟩
                  rw [doDelete_lt_step hk (by rfl) hm, hdd1, Option.some_bind,
                    fixup_rotl (isRed_false_of_black hl')
                      (isRed_false_of_black hrb), Option.map_some']
                | false =>
                  cases hl' with
                  | @red l2d l2l l2r _ hl2l hl2r =>
                    refine ⟨.node d false (.node l2d true l2l l2r)
                        (.node rx true ra rb), old, ?_,
                      ⟨hin, hBnd1, ⟨hinrx, hbra, hbrb⟩⟩,
                      delIO_left hio1 (by simp [inorder])
                        ⟨hinrx, hbra, hbrb⟩ hk,
                      ⟨m + 1, .bal (.red (.black hl2l hl2r)
                        (.black hra hrb))⟩,
                      fun _ => ⟨false, .red (.black hl2l hl2r)
                        (.black hra hrb)⟩,
                      fun hcon => absurd hcon (by simp [isRed_node])⟩
                    rw [doDelete_lt_step hk (by rfl) hm, hdd1, Option.some_bind,
                      fixup_two_red, Option.map_some']
                    rfl
              | false =>
                cases hra with
                | @red rad ral rar _ hral hrar =>
                  obtain ⟨hinrad, hbral, hbrar⟩ := hbra
                  have hc2 : (!isRed (Tree.node lx true la lb) &&
                      !isRed (leftOf (Tree.node lx true la lb))) = true := by
                    simp [isRed_node, leftOf_node, isRed_false_of_black hla]
                  have hm : (if !(isRed (Tree.node lx true la lb)) &&
                        !(isRed (leftOf (Tree.node lx true la lb))) then
                      moveRedLeft (.node d false (.node lx true la lb)
                        (.node rx true (.node rad false ral rar) rb))
                      else some (.node d false (.node lx true la lb)
                        (.node rx true (.node rad false ral rar) rb))) =
                      some (.node rad false
                        (.node d true (.node lx false la lb) ral)
                        (.node rx true rar rb)) := by
                    rw [hc2, if_pos rfl]
                    exact mrl_dance
                  obtain ⟨l', old, hdd1, hBnd1, hio1, _, _, hP31⟩ :=
                    ih (by simp [size] at hsz ⊢; omega)
                      (.blk (.red hla hlb) hral)
                      ⟨⟨hin.1, forall_mem_some (inside_lo hinrad)⟩,
                        ⟨hinlx, hbla, hblb⟩, hbral⟩
                  have hl' : LBal l' true (m + 1) :=
                    hP31 (by simp [isRed_node])
                      (by simp [leftOf_node, isRed_node])
                  refine ⟨.node rad false l' (.node rx true rar rb), old, ?_,
                    ⟨⟨fun a ha => lt_trans (hin.1 a ha) (inside_lo hinrad),
                        fun bb hbb => lt_trans (inside_hi hinrad)
                          (hinrx.2 bb hbb)⟩, hBnd1,
                      ⟨⟨forall_mem_some (inside_hi hinrad), hinrx.2⟩,
                        hbrar, hbrb⟩⟩, ?_,
                    ⟨m + 1, .bal (.red hl' (.black hrar hrb))⟩,
                    fun _ => ⟨false, .red hl' (.black hrar hrb)⟩,
                    fun hcon => absurd hcon (by simp [isRed_node])⟩
                  · rw [doDelete_lt_step hk (by rfl) hm, hdd1, Option.some_bind,
                      fixup_noop (by simp [isRed_node])
                        (Or.inl (isRed_false_of_black hl')), Option.map_some']
                  · refine delIO_extend_right
                      (C := rad :: (inorder rar ++ rx :: inorder rb)) hio1
                      (by simp [inorder]) (by simp [inorder]) ?_
                    intro e he
                    rcases List.mem_cons.mp he with he | he
                    · rw [he]
                      exact ne_of_gt (lt_trans hk (inside_lo hinrad))
                    · rcases List.mem_append.mp he with he | he
                      · exact ne_of_gt (lt_trans (lt_trans hk
                          (inside_lo hinrad))
                          (inside_lo (bnd_mem hbrar e he)))
                      · rcases List.mem_cons.mp he with he | he
                        · rw [he]
                          exact ne_of_gt (lt_trans (lt_trans hk
                            (inside_lo hinrad)) (inside_hi hinrad))
                        · exact ne_of_gt (lt_trans (lt_trans (lt_trans hk
                            (inside_lo hinrad)) (inside_hi hinrad))
                            (inside_lo (bnd_mem hbrb e he)))
      · -- A1, key at or beyond the root key
        have hre : (if isRed l then rotateRight (.node d false l r)
            else some (.node d false l r)) = some (.node d false l r) := by
          rw [isRed_false_of_black hl]
          simp
        cases hl with
        | leaf =>
          cases hr with
          | leaf =>
            by_cases hdk : d.key < key
            · have hdet : ¬ (¬ d.key < key ∧
                  (Tree.leaf : Tree K V D).isLeaf = true) :=
                fun hcc => hcc.1 hdk
              have hm2 : (if (!(Tree.leaf : Tree K V D).isLeaf) &&
                    !(isRed (Tree.leaf : Tree K V D)) &&
                    !(isRed (leftOf (Tree.leaf : Tree K V D))) then
                  moveRedRight (.node d false .leaf .leaf)
                  else some (.node d false .leaf .leaf)) =
                  some (.node d false .leaf .leaf) := by
                simp [Tree.isLeaf]
              refine ⟨.node d false .leaf .leaf, none, ?_,
                ⟨hin, trivial, trivial⟩, Or.inl ⟨rfl, rfl, ?_⟩,
                ⟨0, .bal (.red .leaf .leaf)⟩,
                fun _ => ⟨false, .red .leaf .leaf⟩,
                fun hcon => absurd hcon (by simp [isRed_node])⟩
              · rw [doDelete_right_step hk hre hdet hm2 hdk,
                  show doDelete (.leaf : Tree K V D) key = some (.leaf, none)
                    from by rw [doDelete],
                  Option.some_bind,
                  fixup_noop (by simp [isRed]) (Or.inl (by simp [isRed])),
                  Option.map_some']
              · intro e he
                simp only [inorder, List.mem_append, List.mem_cons] at he
                rcases he with he | he | he
                · simp [inorder] at he
                · rw [he]; exact ne_of_lt hdk
                · simp [inorder] at he
            · have hdeq : d.key = key :=
                le_antisymm (not_lt.mp hk) (not_lt.mp hdk)
              refine ⟨.leaf, some d,
                doDelete_detach hk hre ⟨hdk, rfl⟩, trivial,
                Or.inr ⟨d, [], [], rfl, hdeq, by simp [inorder], rfl⟩,
                ⟨0, .bal .leaf⟩, fun _ => ⟨true, .leaf⟩,
                fun hcon => absurd hcon (by simp [isRed_node])⟩
        | @black lx la lb cla m0 hla hlb =>
          cases hr with
          | @black rx ra rb c2 _ hra hrb =>
            obtain ⟨hinlx, hbla, hblb⟩ := hbl
            obtain ⟨hinrx, hbra, hbrb⟩ := hbr
            have hdet : ¬ (¬ d.key < key ∧
                (Tree.node rx true ra rb).isLeaf = true) := by
              simp [Tree.isLeaf]
            cases c2 with
            | false =>
              -- r.left red: no move_red_right
              cases hra with
              | @red rad ral rar _ hral hrar =>
                have hm2 : (if (!(Tree.node rx true
                      (Tree.node rad false ral rar) rb).isLeaf) &&
                      !(isRed (Tree.node rx true
                        (Tree.node rad false ral rar) rb)) &&
                      !(isRed (leftOf (Tree.node rx true
                        (Tree.node rad false ral rar) rb))) then
                    moveRedRight (.node d false (.node lx true la lb)
                      (.node rx true (.node rad false ral rar) rb))
                    else some (.node d false (.node lx true la lb)
                      (.node rx true (.node rad false ral rar) rb))) =
                    some (.node d false (.node lx true la lb)
                      (.node rx true (.node rad false ral rar) rb)) := by
                  simp [Tree.isLeaf, isRed_node, leftOf_node]
                by_cases hdk : d.key < key
                · obtain ⟨r'', old, hdd1, hBnd1, hio1, _, _, hP31⟩ :=
                    ih (by simp [size] at hsz ⊢; omega)
                      (.blk (.red hral hrar) hrb)
                      ⟨hinrx, ⟨hbra.1, hbra.2.1, hbra.2.2⟩, hbrb⟩
                  have hr'' : LBal r'' true (m0 + 1) :=
                    hP31 (by simp [isRed_node])
                      (by simp [leftOf_node, isRed_node])
                  refine ⟨.node d false (.node lx true la lb) r'', old, ?_,
                    ⟨hin, ⟨hinlx, hbla, hblb⟩, hBnd1⟩,
                    delIO_right hio1 (by simp [inorder])
                      ⟨hinlx, hbla, hblb⟩ hdk,
                    ⟨m0 + 1, .bal (.red (.black hla hlb) hr'')⟩,
                    fun _ => ⟨false, .red (.black hla hlb) hr''⟩,
                    fun hcon => absurd hcon (by simp [isRed_node])⟩
                  rw [doDelete_right_step hk hre hdet hm2 hdk, hdd1,
                    Option.some_bind,
                    fixup_noop (isRed_false_of_black hr'')
                      (Or.inl (by simp [isRed_node])), Option.map_some']
                · have hdeq : d.key = key :=
                    le_antisymm (not_lt.mp hk) (not_lt.mp hdk)
                  obtain ⟨r4, d0, hdm, hIns4, hBnd4, hio4, hcT4, _⟩ :=
                    deleteMin_spec (le_refl _) (.black (.red hral hrar) hrb)
                      ⟨hinrx, hbra, hbrb⟩
                      (Or.inr (by simp [leftOf_node, isRed_node]))
                  have hr4 := hcT4 rfl
                  refine ⟨.node d0 false (.node lx true la lb) r4, some d, ?_,
                    ⟨inside_widen_lo hIns4 hin.1,
                      bnd_weaken_hi ⟨hinlx, hbla, hblb⟩
                        (forall_mem_some (inside_lo hIns4)), hBnd4⟩,
                    Or.inr ⟨d, inorder (Tree.node lx true la lb),
                      d0 :: inorder r4, rfl, hdeq, ?_, rfl⟩,
                    ⟨m0 + 1, .bal (.red (.black hla hlb) hr4)⟩,
                    fun _ => ⟨false, .red (.black hla hlb) hr4⟩,
                    fun hcon => absurd hcon (by simp [isRed_node])⟩
                  · rw [doDelete_splice_step hk hre hdet hm2 hdk, hdm]
                    show (fixup (.node d0 false (.node lx true la lb) r4)).map
                        (fun t5 => (t5, some d)) =
                      some (.node d0 false (.node lx true la lb) r4, some d)
                    rw [fixup_noop (isRed_false_of_black hr4)
                      (Or.inl (by simp [isRed_node])), Option.map_some']
                  · show inorder (Tree.node lx true la lb) ++ d ::
                        inorder (Tree.node rx true
                          (Tree.node rad false ral rar) rb) = _
                    rw [hio4]
            | true =>
              -- r.left black: move_red_right fires
              have hgc : (!(Tree.node rx true ra rb).isLeaf &&
                  !isRed (Tree.node rx true ra rb) &&
                  !isRed (leftOf (Tree.node rx true ra rb))) = true := by
                simp [Tree.isLeaf, isRed_node, leftOf_node,
                  isRed_false_of_black hra]
              cases cla with
              | false =>
                -- l.left red: the dance leaves a B-node on the right
                cases hla with
                | @red lad lal lar _ hlal hlar =>
                  have hm2 : (if (!(Tree.node rx true ra rb).isLeaf) &&
                        !(isRed (Tree.node rx true ra rb)) &&
                        !(isRed (leftOf (Tree.node rx true ra rb))) then
                      moveRedRight (.node d false (.node lx true
                        (.node lad false lal lar) lb) (.node rx true ra rb))
                      else some (.node d false (.node lx true
                        (.node lad false lal lar) lb) (.node rx true ra rb))) =
                      some (.node lx false (.node lad true lal lar)
                        (.node d true lb (.node rx false ra rb))) := by
                    rw [hgc, if_pos rfl]
                    exact mrr_dance
                  have hs : lx.key < key :=
                    lt_of_lt_of_le (inside_hi hinlx) (not_lt.mp hk)
                  obtain ⟨r'', old, hdd1, hBnd1, hio1, _, _, hP31⟩ :=
                    ih (by simp [size] at hsz ⊢; omega)
                      (.bred hlb (.red hra hrb) (not_lt.mp hk))
                      ⟨⟨forall_mem_some (inside_hi hinlx), hin.2⟩,
                        hblb, ⟨hinrx, hbra, hbrb⟩⟩
                  have hr'' : LBal r'' true (m0 + 1) :=
                    hP31 (by simp [isRed_node])
                      (by simp [rightOf_node, isRed_node])
                  refine ⟨.node lx false (.node lad true lal lar) r'', old, ?_,
                    ⟨⟨hinlx.1, fun bb hbb => lt_trans (inside_hi hinlx)
                        (hin.2 bb hbb)⟩,
                      ⟨hbla.1, hbla.2.1, hbla.2.2⟩, hBnd1⟩, ?_,
                    ⟨m0 + 1, .bal (.red (.black hlal hlar) hr'')⟩,
                    fun _ => ⟨false, .red (.black hlal hlar) hr''⟩,
                    fun hcon => absurd hcon (by simp [isRed_node])⟩
                  · rw [doDelete_right_step hk hre hdet hm2 hs, hdd1,
                      Option.some_bind,
                      fixup_noop (isRed_false_of_black hr'')
                        (Or.inl (by simp [isRed_node])), Option.map_some']
                  · refine delIO_extend_left
                      (C := inorder (Tree.node lad false lal lar) ++ [lx])
                      hio1 (by simp [inorder]) (by simp [inorder]) ?_
                    intro e he
                    rcases List.mem_append.mp he with he | he
                    · exact ne_of_lt (lt_trans
                        (inside_hi (bnd_mem hbla e he)) hs)
                    · simp only [List.mem_singleton] at he
                      rw [he]
                      exact ne_of_lt hs
              | true =>
                -- l.left black: flip only
                have hm2 : (if (!(Tree.node rx true ra rb).isLeaf) &&
                      !(isRed (Tree.node rx true ra rb)) &&
                      !(isRed (leftOf (Tree.node rx true ra rb))) then
                    moveRedRight (.node d false (.node lx true la lb)
                      (.node rx true ra rb))
                    else some (.node d false (.node lx true la lb)
                      (.node rx true ra rb))) =
                    some (.node d true (.node lx false la lb)
                      (.node rx false ra rb)) := by
                  rw [hgc, if_pos rfl]
                  exact mrr_flip (isRed_false_of_black hla)
                by_cases hdk : d.key < key
                · obtain ⟨r'', old, hdd1, hBnd1, hio1, _, hP21, _⟩ :=
                    ih (by simp [size] at hsz ⊢; omega) (.red hra hrb)
                      ⟨hinrx, hbra, hbrb⟩
                  obtain ⟨c'', hr''⟩ := hP21 (by simp [isRed_node])
                  cases c'' with
                  | true =>
                    refine ⟨.node d true (.node lx false la lb) r'', old, ?_,
                      ⟨hin, ⟨hinlx, hbla, hblb⟩, hBnd1⟩,
                      delIO_right hio1 (by simp [inorder])
                        ⟨hinlx, hbla, hblb⟩ hdk,
                      ⟨m0 + 1, .bal (.black (.red hla hlb) hr'')⟩,
                      fun _ => ⟨true, .black (.red hla hlb) hr''⟩,
                      fun hcon => absurd hcon (by simp [isRed_node])⟩
                    rw [doDelete_right_step hk hre hdet hm2 hdk, hdd1,
                      Option.some_bind,
                      fixup_noop (isRed_false_of_black hr'')
                        (Or.inr (by simp [leftOf_node, isRed_node,
                          isRed_false_of_black hla])), Option.map_some']
                  | false =>
                    cases hr'' with
                    | @red r2d r2l r2r _ hr2l hr2r =>
                      refine ⟨.node d false (.node lx true la lb)
                          (.node r2d true r2l r2r), old, ?_,
                        ⟨hin, ⟨hinlx, hbla, hblb⟩, hBnd1⟩,
                        delIO_right hio1 (by simp [inorder])
                          ⟨hinlx, hbla, hblb⟩ hdk,
                        ⟨m0 + 1, .bal (.red (.black hla hlb)
                          (.black hr2l hr2r))⟩,
                        fun _ => ⟨false, .red (.black hla hlb)
                          (.black hr2l hr2r)⟩,
                        fun hcon => absurd hcon (by simp [isRed_node])⟩
                      rw [doDelete_right_step hk hre hdet hm2 hdk, hdd1,
                        Option.some_bind, fixup_two_red, Option.map_some']
                      rfl
                · have hdeq : d.key = key :=
                    le_antisymm (not_lt.mp hk) (not_lt.mp hdk)
                  obtain ⟨r4, d0, hdm, hIns4, hBnd4, hio4, _, hcF4⟩ :=
                    deleteMin_spec (le_refl _) (.red hra hrb)
                      ⟨hinrx, hbra, hbrb⟩ (Or.inl rfl)
                  obtain ⟨c4, hr4⟩ := hcF4 rfl
                  cases c4 with
                  | true =>
                    refine ⟨.node d0 true (.node lx false la lb) r4, some d, ?_,
                      ⟨inside_widen_lo hIns4 hin.1,
                        bnd_weaken_hi ⟨hinlx, hbla, hblb⟩
                          (forall_mem_some (inside_lo hIns4)), hBnd4⟩,
                      Or.inr ⟨d, inorder (Tree.node lx true la lb),
                        d0 :: inorder r4, rfl, hdeq, ?_, rfl⟩,
                      ⟨m0 + 1, .bal (.black (.red hla hlb) hr4)⟩,
                      fun _ => ⟨true, .black (.red hla hlb) hr4⟩,
                      fun hcon => absurd hcon (by simp [isRed_node])⟩
                    · rw [doDelete_splice_step hk hre hdet hm2 hdk, hdm]
                      show (fixup (.node d0 true (.node lx false la lb)
                          r4)).map (fun t5 => (t5, some d)) =
                        some (.node d0 true (.node lx false la lb) r4, some d)
                      rw [fixup_noop (isRed_false_of_black hr4)
                        (Or.inr (by simp [leftOf_node, isRed_node,
                          isRed_false_of_black hla])), Option.map_some']
                    · show inorder (Tree.node lx true la lb) ++ d ::
                          inorder (Tree.node rx false ra rb) = _
                      rw [hio4]
                  | false =>
                    cases hr4 with
                    | @red r4d r4l r4r _ hr4l hr4r =>
                      refine ⟨.node d0 false (.node lx true la lb)
                          (.node r4d true r4l r4r), some d, ?_,
                        ⟨inside_widen_lo hIns4 hin.1,
                          bnd_weaken_hi ⟨hinlx, hbla, hblb⟩
                            (forall_mem_some (inside_lo hIns4)), hBnd4⟩,
                        Or.inr ⟨d, inorder (Tree.node lx true la lb),
                          d0 :: inorder (Tree.node r4d false r4l r4r),
                          rfl, hdeq, ?_, rfl⟩,
                        ⟨m0 + 1, .bal (.red (.black hla hlb)
                          (.black hr4l hr4r))⟩,
                        fun _ => ⟨false, .red (.black hla hlb)
                          (.black hr4l hr4r)⟩,
                        fun hcon => absurd hcon (by simp [isRed_node])⟩
                      · rw [doDelete_splice_step hk hre hdet hm2 hdk, hdm]
                        show (fixup (.node d0 true (.node lx false la lb)
                            (.node r4d false r4l r4r))).map
                            (fun t5 => (t5, some d)) =
                          some (.node d0 false (.node lx true la lb)
                            (.node r4d true r4l r4r), some d)
                        rw [fixup_two_red, Option.map_some']
                        rfl
                      · show inorder (Tree.node lx true la lb) ++ d ::
                            inorder (Tree.node rx false ra rb) = _
                        rw [hio4]
    | @blk d l r c1 n hl hr =>
      obtain ⟨hin, hbl, hbr⟩ := hbnd
      by_cases hk : key < d.key
      · -- black root, left descent
        cases hl with
        | leaf =>
          cases hr with
          | leaf =>
            refine ⟨.node d true .leaf .leaf, none, doDelete_lt_leaf hk rfl,
              ⟨hin, trivial, trivial⟩, Or.inl ⟨rfl, rfl, ?_⟩,
              ⟨1, .bal (.black .leaf .leaf)⟩,
              fun hcon => absurd hcon (by simp [isRed_node]),
              fun _ hcon => absurd hcon (by simp [leftOf_node, rightOf_node,
                isRed])⟩
            intro e he
            simp only [inorder, List.mem_append, List.mem_cons] at he
            rcases he with he | he | he
            · simp [inorder] at he
            · rw [he]; exact ne_of_gt hk
            · simp [inorder] at he
        | @red lx la lb _ hla hlb =>
          have hm : (if !(isRed (Tree.node lx false la lb)) &&
                !(isRed (leftOf (Tree.node lx false la lb))) then
              moveRedLeft (.node d true (.node lx false la lb) r)
              else some (.node d true (.node lx false la lb) r)) =
              some (.node d true (.node lx false la lb) r) := by
            simp [isRed_node, leftOf_node]
          obtain ⟨l', old, hdd1, hBnd1, hio1, _, hP21, _⟩ :=
            ih (by simp [size] at hsz ⊢; omega) (.red hla hlb) hbl
          obtain ⟨c', hl'⟩ := hP21 (by simp [isRed_node])
          refine ⟨.node d true l' r, old, ?_, ⟨hin, hBnd1, hbr⟩,
            delIO_left hio1 (by simp [inorder]) hbr hk,
            ⟨n + 1, .bal (.black hl' hr)⟩,
            fun hcon => absurd hcon (by simp [isRed_node]),
            fun _ _ => .black hl' hr⟩
          rw [doDelete_lt_step hk (by rfl) hm, hdd1, Option.some_bind,
            fixup_noop (isRed_false_of_black hr) (lbal_noop_side hl'),
            Option.map_some']
        | @black lx la lb cla m0 hla hlb =>
          cases hr with
          | @black rx ra rb c2 _ hra hrb =>
            obtain ⟨hinlx, hbla, hblb⟩ := hbl
            obtain ⟨hinrx, hbra, hbrb⟩ := hbr
            cases cla with
            | false =>
              cases hla with
              | @red lad lal lab _ hlal hlab =>
                have hm : (if !(isRed (Tree.node lx true
                      (Tree.node lad false lal lab) lb)) &&
                      !(isRed (leftOf (Tree.node lx true
                        (Tree.node lad false lal lab) lb))) then
                    moveRedLeft (.node d true (.node lx true
                      (.node lad false lal lab) lb) (.node rx true ra rb))
                    else some (.node d true (.node lx true
                      (.node lad false lal lab) lb) (.node rx true ra rb))) =
                    some (.node d true (.node lx true
                      (.node lad false lal lab) lb) (.node rx true ra rb)) := by
                  simp [isRed_node, leftOf_node]
                obtain ⟨l', old, hdd1, hBnd1, hio1, _, _, hP31⟩ :=
                  ih (by simp [size] at hsz ⊢; omega)
                    (.blk (.red hlal hlab) hlb) ⟨hinlx, hbla, hblb⟩
                have hl' : LBal l' true (m0 + 1) :=
                  hP31 (by simp [isRed_node]) (by simp [leftOf_node, isRed_node])
                refine ⟨.node d true l' (.node rx true ra rb), old, ?_,
                  ⟨hin, hBnd1, ⟨hinrx, hbra, hbrb⟩⟩,
                  delIO_left hio1 (by simp [inorder]) ⟨hinrx, hbra, hbrb⟩ hk,
                  ⟨m0 + 2, .bal (.black hl' (.black hra hrb))⟩,
                  fun hcon => absurd hcon (by simp [isRed_node]),
                  fun _ _ => .black hl' (.black hra hrb)⟩
                rw [doDelete_lt_step hk (by rfl) hm, hdd1, Option.some_bind,
                  fixup_noop (by simp [isRed_node])
                    (Or.inl (isRed_false_of_black hl')), Option.map_some']
            | true =>
              have hc2 : (!isRed (Tree.node lx true la lb) &&
                  !isRed (leftOf (Tree.node lx true la lb))) = true := by
                simp [isRed_node, leftOf_node, isRed_false_of_black hla]
              cases c2 with
              | true =>
                have hm : (if !(isRed (Tree.node lx true la lb)) &&
                      !(isRed (leftOf (Tree.node lx true la lb))) then
                    moveRedLeft (.node d true (.node lx true la lb)
                      (.node rx true ra rb))
                    else some (.node d true (.node lx true la lb)
                      (.node rx true ra rb))) =
                    some (.node d false (.node lx false la lb)
                      (.node rx false ra rb)) := by
                  rw [hc2, if_pos rfl]
                  exact mrl_flip (isRed_false_of_black hra)
                obtain ⟨l', old, hdd1, hBnd1, hio1, _, hP21, _⟩ :=
                  ih (by simp [size] at hsz ⊢; omega) (.red hla hlb)
                    ⟨hinlx, hbla, hblb⟩
                obtain ⟨c', hl'⟩ := hP21 (by simp [isRed_node])
                cases c' with
                | true =>
                  refine ⟨.node rx false (.node d false l' ra) rb, old, ?_,
                    ⟨inside_widen_lo hinrx hin.1,
                      ⟨⟨hin.1, forall_mem_some (inside_lo hinrx)⟩, hBnd1, hbra⟩,
                      hbrb⟩,
                    delIO_left hio1 (by simp [inorder]) ⟨hinrx, hbra, hbrb⟩ hk,
                    ⟨m0, .rr (.red hl' hra) hrb⟩,
                    fun hcon => absurd hcon (by simp [isRed_node]),
                    fun _ hcon => absurd hcon (by simp [leftOf_node,
                      rightOf_node, isRed_node])⟩
                  rw [doDelete_lt_step hk (by rfl) hm, hdd1, Option.some_bind,
                    fixup_rotl (isRed_false_of_black hl')
                      (isRed_false_of_black hrb), Option.map_some']
                | false =>
                  cases hl' with
                  | @red l2d l2l l2r _ hl2l hl2r =>
                    refine ⟨.node d true (.node l2d true l2l l2r)
                        (.node rx true ra rb), old, ?_,
                      ⟨hin, hBnd1, ⟨hinrx, hbra, hbrb⟩⟩,
                      delIO_left hio1 (by simp [inorder])
                        ⟨hinrx, hbra, hbrb⟩ hk,
                      ⟨m0 + 2, .bal (.black (.black hl2l hl2r)
                        (.black hra hrb))⟩,
                      fun hcon => absurd hcon (by simp [isRed_node]),
                      fun _ hcon => absurd hcon (by simp [leftOf_node,
                        rightOf_node, isRed_node])⟩
                    rw [doDelete_lt_step hk (by rfl) hm, hdd1, Option.some_bind,
                      fixup_two_red, Option.map_some']
                    rfl
              | false =>
                cases hra with
                | @red rad ral rar _ hral hrar =>
                  obtain ⟨hinrad, hbral, hbrar⟩ := hbra
                  have hm : (if !(isRed (Tree.node lx true la lb)) &&
                        !(isRed (leftOf (Tree.node lx true la lb))) then
                      moveRedLeft (.node d true (.node lx true la lb)
                        (.node rx true (.node rad false ral rar) rb))
                      else some (.node d true (.node lx true la lb)
                        (.node rx true (.node rad false ral rar) rb))) =
                      some (.node rad true
                        (.node d true (.node lx false la lb) ral)
                        (.node rx true rar rb)) := by
                    rw [hc2, if_pos rfl]
                    exact mrl_dance
                  obtain ⟨l', old, hdd1, hBnd1, hio1, _, _, hP31⟩ :=
                    ih (by simp [size] at hsz ⊢; omega)
                      (.blk (.red hla hlb) hral)
                      ⟨⟨hin.1, forall_mem_some (inside_lo hinrad)⟩,
                        ⟨hinlx, hbla, hblb⟩, hbral⟩
                  have hl' : LBal l' true (m0 + 1) :=
                    hP31 (by simp [isRed_node])
                      (by simp [leftOf_node, isRed_node])
                  refine ⟨.node rad true l' (.node rx true rar rb), old, ?_,
                    ⟨⟨fun a ha => lt_trans (hin.1 a ha) (inside_lo hinrad),
                        fun bb hbb => lt_trans (inside_hi hinrad)
                          (hinrx.2 bb hbb)⟩, hBnd1,
                      ⟨⟨forall_mem_some (inside_hi hinrad), hinrx.2⟩,
                        hbrar, hbrb⟩⟩, ?_,
                    ⟨m0 + 2, .bal (.black hl' (.black hrar hrb))⟩,
                    fun hcon => absurd hcon (by simp [isRed_node]),
                    fun _ hcon => absurd hcon (by simp [leftOf_node,
                      rightOf_node, isRed_node])⟩
                  · rw [doDelete_lt_step hk (by rfl) hm, hdd1, Option.some_bind,
                      fixup_noop (by simp [isRed_node])
                        (Or.inl (isRed_false_of_black hl')), Option.map_some']
                  · refine delIO_extend_right
                      (C := rad :: (inorder rar ++ rx :: inorder rb)) hio1
                      (by simp [inorder]) (by simp [inorder]) ?_
                    intro e he
                    rcases List.mem_cons.mp he with he | he
                    · rw [he]
                      exact ne_of_gt (lt_trans hk (inside_lo hinrad))
                    · rcases List.mem_append.mp he with he | he
                      · exact ne_of_gt (lt_trans (lt_trans hk
                          (inside_lo hinrad))
                          (inside_lo (bnd_mem hbrar e he)))
                      · rcases List.mem_cons.mp he with he | he
                        · rw [he]
                          exact ne_of_gt (lt_trans (lt_trans hk
                            (inside_lo hinrad)) (inside_hi hinrad))
                        · exact ne_of_gt (lt_trans (lt_trans (lt_trans hk
                            (inside_lo hinrad)) (inside_hi hinrad))
                            (inside_lo (bnd_mem hbrb e he)))
      · -- black root, key at or beyond the root key
        cases hl with
        | @red lx la lb _ hla hlb =>
          -- A2: rotate_right, then descend into the rebuilt red right child
          obtain ⟨hinlx, hbla, hblb⟩ := hbl
          have hre : (if isRed (Tree.node lx false la lb) then
              rotateRight (.node d true (.node lx false la lb) r)
              else some (.node d true (.node lx false la lb) r)) =
              some (.node lx true la (.node d false lb r)) := by
            simp [isRed_node, rotateRight]
          have hdet : ¬ (¬ lx.key < key ∧
              (Tree.node d false lb r).isLeaf = true) := by
            simp [Tree.isLeaf]
          have hm2 : (if (!(Tree.node d false lb r).isLeaf) &&
                !(isRed (Tree.node d false lb r)) &&
                !(isRed (leftOf (Tree.node d false lb r))) then
              moveRedRight (.node lx true la (.node d false lb r))
              else some (.node lx true la (.node d false lb r))) =
              some (.node lx true la (.node d false lb r)) := by
            simp [Tree.isLeaf, isRed_node]
          have hs : lx.key < key :=
            lt_of_lt_of_le (inside_hi hinlx) (not_lt.mp hk)
          obtain ⟨r'', old, hdd1, hBnd1, hio1, _, hP21, _⟩ :=
            ih (by simp [size] at hsz ⊢; omega) (.red hlb hr)
              ⟨⟨forall_mem_some (inside_hi hinlx), hin.2⟩, hblb, hbr⟩
          obtain ⟨c'', hr''⟩ := hP21 (by simp [isRed_node])
          have hCkeys : ∀ e ∈ inorder la ++ [lx], e.key ≠ key := by
            intro e he
            rcases List.mem_append.mp he with he | he
            · exact ne_of_lt (lt_trans (inside_hi (bnd_mem hbla e he)) hs)
            · simp only [List.mem_singleton] at he
              rw [he]
              exact ne_of_lt hs
          cases c'' with
          | true =>
            refine ⟨.node lx true la r'', old, ?_,
              ⟨⟨hinlx.1, fun bb hbb => lt_trans (inside_hi hinlx)
                  (hin.2 bb hbb)⟩, hbla, hBnd1⟩,
              delIO_extend_left (C := inorder la ++ [lx]) hio1
                (by simp [inorder]) (by simp [inorder]) hCkeys,
              ⟨n + 1, .bal (.black hla hr'')⟩,
              fun hcon => absurd hcon (by simp [isRed_node]),
              fun _ _ => .black hla hr''⟩
            rw [doDelete_right_step hk hre hdet hm2 hs, hdd1,
              Option.some_bind,
              fixup_noop (isRed_false_of_black hr'')
                (Or.inl (isRed_false_of_black hla)), Option.map_some']
          | false =>
            cases hr'' with
            | @red r2d r2l r2r _ hr2l hr2r =>
              obtain ⟨hinr2, hbr2l, hbr2r⟩ := hBnd1
              refine ⟨.node r2d true (.node lx false la r2l) r2r, old, ?_,
                ⟨⟨fun a ha => lt_trans (hinlx.1 a ha) (inside_lo hinr2),
                    hinr2.2⟩,
                  ⟨⟨hinlx.1, forall_mem_some (inside_lo hinr2)⟩, hbla, hbr2l⟩,
                  hbr2r⟩,
                delIO_extend_left (C := inorder la ++ [lx]) hio1
                (by simp [inorder]) (by simp [inorder]) hCkeys,
                ⟨n + 1, .bal (.black (.red hla hr2l) hr2r)⟩,
                fun hcon => absurd hcon (by simp [isRed_node]),
                fun _ _ => .black (.red hla hr2l) hr2r⟩
              rw [doDelete_right_step hk hre hdet hm2 hs, hdd1,
                Option.some_bind,
                fixup_rotl (isRed_false_of_black hla)
                  (isRed_false_of_black hr2r), Option.map_some']
        | leaf =>
          cases hr with
          | leaf =>
            have hre : (if isRed (Tree.leaf : Tree K V D) then
                rotateRight (.node d true .leaf .leaf)
                else some (.node d true .leaf .leaf)) =
                some (.node d true .leaf .leaf) := by
              simp [isRed]
            by_cases hdk : d.key < key
            · have hdet : ¬ (¬ d.key < key ∧
                  (Tree.leaf : Tree K V D).isLeaf = true) :=
                fun hcc => hcc.1 hdk
              have hm2 : (if (!(Tree.leaf : Tree K V D).isLeaf) &&
                    !(isRed (Tree.leaf : Tree K V D)) &&
                    !(isRed (leftOf (Tree.leaf : Tree K V D))) then
                  moveRedRight (.node d true .leaf .leaf)
                  else some (.node d true .leaf .leaf)) =
                  some (.node d true .leaf .leaf) := by
                simp [Tree.isLeaf]
              refine ⟨.node d true .leaf .leaf, none, ?_,
                ⟨hin, trivial, trivial⟩, Or.inl ⟨rfl, rfl, ?_⟩,
                ⟨1, .bal (.black .leaf .leaf)⟩,
                fun hcon => absurd hcon (by simp [isRed_node]),
                fun _ hcon => absurd hcon (by simp [leftOf_node,
                  rightOf_node, isRed])⟩
              · rw [doDelete_right_step hk hre hdet hm2 hdk,
                  show doDelete (.leaf : Tree K V D) key = some (.leaf, none)
                    from by rw [doDelete],
                  Option.some_bind,
                  fixup_noop (by simp [isRed]) (Or.inl (by simp [isRed])),
                  Option.map_some']
              · intro e he
                simp only [inorder, List.mem_append, List.mem_cons] at he
                rcases he with he | he | he
                · simp [inorder] at he
                · rw [he]; exact ne_of_lt hdk
                · simp [inorder] at he
            · have hdeq : d.key = key :=
                le_antisymm (not_lt.mp hk) (not_lt.mp hdk)
              refine ⟨.leaf, some d,
                doDelete_detach hk hre ⟨hdk, rfl⟩, trivial,
                Or.inr ⟨d, [], [], rfl, hdeq, by simp [inorder], rfl⟩,
                ⟨0, .bal .leaf⟩,
                fun hcon => absurd hcon (by simp [isRed_node]),
                fun _ hcon => absurd hcon (by simp [leftOf_node,
                  rightOf_node, isRed])⟩
        | @black lx la lb cla m0 hla hlb =>
          cases hr with
          | @black rx ra rb c2 _ hra hrb =>
            obtain ⟨hinlx, hbla, hblb⟩ := hbl
            obtain ⟨hinrx, hbra, hbrb⟩ := hbr
            have hre : (if isRed (Tree.node lx true la lb) then
                rotateRight (.node d true (.node lx true la lb)
                  (.node rx true ra rb))
                else some (.node d true (.node lx true la lb)
                  (.node rx true ra rb))) =
                some (.node d true (.node lx true la lb)
                  (.node rx true ra rb)) := by
              simp [isRed_node]
            have hdet : ¬ (¬ d.key < key ∧
                (Tree.node rx true ra rb).isLeaf = true) := by
              simp [Tree.isLeaf]
            cases c2 with
            | false =>
              cases hra with
              | @red rad ral rar _ hral hrar =>
                have hm2 : (if (!(Tree.node rx true
                      (Tree.node rad false ral rar) rb).isLeaf) &&
                      !(isRed (Tree.node rx true
                        (Tree.node rad false ral rar) rb)) &&
                      !(isRed (leftOf (Tree.node rx true
                        (Tree.node rad false ral rar) rb))) then
                    moveRedRight (.node d true (.node lx true la lb)
                      (.node rx true (.node rad false ral rar) rb))
                    else some (.node d true (.node lx true la lb)
                      (.node rx true (.node rad false ral rar) rb))) =
                    some (.node d true (.node lx true la lb)
                      (.node rx true (.node rad false ral rar) rb)) := by
                  simp [Tree.isLeaf, isRed_node, leftOf_node]
                by_cases hdk : d.key < key
                · obtain ⟨r'', old, hdd1, hBnd1, hio1, _, _, hP31⟩ :=
                    ih (by simp [size] at hsz ⊢; omega)
                      (.blk (.red hral hrar) hrb)
                      ⟨hinrx, hbra, hbrb⟩
                  have hr'' : LBal r'' true (m0 + 1) :=
                    hP31 (by simp [isRed_node])
                      (by simp [leftOf_node, isRed_node])
                  refine ⟨.node d true (.node lx true la lb) r'', old, ?_,
                    ⟨hin, ⟨hinlx, hbla, hblb⟩, hBnd1⟩,
                    delIO_right hio1 (by simp [inorder])
                      ⟨hinlx, hbla, hblb⟩ hdk,
                    ⟨m0 + 2, .bal (.black (.black hla hlb) hr'')⟩,
                    fun hcon => absurd hcon (by simp [isRed_node]),
                    fun _ hcon => absurd hcon (by simp [leftOf_node,
                      rightOf_node, isRed_node])⟩
                  rw [doDelete_right_step hk hre hdet hm2 hdk, hdd1,
                    Option.some_bind,
                    fixup_noop (isRed_false_of_black hr'')
                      (Or.inl (by simp [isRed_node])), Option.map_some']
                · have hdeq : d.key = key :=
                    le_antisymm (not_lt.mp hk) (not_lt.mp hdk)
                  obtain ⟨r4, d0, hdm, hIns4, hBnd4, hio4, hcT4, _⟩ :=
                    deleteMin_spec (le_refl _) (.black (.red hral hrar) hrb)
                      ⟨hinrx, hbra, hbrb⟩
                      (Or.inr (by simp [leftOf_node, isRed_node]))
                  have hr4 := hcT4 rfl
                  refine ⟨.node d0 true (.node lx true la lb) r4, some d, ?_,
                    ⟨inside_widen_lo hIns4 hin.1,
                      bnd_weaken_hi ⟨hinlx, hbla, hblb⟩
                        (forall_mem_some (inside_lo hIns4)), hBnd4⟩,
                    Or.inr ⟨d, inorder (Tree.node lx true la lb),
                      d0 :: inorder r4, rfl, hdeq, ?_, rfl⟩,
                    ⟨m0 + 2, .bal (.black (.black hla hlb) hr4)⟩,
                    fun hcon => absurd hcon (by simp [isRed_node]),
                    fun _ hcon => absurd hcon (by simp [leftOf_node,
                      rightOf_node, isRed_node])⟩
                  · rw [doDelete_splice_step hk hre hdet hm2 hdk, hdm]
                    show (fixup (.node d0 true (.node lx true la lb) r4)).map
                        (fun t5 => (t5, some d)) =
                      some (.node d0 true (.node lx true la lb) r4, some d)
                    rw [fixup_noop (isRed_false_of_black hr4)
                      (Or.inl (by simp [isRed_node])), Option.map_some']
                  · show inorder (Tree.node lx true la lb) ++ d ::
                        inorder (Tree.node rx true
                          (Tree.node rad false ral rar) rb) = _
                    rw [hio4]
            | true =>
              have hgc : (!(Tree.node rx true ra rb).isLeaf &&
                  !isRed (Tree.node rx true ra rb) &&
                  !isRed (leftOf (Tree.node rx true ra rb))) = true := by
                simp [Tree.isLeaf, isRed_node, leftOf_node,
                  isRed_false_of_black hra]
              cases cla with
              | false =>
                cases hla with
                | @red lad lal lar _ hlal hlar =>
                  have hm2 : (if (!(Tree.node rx true ra rb).isLeaf) &&
                        !(isRed (Tree.node rx true ra rb)) &&
                        !(isRed (leftOf (Tree.node rx true ra rb))) then
                      moveRedRight (.node d true (.node lx true
                        (.node lad false lal lar) lb) (.node rx true ra rb))
                      else some (.node d true (.node lx true
                        (.node lad false lal lar) lb) (.node rx true ra rb))) =
                      some (.node lx true (.node lad true lal lar)
                        (.node d true lb (.node rx false ra rb))) := by
                    rw [hgc, if_pos rfl]
                    exact mrr_dance
                  have hs : lx.key < key :=
                    lt_of_lt_of_le (inside_hi hinlx) (not_lt.mp hk)
                  obtain ⟨r'', old, hdd1, hBnd1, hio1, _, _, hP31⟩ :=
                    ih (by simp [size] at hsz ⊢; omega)
                      (.bred hlb (.red hra hrb) (not_lt.mp hk))
                      ⟨⟨forall_mem_some (inside_hi hinlx), hin.2⟩,
                        hblb, ⟨hinrx, hbra, hbrb⟩⟩
                  have hr'' : LBal r'' true (m0 + 1) :=
                    hP31 (by simp [isRed_node])
                      (by simp [rightOf_node, isRed_node])
                  refine ⟨.node lx true (.node lad true lal lar) r'', old, ?_,
                    ⟨⟨hinlx.1, fun bb hbb => lt_trans (inside_hi hinlx)
                        (hin.2 bb hbb)⟩,
                      ⟨hbla.1, hbla.2.1, hbla.2.2⟩, hBnd1⟩, ?_,
                    ⟨m0 + 2, .bal (.black (.black hlal hlar) hr'')⟩,
                    fun hcon => absurd hcon (by simp [isRed_node]),
                    fun _ hcon => absurd hcon (by simp [leftOf_node,
                      rightOf_node, isRed_node])⟩
                  · rw [doDelete_right_step hk hre hdet hm2 hs, hdd1,
                      Option.some_bind,
                      fixup_noop (isRed_false_of_black hr'')
                        (Or.inl (by simp [isRed_node])), Option.map_some']
                  · refine delIO_extend_left
                      (C := inorder (Tree.node lad false lal lar) ++ [lx])
                      hio1 (by simp [inorder]) (by simp [inorder]) ?_
                    intro e he
                    rcases List.mem_append.mp he with he | he
                    · exact ne_of_lt (lt_trans
                        (inside_hi (bnd_mem hbla e he)) hs)
                    · simp only [List.mem_singleton] at he
                      rw [he]
                      exact ne_of_lt hs
              | true =>
                have hm2 : (if (!(Tree.node rx true ra rb).isLeaf) &&
                      !(isRed (Tree.node rx true ra rb)) &&
                      !(isRed (leftOf (Tree.node rx true ra rb))) then
                    moveRedRight (.node d true (.node lx true la lb)
                      (.node rx true ra rb))
                    else some (.node d true (.node lx true la lb)
                      (.node rx true ra rb))) =
                    some (.node d false (.node lx false la lb)
                      (.node rx false ra rb)) := by
                  rw [hgc, if_pos rfl]
                  exact mrr_flip (isRed_false_of_black hla)
                by_cases hdk : d.key < key
                · obtain ⟨r'', old, hdd1, hBnd1, hio1, _, hP21, _⟩ :=
                    ih (by simp [size] at hsz ⊢; omega) (.red hra hrb)
                      ⟨hinrx, hbra, hbrb⟩
                  obtain ⟨c'', hr''⟩ := hP21 (by simp [isRed_node])
                  cases c'' with
                  | true =>
                    refine ⟨.node d false (.node lx false la lb) r'', old, ?_,
                      ⟨hin, ⟨hinlx, hbla, hblb⟩, hBnd1⟩,
                      delIO_right hio1 (by simp [inorder])
                        ⟨hinlx, hbla, hblb⟩ hdk,
                      ⟨m0, .rr (.red hla hlb) hr''⟩,
                      fun hcon => absurd hcon (by simp [isRed_node]),
                      fun _ hcon => absurd hcon (by simp [leftOf_node,
                        rightOf_node, isRed_node])⟩
                    rw [doDelete_right_step hk hre hdet hm2 hdk, hdd1,
                      Option.some_bind,
                      fixup_noop (isRed_false_of_black hr'')
                        (Or.inr (by simp [leftOf_node, isRed_node,
                          isRed_false_of_black hla])), Option.map_some']
                  | false =>
                    cases hr'' with
                    | @red r2d r2l r2r _ hr2l hr2r =>
                      refine ⟨.node d true (.node lx true la lb)
                          (.node r2d true r2l r2r), old, ?_,
                        ⟨hin, ⟨hinlx, hbla, hblb⟩, hBnd1⟩,
                        delIO_right hio1 (by simp [inorder])
                          ⟨hinlx, hbla, hblb⟩ hdk,
                        ⟨m0 + 2, .bal (.black (.black hla hlb)
                          (.black hr2l hr2r))⟩,
                        fun hcon => absurd hcon (by simp [isRed_node]),
                        fun _ hcon => absurd hcon (by simp [leftOf_node,
                          rightOf_node, isRed_node])⟩
                      rw [doDelete_right_step hk hre hdet hm2 hdk, hdd1,
                        Option.some_bind, fixup_two_red, Option.map_some']
                      rfl
                · have hdeq : d.key = key :=
                    le_antisymm (not_lt.mp hk) (not_lt.mp hdk)
                  obtain ⟨r4, d0, hdm, hIns4, hBnd4, hio4, _, hcF4⟩ :=
                    deleteMin_spec (le_refl _) (.red hra hrb)
                      ⟨hinrx, hbra, hbrb⟩ (Or.inl rfl)
                  obtain ⟨c4, hr4⟩ := hcF4 rfl
                  cases c4 with
                  | true =>
                    refine ⟨.node d0 false (.node lx false la lb) r4, some d,
                      ?_,
                      ⟨inside_widen_lo hIns4 hin.1,
                        bnd_weaken_hi ⟨hinlx, hbla, hblb⟩
                          (forall_mem_some (inside_lo hIns4)), hBnd4⟩,
                      Or.inr ⟨d, inorder (Tree.node lx true la lb),
                        d0 :: inorder r4, rfl, hdeq, ?_, rfl⟩,
                      ⟨m0, .rr (.red hla hlb) hr4⟩,
                      fun hcon => absurd hcon (by simp [isRed_node]),
                      fun _ hcon => absurd hcon (by simp [leftOf_node,
                        rightOf_node, isRed_node])⟩
                    · rw [doDelete_splice_step hk hre hdet hm2 hdk, hdm]
                      show (fixup (.node d0 false (.node lx false la lb)
                          r4)).map (fun t5 => (t5, some d)) =
                        some (.node d0 false (.node lx false la lb) r4, some d)
                      rw [fixup_noop (isRed_false_of_black hr4)
                        (Or.inr (by simp [leftOf_node, isRed_node,
                          isRed_false_of_black hla])), Option.map_some']
                    · show inorder (Tree.node lx true la lb) ++ d ::
                          inorder (Tree.node rx false ra rb) = _
                      rw [hio4]
                  | false =>
                    cases hr4 with
                    | @red r4d r4l r4r _ hr4l hr4r =>
                      refine ⟨.node d0 true (.node lx true la lb)
                          (.node r4d true r4l r4r), some d, ?_,
                        ⟨inside_widen_lo hIns4 hin.1,
                          bnd_weaken_hi ⟨hinlx, hbla, hblb⟩
                            (forall_mem_some (inside_lo hIns4)), hBnd4⟩,
                        Or.inr ⟨d, inorder (Tree.node lx true la lb),
                          d0 :: inorder (Tree.node r4d false r4l r4r),
                          rfl, hdeq, ?_, rfl⟩,
                        ⟨m0 + 2, .bal (.black (.black hla hlb)
                          (.black hr4l hr4r))⟩,
                        fun hcon => absurd hcon (by simp [isRed_node]),
                        fun _ hcon => absurd hcon (by simp [leftOf_node,
                          rightOf_node, isRed_node])⟩
                      · rw [doDelete_splice_step hk hre hdet hm2 hdk, hdm]
                        show (fixup (.node d0 false (.node lx false la lb)
                            (.node r4d false r4l r4r))).map
                            (fun t5 => (t5, some d)) =
                          some (.node d0 true (.node lx true la lb)
                            (.node r4d true r4l r4r), some d)
                        rw [fixup_two_red, Option.map_some']
                        rfl
                      · show inorder (Tree.node lx true la lb) ++ d ::
                            inorder (Tree.node rx false ra rb) = _
                        rw [hio4]
    | @bred d l r n0 hl hrr hkle =>
      obtain ⟨hin, hbl, hbr⟩ := hbnd
      by_cases hk : key < d.key
      · exact absurd (lt_of_le_of_lt hkle hk) (lt_irrefl _)
      · cases hrr with
        | @red rx ra rb _ hra hrb =>
          obtain ⟨hinrx, hbra, hbrb⟩ := hbr
          have hre : (if isRed l then rotateRight (.node d true l
              (.node rx false ra rb))
              else some (.node d true l (.node rx false ra rb))) =
              some (.node d true l (.node rx false ra rb)) := by
            rw [isRed_false_of_black hl]
            simp
          have hdet : ¬ (¬ d.key < key ∧
              (Tree.node rx false ra rb).isLeaf = true) := by
            simp [Tree.isLeaf]
          have hm2 : (if (!(Tree.node rx false ra rb).isLeaf) &&
                !(isRed (Tree.node rx false ra rb)) &&
                !(isRed (leftOf (Tree.node rx false ra rb))) then
              moveRedRight (.node d true l (.node rx false ra rb))
              else some (.node d true l (.node rx false ra rb))) =
              some (.node d true l (.node rx false ra rb)) := by
            simp [Tree.isLeaf, isRed_node]
          by_cases hdk : d.key < key
          · obtain ⟨r'', old, hdd1, hBnd1, hio1, _, hP21, _⟩ :=
              ih (by simp [size] at hsz ⊢; omega) (.red hra hrb)
                ⟨hinrx, hbra, hbrb⟩
            obtain ⟨c'', hr''⟩ := hP21 (by simp [isRed_node])
            cases c'' with
            | true =>
              refine ⟨.node d true l r'', old, ?_, ⟨hin, hbl, hBnd1⟩,
                delIO_right hio1 (by simp [inorder]) hbl hdk,
                ⟨n0 + 1, .bal (.black hl hr'')⟩,
                fun hcon => absurd hcon (by simp [isRed_node]),
                fun _ _ => .black hl hr''⟩
              rw [doDelete_right_step hk hre hdet hm2 hdk, hdd1,
                Option.some_bind,
                fixup_noop (isRed_false_of_black hr'')
                  (Or.inl (isRed_false_of_black hl)), Option.map_some']
            | false =>
              cases hr'' with
              | @red r2d r2l r2r _ hr2l hr2r =>
                obtain ⟨hinr2, hbr2l, hbr2r⟩ := hBnd1
                refine ⟨.node r2d true (.node d false l r2l) r2r, old, ?_,
                  ⟨⟨fun a ha => lt_trans (hin.1 a ha) (inside_lo hinr2),
                      hinr2.2⟩,
                    ⟨⟨hin.1, forall_mem_some (inside_lo hinr2)⟩, hbl, hbr2l⟩,
                    hbr2r⟩,
                  delIO_right hio1 (by simp [inorder]) hbl hdk,
                  ⟨n0 + 1, .bal (.black (.red hl hr2l) hr2r)⟩,
                  fun hcon => absurd hcon (by simp [isRed_node]),
                  fun _ _ => .black (.red hl hr2l) hr2r⟩
                rw [doDelete_right_step hk hre hdet hm2 hdk, hdd1,
                  Option.some_bind,
                  fixup_rotl (isRed_false_of_black hl)
                    (isRed_false_of_black hr2r), Option.map_some']
          · have hdeq : d.key = key := le_antisymm hkle (not_lt.mp hdk)
            obtain ⟨r4, d0, hdm, hIns4, hBnd4, hio4, _, hcF4⟩ :=
              deleteMin_spec (le_refl _) (.red hra hrb)
                ⟨hinrx, hbra, hbrb⟩ (Or.inl rfl)
            obtain ⟨c4, hr4⟩ := hcF4 rfl
            cases c4 with
            | true =>
              refine ⟨.node d0 true l r4, some d, ?_,
                ⟨inside_widen_lo hIns4 hin.1,
                  bnd_weaken_hi hbl (forall_mem_some (inside_lo hIns4)),
                  hBnd4⟩,
                Or.inr ⟨d, inorder l, d0 :: inorder r4, rfl, hdeq, ?_,
                  by simp [inorder]⟩,
                ⟨n0 + 1, .bal (.black hl hr4)⟩,
                fun hcon => absurd hcon (by simp [isRed_node]),
                fun _ _ => .black hl hr4⟩
              · rw [doDelete_splice_step hk hre hdet hm2 hdk, hdm]
                show (fixup (.node d0 true l r4)).map
                    (fun t5 => (t5, some d)) =
                  some (.node d0 true l r4, some d)
                rw [fixup_noop (isRed_false_of_black hr4)
                  (Or.inl (isRed_false_of_black hl)), Option.map_some']
              · show inorder l ++ d :: inorder (Tree.node rx false ra rb) = _
                rw [hio4]
            | false =>
              cases hr4 with
              | @red r4d r4l r4r _ hr4l hr4r =>
                obtain ⟨hinr4, hbr4l, hbr4r⟩ := hBnd4
                refine ⟨.node r4d true (.node d0 false l r4l) r4r, some d, ?_,
                  ⟨⟨fun a ha => lt_trans
                      ((inside_widen_lo hIns4 hin.1).1 a ha)
                      (inside_lo hinr4), hinr4.2⟩,
                    ⟨⟨(inside_widen_lo hIns4 hin.1).1,
                        forall_mem_some (inside_lo hinr4)⟩,
                      bnd_weaken_hi hbl (forall_mem_some (inside_lo hIns4)),
                      hbr4l⟩,
                    hbr4r⟩,
                  Or.inr ⟨d, inorder l,
                    d0 :: inorder (Tree.node r4d false r4l r4r), rfl, hdeq,
                    ?_, by simp [inorder]⟩,
                  ⟨n0 + 1, .bal (.black (.red hl hr4l) hr4r)⟩,
                  fun hcon => absurd hcon (by simp [isRed_node]),
                  fun _ _ => .black (.red hl hr4l) hr4r⟩
                · rw [doDelete_splice_step hk hre hdet hm2 hdk, hdm]
                  show (fixup (.node d0 true l
                      (.node r4d false r4l r4r))).map
                      (fun t5 => (t5, some d)) =
                    some (.node r4d true (.node d0 false l r4l) r4r, some d)
                  rw [fixup_rotl (isRed_false_of_black hl)
                    (isRed_false_of_black hr4r), Option.map_some']
                · show inorder l ++ d :: inorder (Tree.node rx false ra rb) = _
                  rw [hio4]

theorem map_id_of {α : Type} {f : α → α} {xs : List α}
    (h : ∀ e ∈ xs, f e = e) : xs.map f = xs := by
  induction xs with
  | nil => rfl
  | cons hd tl ih =>
    rw [List.map_cons, h hd (List.mem_cons_self hd tl),
      ih (fun e he => h e (List.mem_cons_of_mem hd he))]

theorem clearDirty_inorder [LinearOrder K] {t : Tree K V D} {k : K}
    {lo hi : Option K} (hbnd : Bnd lo hi t) :
    inorder (clearDirtyAtKey t k) = (inorder t).map
      (fun e => if e.key = k then { e with dirty := false } else e) := by
  induction t generalizing lo hi with
  | leaf => rfl
  | node d b l r ihl ihr =>
    obtain ⟨hin, hbl, hbr⟩ := hbnd
    rw [clearDirtyAtKey]
    split
    case isTrue heq =>
      simp only [inorder, List.map_append, List.map_cons]
      rw [if_pos heq]
      have hAid : (inorder l).map (fun e : NodeData K V D =>
          if e.key = k then { e with dirty := false } else e) = inorder l :=
        map_id_of (fun e he => if_neg (by
          have h1 := inside_hi (bnd_mem hbl e he)
          rw [heq] at h1
          exact ne_of_lt h1))
      have hBid : (inorder r).map (fun e : NodeData K V D =>
          if e.key = k then { e with dirty := false } else e) = inorder r :=
        map_id_of (fun e he => if_neg (by
          have h1 := inside_lo (bnd_mem hbr e he)
          rw [heq] at h1
          exact ne_of_gt h1))
      rw [hAid, hBid]
    case isFalse hne =>
      simp only [inorder, List.map_append, List.map_cons]
      rw [if_neg hne, ihl hbl, ihr hbr]

theorem ddin_of_black [LinearOrder K] {t : Tree K V D} {n : Nat} (key : K)
    (h : LBal t true n) : DDIn key t n := by
  cases h with
  | leaf => exact .leaf
  | black hl hr => exact .blk hl hr

/-- Mvcc::delete preserves the snapshot invariant and publishes
seqno + 1. -/
theorem delete_spec [LinearOrder K] [Inhabited V] [Diff V D]
    {s s2 : Index K V D} {key : K} {old : Option (NodeData K V D)}
    (hg : Good s) (h : Index.delete s key = some (s2, old)) :
    Good s2 ∧ s2.seqno = s.seqno + 1 ∧ s2.lsm = s.lsm := by
  obtain ⟨⟨n, hb⟩, hbnd, hnd⟩ := hg
  simp only [Index.delete] at h
  split at h
  case isTrue hlsm =>
    rw [Option.bind_eq_some] at h
    obtain ⟨p, hp, heq⟩ := h
    obtain ⟨t1, old1⟩ := p
    simp only [Option.some.injEq, Prod.mk.injEq] at heq
    obtain ⟨hs2, hold⟩ := heq
    subst hs2
    obtain ⟨⟨hRL, hBl⟩, hBnd2, hio⟩ :=
      deleteLsm_spec hb hbnd (inside_top key) hp
    obtain ⟨c', hb2⟩ := hBl rfl
    obtain ⟨n2, hsb⟩ := lbal_setBlack hb2
    have hdo : DirtyOnly key t1 :=
      insIO_dirtyOnly hio (by rw [deleteMark_key]; rfl)
        (fun d0 => deleteMark_key) hnd
    exact ⟨⟨⟨n2, clearDirty_lbal hsb⟩, clearDirty_bnd (setBlack_bnd hBnd2),
      clearDirty_noDirty (setBlack_dirtyOnly hdo) (setBlack_bnd hBnd2)⟩,
      rfl, rfl⟩
  case isFalse hlsm =>
    rw [Option.bind_eq_some] at h
    obtain ⟨p, hp, heq⟩ := h
    obtain ⟨t1, old1⟩ := p
    simp only [Option.some.injEq, Prod.mk.injEq] at heq
    obtain ⟨hs2, hold⟩ := heq
    subst hs2
    obtain ⟨t', old', hcomp, hBnd2, hio, ⟨m, hRL⟩, _, _⟩ :=
      doDelete_spec (le_refl (size s.root)) (ddin_of_black key hb) hbnd
    rw [hcomp] at hp
    simp only [Option.some.injEq, Prod.mk.injEq] at hp
    obtain ⟨ht1, hold1⟩ := hp
    subst ht1; subst hold1
    obtain ⟨n2, hsb⟩ := redL_setBlack hRL
    have hnd2 : NoDirty (setBlack t') := by
      rw [noDirty_iff, setBlack_inorder]
      intro e he
      rcases hio with ⟨_, heq2, _⟩ | ⟨d0, A, B, _, _, hA, hB⟩
      · exact (noDirty_iff.mp hnd) e (by rw [← heq2]; exact he)
      · rw [hB, List.mem_append] at he
        refine (noDirty_iff.mp hnd) e ?_
        rw [hA, List.mem_append, List.mem_cons]
        rcases he with he | he
        · exact Or.inl he
        · exact Or.inr (Or.inr he)
    exact ⟨⟨⟨n2, hsb⟩, setBlack_bnd hBnd2, hnd2⟩, rfl, rfl⟩

/-- C9: Mvcc::delete of an absent key hands back None as the old entry and
publishes a snapshot at seqno + 1.  In lsm mode a tombstone entry carrying
the default value, the new seqno and a deletion seqno equal to the new
seqno is inserted into the entry list and n_count grows by one; in non-lsm
mode the entry list and n_count are unchanged. -/
theorem mvcc_delete_absent [LinearOrder K] [Inhabited V] [Diff V D]
    {s s2 : Index K V D} {key : K} {old : Option (NodeData K V D)}
    (hg : Good s) (habs : ∀ e ∈ inorder s.root, e.key ≠ key)
    (h : Index.delete s key = some (s2, old)) :
    old = none ∧ s2.seqno = s.seqno + 1 ∧
    (s.lsm = true → s2.n_count = s.n_count + 1 ∧
      ∃ A B, inorder s.root = A ++ B ∧
        inorder s2.root = A ++
          (⟨key, default, s.seqno + 1, some (s.seqno + 1), [], false⟩ :
            NodeData K V D) :: B) ∧
    (s.lsm = false → s2.n_count = s.n_count ∧ inorder s2.root = inorder s.root) := by
  obtain ⟨⟨n, hb⟩, hbnd, hnd⟩ := hg
  simp only [Index.delete] at h
  split at h
  case isTrue hlsm =>
    rw [Option.bind_eq_some] at h
    obtain ⟨p, hp, heq⟩ := h
    obtain ⟨t1, old1⟩ := p
    simp only [Option.some.injEq, Prod.mk.injEq] at heq
    obtain ⟨hs2, hold⟩ := heq
    subst hs2
    obtain ⟨_, hBnd2, hio⟩ := deleteLsm_spec hb hbnd (inside_top key) hp
    rcases hio with ⟨hold1, _, A, B, hA, hB⟩ | ⟨d0, A, B, _, hk0, hA, _⟩
    · subst hold1
      refine ⟨hold.symm, rfl, fun _ => ⟨by simp, A, B, hA, ?_⟩,
        fun hf => by rw [hf] at hlsm; simp at hlsm⟩
      have hmap := clearDirty_inorder (k := key) (setBlack_bnd hBnd2)
      rw [setBlack_inorder] at hmap
      have hAonly : ∀ e ∈ A, e.key ≠ key := fun e he =>
        habs e (by rw [hA, List.mem_append]; exact Or.inl he)
      have hBonly : ∀ e ∈ B, e.key ≠ key := fun e he =>
        habs e (by rw [hA, List.mem_append]; exact Or.inr he)
      have hAid : A.map (fun e : NodeData K V D =>
          if e.key = key then { e with dirty := false } else e) = A :=
        map_id_of (fun e he => if_neg (hAonly e he))
      have hBid : B.map (fun e : NodeData K V D =>
          if e.key = key then { e with dirty := false } else e) = B :=
        map_id_of (fun e he => if_neg (hBonly e he))
      show inorder (clearDirtyAtKey (setBlack t1) key) = _
      rw [hmap, hB, List.map_append, List.map_cons, hAid, hBid]
      simp [newData, NodeData.deleteMark]
    · exact absurd hk0 (habs d0 (by
        rw [hA, List.mem_append, List.mem_cons]
        exact Or.inr (Or.inl rfl)))
  case isFalse hlsm =>
    rw [Option.bind_eq_some] at h
    obtain ⟨p, hp, heq⟩ := h
    obtain ⟨t1, old1⟩ := p
    simp only [Option.some.injEq, Prod.mk.injEq] at heq
    obtain ⟨hs2, hold⟩ := heq
    subst hs2
    obtain ⟨t', old', hcomp, hBnd2, hio, _, _, _⟩ :=
      doDelete_spec (le_refl (size s.root)) (ddin_of_black key hb) hbnd
    rw [hcomp] at hp
    simp only [Option.some.injEq, Prod.mk.injEq] at hp
    obtain ⟨ht1, hold1⟩ := hp
    subst ht1; subst hold1
    rcases hio with ⟨hold2, heq2, _⟩ | ⟨d0, A, B, _, hk0, hA, _⟩
    · refine ⟨by rw [← hold]; exact hold2, rfl,
        fun hf => absurd hf hlsm, fun _ => ⟨by simp [hold2], ?_⟩⟩
      show inorder (setBlack t') = _
      rw [setBlack_inorder, heq2]
    · exact absurd hk0 (habs d0 (by
        rw [hA, List.mem_append, List.mem_cons]
        exact Or.inr (Or.inl rfl)))

/-- A fresh lsm index, and the snapshot Mvcc::delete 5 publishes on it. -/
def c9S : Index Nat Nat Nat := Index.new true

def c9S2 : Index Nat Nat Nat :=
  ⟨true, .node ⟨5, 0, 1, some 1, [], false⟩ true .leaf .leaf, 1, 1⟩

theorem mvcc_delete_absent_witness :
    (none : Option (NodeData Nat Nat Nat)) = none ∧ c9S2.seqno = c9S.seqno + 1 ∧
    (c9S.lsm = true → c9S2.n_count = c9S.n_count + 1 ∧
      ∃ A B, inorder c9S.root = A ++ B ∧
        inorder c9S2.root = A ++
          (⟨5, default, c9S.seqno + 1, some (c9S.seqno + 1), [], false⟩ :
            NodeData Nat Nat Nat) :: B) ∧
    (c9S.lsm = false → c9S2.n_count = c9S.n_count ∧
      inorder c9S2.root = inorder c9S.root) :=
  mvcc_delete_absent ⟨⟨0, .leaf⟩, trivial, trivial⟩
    (fun e he => absurd he (by simp [c9S, Index.new, inorder]))
    rfl

theorem setBlack_id {t : Tree K V D} {n : Nat} (h : LBal t true n) :
    setBlack t = t := by
  cases h <;> rfl

/-- On a balanced subtree walkuprot_23 does nothing: the right child is
never red and red-red through the left never happens. -/
theorem walkuprot_id [LinearOrder K] {d : NodeData K V D} {b : Bool}
    {l r : Tree K V D} {c : Bool} {n : Nat}
    (hb : LBal (Tree.node d b l r) c n) :
    walkuprot23 (.node d b l r) = some (.node d b l r) := by
  cases hb with
  | red hl hr =>
    exact walkuprot_noop (isRed_false_of_black hr)
      (Or.inl (isRed_false_of_black hl))
  | black hl hr =>
    refine walkuprot_noop (isRed_false_of_black hr) ?_
    cases hl with
    | leaf => exact Or.inl rfl
    | red hll hlr => exact Or.inr (isRed_false_of_black hll)
    | black hll hlr => exact Or.inl rfl

/-- Every failing arm of Mvcc::upsert_cas returns the tree it was handed
(walkuprot_23 is the identity all the way up) and no old node. -/
theorem upsertCas_error [LinearOrder K] [Diff V D] {k : K} {v : V}
    {cas s : Nat} {lsm : Bool} {t : Tree K V D} {c : Bool} {n : Nat}
    (hb : LBal t c n) :
    ∀ {res : Option (Tree K V D)} {old : Option (NodeData K V D)} {e : CasError},
      upsertCas t k v cas s lsm = some (res, old, some e) →
      res.getD .leaf = t ∧ old = none := by
  induction hb with
  | leaf =>
    intro res old e h
    rw [upsertCas] at h
    split at h
    · simp only [Option.some.injEq, Prod.mk.injEq] at h
      obtain ⟨h1, h2, _⟩ := h
      subst h1; subst h2
      exact ⟨rfl, rfl⟩
    · simp at h
  | red hl hr ihl ihr =>
    intro res old e h
    rw [upsertCas] at h
    split at h
    · rw [Option.bind_eq_some] at h
      obtain ⟨p, hp, hq⟩ := h
      obtain ⟨p1, p2⟩ := p
      obtain ⟨p21, p22⟩ := p2
      rw [Option.map_eq_some'] at hq
      obtain ⟨t2, hw, hq⟩ := hq
      simp only [Prod.mk.injEq] at hq
      obtain ⟨h1, h2, h3⟩ := hq
      subst h3
      obtain ⟨hget, hold⟩ := ihl hp
      rw [hget] at hw
      rw [walkuprot_id (.red hl hr)] at hw
      simp only [Option.some.injEq] at hw
      subst hw; subst h1; subst h2; subst hold
      exact ⟨rfl, rfl⟩
    · split at h
      · rw [Option.bind_eq_some] at h
        obtain ⟨p, hp, hq⟩ := h
        obtain ⟨p1, p2⟩ := p
        obtain ⟨p21, p22⟩ := p2
        rw [Option.map_eq_some'] at hq
        obtain ⟨t2, hw, hq⟩ := hq
        simp only [Prod.mk.injEq] at hq
        obtain ⟨h1, h2, h3⟩ := hq
        subst h3
        obtain ⟨hget, hold⟩ := ihr hp
        rw [hget] at hw
        rw [walkuprot_id (.red hl hr)] at hw
        simp only [Option.some.injEq] at hw
        subst hw; subst h1; subst h2; subst hold
        exact ⟨rfl, rfl⟩
      · split at h
        · simp only [Option.some.injEq, Prod.mk.injEq] at h
          obtain ⟨h1, h2, _⟩ := h
          subst h1; subst h2
          exact ⟨rfl, rfl⟩
        · split at h
          · simp only [Option.some.injEq, Prod.mk.injEq] at h
            obtain ⟨h1, h2, _⟩ := h
            subst h1; subst h2
            exact ⟨rfl, rfl⟩
          · rw [Option.map_eq_some'] at h
            obtain ⟨t2, _, hq⟩ := h
            simp at hq
  | black hl hr ihl ihr =>
    intro res old e h
    rw [upsertCas] at h
    split at h
    · rw [Option.bind_eq_some] at h
      obtain ⟨p, hp, hq⟩ := h
      obtain ⟨p1, p2⟩ := p
      obtain ⟨p21, p22⟩ := p2
      rw [Option.map_eq_some'] at hq
      obtain ⟨t2, hw, hq⟩ := hq
      simp only [Prod.mk.injEq] at hq
      obtain ⟨h1, h2, h3⟩ := hq
      subst h3
      obtain ⟨hget, hold⟩ := ihl hp
      rw [hget] at hw
      rw [walkuprot_id (.black hl hr)] at hw
      simp only [Option.some.injEq] at hw
      subst hw; subst h1; subst h2; subst hold
      exact ⟨rfl, rfl⟩
    · split at h
      · rw [Option.bind_eq_some] at h
        obtain ⟨p, hp, hq⟩ := h
        obtain ⟨p1, p2⟩ := p
        obtain ⟨p21, p22⟩ := p2
        rw [Option.map_eq_some'] at hq
        obtain ⟨t2, hw, hq⟩ := hq
        simp only [Prod.mk.injEq] at hq
        obtain ⟨h1, h2, h3⟩ := hq
        subst h3
        obtain ⟨hget, hold⟩ := ihr hp
        rw [hget] at hw
        rw [walkuprot_id (.black hl hr)] at hw
        simp only [Option.some.injEq] at hw
        subst hw; subst h1; subst h2; subst hold
        exact ⟨rfl, rfl⟩
      · split at h
        · simp only [Option.some.injEq, Prod.mk.injEq] at h
          obtain ⟨h1, h2, _⟩ := h
          subst h1; subst h2
          exact ⟨rfl, rfl⟩
        · split at h
          · simp only [Option.some.injEq, Prod.mk.injEq] at h
            obtain ⟨h1, h2, _⟩ := h
            subst h1; subst h2
            exact ⟨rfl, rfl⟩
          · rw [Option.map_eq_some'] at h
            obtain ⟨t2, _, hq⟩ := h
            simp at hq

/-- A successful Mvcc::upsert_cas computes exactly what Mvcc::upsert
computes: the CAS guards only decide between the error arms and the
common write path. -/
theorem upsertCas_success [LinearOrder K] [Diff V D] {k : K} {v : V}
    {cas s : Nat} {lsm : Bool} :
    ∀ {t : Tree K V D} {res : Option (Tree K V D)}
      {old : Option (NodeData K V D)},
      upsertCas t k v cas s lsm = some (res, old, none) →
      ∃ t2, res = some t2 ∧ upsert t k v s lsm = some (t2, old) := by
  intro t
  induction t with
  | leaf =>
    intro res old h
    rw [upsertCas] at h
    split at h
    · simp at h
    · simp only [Option.some.injEq, Prod.mk.injEq] at h
      obtain ⟨h1, h2, _⟩ := h
      subst h1; subst h2
      exact ⟨_, rfl, rfl⟩
  | node data black l r ihl ihr =>
    intro res old h
    rw [upsertCas] at h
    split at h
    case isTrue hk =>
      rw [Option.bind_eq_some] at h
      obtain ⟨p, hp, hq⟩ := h
      obtain ⟨p1, p2⟩ := p
      obtain ⟨p21, p22⟩ := p2
      rw [Option.map_eq_some'] at hq
      obtain ⟨t2, hw, hq⟩ := hq
      simp only [Prod.mk.injEq] at hq
      obtain ⟨h1, h2, h3⟩ := hq
      subst h3
      obtain ⟨l2, hres, hup⟩ := ihl hp
      subst hres
      have hw2 : walkuprot23 (.node data black l2 r) = some t2 := by
        simpa using hw
      refine ⟨t2, h1.symm, ?_⟩
      rw [upsert, if_pos hk, hup]
      simp only [Option.some_bind, hw2, Option.map_some', h2]
    case isFalse hk =>
      split at h
      case isTrue hk2 =>
        rw [Option.bind_eq_some] at h
        obtain ⟨p, hp, hq⟩ := h
        obtain ⟨p1, p2⟩ := p
        obtain ⟨p21, p22⟩ := p2
        rw [Option.map_eq_some'] at hq
        obtain ⟨t2, hw, hq⟩ := hq
        simp only [Prod.mk.injEq] at hq
        obtain ⟨h1, h2, h3⟩ := hq
        subst h3
        obtain ⟨r2, hres, hup⟩ := ihr hp
        subst hres
        have hw2 : walkuprot23 (.node data black l r2) = some t2 := by
          simpa using hw
        refine ⟨t2, h1.symm, ?_⟩
        rw [upsert, if_neg hk, if_pos hk2, hup]
        simp only [Option.some_bind, hw2, Option.map_some', h2]
      case isFalse hk2 =>
        split at h
        · simp at h
        · split at h
          · simp at h
          · rw [Option.map_eq_some'] at h
            obtain ⟨t2, hw, hq⟩ := h
            simp only [Prod.mk.injEq] at hq
            obtain ⟨h1, h2, _⟩ := hq
            refine ⟨t2, h1.symm, ?_⟩
            rw [upsert, if_neg hk, if_neg hk2]
            show (walkuprot23 (Tree.node { data.prependVersion v s lsm with
                dirty := true } black l r)).map
              (fun a => (a, some data.cloneDetach)) = some (t2, old)
            rw [Option.map_eq_some']
            exact ⟨t2, hw, by rw [h2]⟩

/-- Mvcc::set_cas preserves the snapshot invariant and publishes
seqno + 1 on success and on InvalidCAS alike. -/
theorem setCas_spec [LinearOrder K] [Diff V D] {s s2 : Index K V D} {k : K}
    {v : V} {cas : Nat} {res : Except CasError (Option (NodeData K V D))}
    (hg : Good s) (h : Index.setCas s k v cas = some (s2, res)) :
    Good s2 ∧ s2.seqno = s.seqno + 1 ∧ s2.lsm = s.lsm := by
  obtain ⟨⟨n, hb⟩, hbnd, hnd⟩ := hg
  simp only [Index.setCas] at h
  rw [Option.bind_eq_some] at h
  obtain ⟨p, hp, heq⟩ := h
  obtain ⟨res0, p2⟩ := p
  obtain ⟨old0, err0⟩ := p2
  cases res0 with
  | none => simp at heq
  | some root =>
    cases err0 with
    | some e =>
      simp only [Option.some.injEq, Prod.mk.injEq] at heq
      obtain ⟨hs2, hres⟩ := heq
      subst hs2
      obtain ⟨hget, hold⟩ := upsertCas_error hb hp
      simp only [Option.getD_some] at hget
      subst hget
      rw [setBlack_id hb]
      exact ⟨⟨⟨n, hb⟩, hbnd, hnd⟩, rfl, rfl⟩
    | none =>
      simp only [Option.some.injEq, Prod.mk.injEq] at heq
      obtain ⟨hs2, hres⟩ := heq
      subst hs2
      obtain ⟨t2, hres2, hup⟩ := upsertCas_success hp
      simp only [Option.some.injEq] at hres2
      subst hres2
      obtain ⟨⟨hRL, hBl⟩, hBnd2, hio⟩ := upsert_spec hb hbnd (inside_top k) hup
      obtain ⟨c', hb2⟩ := hBl rfl
      obtain ⟨n2, hsb⟩ := lbal_setBlack hb2
      have hdo : DirtyOnly k root :=
        insIO_dirtyOnly hio (by rfl) (fun d0 => prependVersion_key) hnd
      exact ⟨⟨⟨n2, clearDirty_lbal hsb⟩, clearDirty_bnd (setBlack_bnd hBnd2),
        clearDirty_noDirty (setBlack_dirtyOnly hdo) (setBlack_bnd hBnd2)⟩,
        rfl, rfl⟩

/-- C1 (amended): a failing Mvcc::set_cas republishes the same logical
state — same root, entry count and lsm mode — but the observable seqno
still advances: shift_snapshot runs unconditionally, so the published
snapshot carries seqno + 1, not the seqno from before the call. -/
theorem set_cas_error_spec [LinearOrder K] [Diff V D] {s s2 : Index K V D}
    {k : K} {v : V} {cas : Nat} {e : CasError}
    (hg : Good s) (h : Index.setCas s k v cas = some (s2, .error e)) :
    s2.root = s.root ∧ s2.n_count = s.n_count ∧ s2.lsm = s.lsm ∧
    s2.seqno = s.seqno + 1 := by
  obtain ⟨⟨n, hb⟩, hbnd, hnd⟩ := hg
  simp only [Index.setCas] at h
  rw [Option.bind_eq_some] at h
  obtain ⟨p, hp, heq⟩ := h
  obtain ⟨res0, p2⟩ := p
  obtain ⟨old0, err0⟩ := p2
  cases res0 with
  | none => simp at heq
  | some root =>
    cases err0 with
    | none => simp at heq
    | some e2 =>
      simp only [Option.some.injEq, Prod.mk.injEq] at heq
      obtain ⟨hs2, hres⟩ := heq
      subst hs2
      obtain ⟨hget, hold⟩ := upsertCas_error hb hp
      simp only [Option.getD_some] at hget
      subst hget
      rw [setBlack_id hb]
      exact ⟨rfl, rfl, rfl, rfl⟩

/-- A one-entry non-lsm index: key 1 at seqno 1, snapshot seqno 1. -/
def c1S : Index Nat Nat Nat :=
  ⟨false, .node ⟨1, 10, 1, none, [], false⟩ true .leaf .leaf, 1, 1⟩

theorem set_cas_error_cex :
    Index.setCas c1S 1 20 5 =
      some ({ c1S with seqno := 2 }, .error .InvalidCAS) ∧
    ({ c1S with seqno := 2 } : Index Nat Nat Nat).seqno ≠ c1S.seqno :=
  ⟨rfl, by decide⟩

theorem set_cas_error_spec_witness :
    ({ c1S with seqno := 2 } : Index Nat Nat Nat).root = c1S.root ∧
    ({ c1S with seqno := 2 } : Index Nat Nat Nat).n_count = c1S.n_count ∧
    ({ c1S with seqno := 2 } : Index Nat Nat Nat).lsm = c1S.lsm ∧
    ({ c1S with seqno := 2 } : Index Nat Nat Nat).seqno = c1S.seqno + 1 :=
  set_cas_error_spec
    ⟨⟨1, .black .leaf .leaf⟩, ⟨inside_top 1, trivial, trivial⟩,
      ⟨rfl, trivial, trivial⟩⟩
    (rfl : Index.setCas c1S 1 20 5 =
      some ({ c1S with seqno := 2 }, .error .InvalidCAS))

/-- C6: the CAS acceptance rule breaks on an empty index.  With cas = 0 a
set_cas insert succeeds, but with any non-zero cas on an empty index
Mvcc::upsert_cas returns no root together with InvalidCAS and
Mvcc::set_cas falls into its `panic!("set_cas: impossible case")` arm
(modelled none) instead of returning InvalidCAS — unlike the twin
Llrb::upsert_cas, which returns Err(InvalidCAS) for the same input. -/
theorem set_cas_empty_panic :
    Index.setCas (Index.new false : Index Nat Nat Nat) 5 7 1 = none ∧
    ∃ s2 old, Index.setCas (Index.new false : Index Nat Nat Nat) 5 7 0 =
      some (s2, Except.ok old) :=
  ⟨rfl, ⟨_, _, rfl⟩⟩

/-- The states an Mvcc index can be in: freshly created, or published by a
successful public mutation (set, set_cas, delete) from a reachable
state. -/
inductive Reachable [LinearOrder K] [Inhabited V] [Diff V D] :
    Index K V D → Prop where
  | new (lsm : Bool) : Reachable (Index.new lsm)
  | set {s s2 : Index K V D} {key : K} {value : V} {old} :
      Reachable s → Index.set s key value = some (s2, old) → Reachable s2
  | setCas {s s2 : Index K V D} {k : K} {v : V} {cas : Nat} {res} :
      Reachable s → Index.setCas s k v cas = some (s2, res) → Reachable s2
  | del {s s2 : Index K V D} {key : K} {old} :
      Reachable s → Index.delete s key = some (s2, old) → Reachable s2

theorem reachable_good [LinearOrder K] [Inhabited V] [Diff V D]
    {s : Index K V D} (h : Reachable s) : Good s := by
  induction h with
  | new lsm => exact ⟨⟨0, .leaf⟩, trivial, trivial⟩
  | set _ hstep ih => exact (set_spec ih hstep).1
  | setCas _ hstep ih => exact (setCas_spec ih hstep).1
  | del _ hstep ih => exact (delete_spec ih hstep).1

/-- C2: after every sequence of public mutations (set, set_cas, delete)
from a fresh index, Mvcc::validate succeeds: the published tree has no
dirty node, no consecutive reds, strict key ordering at every node and
equal black counts on all paths, so validate_tree returns Ok rather than
any of DirtyNode, ConsecutiveReds, SortError or UnbalancedBlacks. -/
theorem validate_after_mutations [LinearOrder K] [Inhabited V] [Diff V D]
    {s : Index K V D} (h : Reachable s) :
    ∃ blacks, Index.validate s = .ok blacks :=
  validate_ok_of_good (reachable_good h)

theorem validate_after_mutations_witness :
    ∃ blacks, Index.validate
      (⟨false, .node ⟨1, 10, 1, none, [], false⟩ true .leaf .leaf, 1, 1⟩ :
        Index Nat Nat Nat) = .ok blacks :=
  validate_after_mutations
    (Reachable.set (Reachable.new false)
      (rfl : Index.set (Index.new false) 1 10 =
        some (⟨false, .node ⟨1, 10, 1, none, [], false⟩ true .leaf .leaf,
          1, 1⟩, none)))

end Mvcc
